import Mathlib

/-!
Verification of the tinygrad GPU operation core (`tinygrad/ops_gpu.py`).

The development shallowly embeds the Python/OpenCL source into Lean:

* device float buffers become `GPUBuffer` (a shape together with a flat
  row-major list of values); 32-bit float arithmetic is modelled over `ℚ`
  (the claims under study concern index wiring, shapes and exact rational
  formulas such as `1/(count + 1e-10)`, not float rounding);
* each OpenCL kernel body is translated statement by statement into a pure
  Lean function on flat indices (`get_global_id` becomes the mapped index);
  reads outside a device buffer are undefined behaviour on the device and are
  modelled by `List.getD _ _ 0`;
* fallible host code (`raise`, failing `assert`, Python unpacking errors)
  becomes `Except String`;
* buffer allocations and kernel launches are logged as `Event`s in source
  order by the operations whose failure behaviour is under study.
-/

namespace TinygradGpu

/-! ## Row-major index arithmetic toolkit -/

/-- Row-major flattening of a multi-index, processing dimensions from the most
significant (leftmost) side, with an explicit accumulator:
`flatAcc [(d1,m1),(d2,m2)] a = (a*d1+m1)*d2+m2`. -/
def flatAcc (l : List (Nat × Nat)) (a : Nat) : Nat :=
  l.foldl (fun acc p => acc * p.1 + p.2) a

/-- Row-major flat index of multi-index `m` inside shape `sh`. -/
def flatIdx (sh m : List Nat) : Nat :=
  flatAcc (sh.zip m) 0

/-- Little-endian flattening: first entry is the least significant digit. -/
def flatR : List Nat → List Nat → Nat
  | _, [] => 0
  | [], _ => 0
  | d :: ds, i :: is' => i + d * flatR ds is'

/-- Little-endian digits of `g` with respect to the (reversed) shape `ds`:
first digit is the least significant one. -/
def multiIdxR (g : Nat) : List Nat → List Nat
  | [] => []
  | d :: ds => g % d :: multiIdxR (g / d) ds

/-- Row-major (big-endian) digits of `g` with respect to shape `sh`. -/
def multiIdx (sh : List Nat) (g : Nat) : List Nat :=
  (multiIdxR g sh.reverse).reverse

theorem flatAcc_append (l₁ l₂ : List (Nat × Nat)) (a : Nat) :
    flatAcc (l₁ ++ l₂) a = flatAcc l₂ (flatAcc l₁ a) := by
  simp [flatAcc, List.foldl_append]

theorem flatAcc_acc (l : List (Nat × Nat)) (a : Nat) :
    flatAcc l a = a * (l.map Prod.fst).prod + flatAcc l 0 := by
  induction l generalizing a with
  | nil => simp [flatAcc]
  | cons p l ih =>
    simp only [flatAcc, List.foldl_cons] at *
    rw [ih (a * p.1 + p.2), ih (0 * p.1 + p.2), List.map_cons, List.prod_cons]
    ring

theorem flatIdx_nil : flatIdx [] [] = 0 := rfl

theorem flatIdx_concat (sh m : List Nat) (d i : Nat) (h : sh.length = m.length) :
    flatIdx (sh ++ [d]) (m ++ [i]) = flatIdx sh m * d + i := by
  unfold flatIdx
  rw [List.zip_append h, flatAcc_append]
  simp [flatAcc]

theorem flatIdx_lt (sh m : List Nat) (h : sh.length = m.length)
    (hb : ∀ p ∈ sh.zip m, p.2 < p.1) : flatIdx sh m < sh.prod := by
  induction sh using List.reverseRecOn generalizing m with
  | nil =>
    have : m = [] := List.eq_nil_of_length_eq_zero h.symm
    subst this; simp [flatIdx, flatAcc]
  | append_singleton sh d ih =>
    cases m using List.reverseRecOn with
    | nil => simp at h
    | append_singleton m i =>
      simp only [List.length_append, List.length_singleton] at h
      have hlen : sh.length = m.length := by omega
      have hzip : (sh ++ [d]).zip (m ++ [i]) = sh.zip m ++ [(d, i)] :=
        List.zip_append hlen
      have hi : i < d := by
        have := hb (d, i) (by rw [hzip]; simp)
        simpa using this
      have hrest : ∀ p ∈ sh.zip m, p.2 < p.1 := by
        intro p hp; exact hb p (by rw [hzip]; exact List.mem_append_left _ hp)
      rw [flatIdx_concat sh m d i hlen, List.prod_append, List.prod_singleton]
      have := ih m hlen hrest
      calc flatIdx sh m * d + i < flatIdx sh m * d + d := by omega
        _ = (flatIdx sh m + 1) * d := by ring
        _ ≤ sh.prod * d := Nat.mul_le_mul_right d this

theorem multiIdxR_length (g : Nat) (ds : List Nat) :
    (multiIdxR g ds).length = ds.length := by
  induction ds generalizing g with
  | nil => rfl
  | cons d ds ih => simp [multiIdxR, ih]

theorem multiIdxR_lt (g : Nat) (ds : List Nat) (hpos : ∀ d ∈ ds, 0 < d) :
    ∀ p ∈ ds.zip (multiIdxR g ds), p.2 < p.1 := by
  induction ds generalizing g with
  | nil => intro p hp; simp [multiIdxR] at hp
  | cons d ds ih =>
    intro p hp
    simp only [multiIdxR, List.zip_cons_cons, List.mem_cons] at hp
    rcases hp with h | h
    · subst h; exact Nat.mod_lt _ (hpos d (by simp))
    · exact ih (g / d) (fun e he => hpos e (by simp [he])) p h

theorem zip_of_reverse {α β : Type} (A : List α) (B : List β)
    (h : A.length = B.length) :
    A.reverse.zip B.reverse = (A.zip B).reverse := by
  induction A generalizing B with
  | nil =>
    have : B = [] := List.eq_nil_of_length_eq_zero h.symm
    subst this; rfl
  | cons a A ih =>
    cases B with
    | nil => simp at h
    | cons b B =>
      have hlen : A.length = B.length := by simpa using h
      simp only [List.reverse_cons]
      rw [List.zip_append (by simp [hlen]), ih B hlen]
      simp

theorem flatR_multiIdxR (g : Nat) (ds : List Nat) :
    flatR ds (multiIdxR g ds) = g % ds.prod := by
  induction ds generalizing g with
  | nil => simp [multiIdxR, flatR, Nat.mod_one]
  | cons d ds ih =>
    simp only [multiIdxR, flatR, List.prod_cons, ih (g / d)]
    exact (Nat.mod_mul).symm

theorem multiIdxR_flatR (ds ms : List Nat) (h : ds.length = ms.length)
    (hb : ∀ p ∈ ds.zip ms, p.2 < p.1) :
    multiIdxR (flatR ds ms) ds = ms := by
  induction ds generalizing ms with
  | nil =>
    have : ms = [] := List.eq_nil_of_length_eq_zero h.symm
    subst this; rfl
  | cons d ds ih =>
    cases ms with
    | nil => simp at h
    | cons m ms =>
      have hm : m < d := by
        have := hb (d, m) (by simp)
        simpa using this
      have hrest : ∀ p ∈ ds.zip ms, p.2 < p.1 := by
        intro p hp; exact hb p (by simp [hp])
      simp only [flatR, multiIdxR]
      have h1 : (m + d * flatR ds ms) % d = m := by
        rw [Nat.add_mul_mod_self_left, Nat.mod_eq_of_lt hm]
      have h2 : (m + d * flatR ds ms) / d = flatR ds ms := by
        rw [Nat.add_mul_div_left _ _ (by omega : 0 < d), Nat.div_eq_of_lt hm]
        omega
      rw [h1, h2, ih ms (by simpa using h) hrest]

theorem multiIdxR_mod (g : Nat) (ds : List Nat) :
    multiIdxR (g % ds.prod) ds = multiIdxR g ds := by
  induction ds generalizing g with
  | nil => rfl
  | cons d ds ih =>
    simp only [multiIdxR, List.prod_cons]
    rw [Nat.mod_mul_right_div_self, Nat.mod_mul_right_mod, ih (g / d)]

theorem multiIdxR_append (g : Nat) (A B : List Nat) :
    multiIdxR g (A ++ B) = multiIdxR g A ++ multiIdxR (g / A.prod) B := by
  induction A generalizing g with
  | nil => simp [multiIdxR]
  | cons d A ih =>
    simp only [List.cons_append, multiIdxR, List.prod_cons, ← Nat.div_div_eq_div_mul]
    rw [show A.append B = A ++ B from rfl, ih (g / d)]

theorem multiIdx_length (sh : List Nat) (g : Nat) :
    (multiIdx sh g).length = sh.length := by
  simp [multiIdx, multiIdxR_length]

theorem multiIdx_cons (d : Nat) (sh : List Nat) (g : Nat) :
    multiIdx (d :: sh) g = (g / sh.prod % d) :: multiIdx sh g := by
  unfold multiIdx
  rw [List.reverse_cons, multiIdxR_append, List.prod_reverse]
  simp [multiIdxR]

theorem flatIdx_flatR (sh m : List Nat) (h : sh.length = m.length) :
    flatIdx sh m = flatR sh.reverse m.reverse := by
  induction sh using List.reverseRecOn generalizing m with
  | nil =>
    have : m = [] := List.eq_nil_of_length_eq_zero h.symm
    subst this; rfl
  | append_singleton sh d ih =>
    cases m using List.reverseRecOn with
    | nil => simp at h
    | append_singleton m i =>
      simp only [List.length_append, List.length_singleton] at h
      have hlen : sh.length = m.length := by omega
      rw [flatIdx_concat sh m d i hlen]
      simp only [List.reverse_append, List.reverse_singleton, List.singleton_append,
        flatR, ih m hlen]
      ring

theorem flatIdx_multiIdx (sh : List Nat) (g : Nat) (hg : g < sh.prod) :
    flatIdx sh (multiIdx sh g) = g := by
  rw [flatIdx_flatR sh _ (multiIdx_length sh g).symm]
  unfold multiIdx
  rw [List.reverse_reverse, flatR_multiIdxR, List.prod_reverse]
  exact Nat.mod_eq_of_lt hg

theorem multiIdx_flatIdx (sh m : List Nat) (h : sh.length = m.length)
    (hb : ∀ p ∈ sh.zip m, p.2 < p.1) :
    multiIdx sh (flatIdx sh m) = m := by
  have hrevb : ∀ p ∈ sh.reverse.zip m.reverse, p.2 < p.1 := by
    intro p hp
    rw [zip_of_reverse sh m h] at hp
    exact hb p (List.mem_reverse.mp hp)
  rw [flatIdx_flatR sh m h]
  unfold multiIdx
  rw [multiIdxR_flatR sh.reverse m.reverse (by simp [h]) hrevb, List.reverse_reverse]

theorem multiIdx_lt (sh : List Nat) (g : Nat) (hpos : ∀ d ∈ sh, 0 < d) :
    ∀ p ∈ sh.zip (multiIdx sh g), p.2 < p.1 := by
  intro p hp
  have hlen : sh.reverse.length = (multiIdxR g sh.reverse).length :=
    (multiIdxR_length g sh.reverse).symm
  have hzip : sh.zip (multiIdx sh g) =
      (sh.reverse.zip (multiIdxR g sh.reverse)).reverse := by
    unfold multiIdx
    rw [← zip_of_reverse sh.reverse (multiIdxR g sh.reverse) hlen,
      List.reverse_reverse]
  have : p ∈ sh.reverse.zip (multiIdxR g sh.reverse) := by
    rw [hzip] at hp
    exact List.mem_reverse.mp hp
  exact multiIdxR_lt g sh.reverse (fun d hd => hpos d (List.mem_reverse.mp hd)) p this

theorem multiIdx_mod (sh : List Nat) (g : Nat) :
    multiIdx sh (g % sh.prod) = multiIdx sh g := by
  unfold multiIdx
  rw [← List.prod_reverse, multiIdxR_mod]

/-! ## Buffers, events, and the modelled device layer -/

/-- Modelled from the spec: a device-resident float tensor (the `GPUBuffer`
class lives in the repository's `tensor.py`, which is not among the sources
under study; spec sections 3 and 4.2 describe it). A buffer is a shape
together with a flat row-major list of element values. The float32 element
type is modelled as an exact numeric type `α` (the value-level theorems use
`ℚ`, so literals such as `1e-10` are exact; index wiring, not float rounding,
is what the claims are about). Reads past the end of a device buffer are
undefined behaviour on the device and are modelled by `List.getD _ _ 0`. -/
structure GPUBuffer (α : Type) where
  shape : List Nat
  data : List α
deriving DecidableEq

/-- Decidable equality for `Except` results, so that concrete runs of the
embedded operations can be checked by `decide`. -/
instance instDecEqExcept {ε α : Type} [DecidableEq ε] [DecidableEq α] :
    DecidableEq (Except ε α)
  | Except.ok a, Except.ok b =>
      if h : a = b then Decidable.isTrue (by rw [h])
      else Decidable.isFalse (by intro hc; injection hc; contradiction)
  | Except.ok _, Except.error _ => Decidable.isFalse (by intro hc; cases hc)
  | Except.error _, Except.ok _ => Decidable.isFalse (by intro hc; cases hc)
  | Except.error e, Except.error e' =>
      if h : e = e' then Decidable.isTrue (by rw [h])
      else Decidable.isFalse (by intro hc; injection hc; contradiction)

/-- A buffer is well formed when its flat data has exactly one element per
position of its shape. -/
def GPUBuffer.wf {α : Type} (b : GPUBuffer α) : Prop :=
  b.data.length = b.shape.prod

/-- Modelled from the spec: constructing `GPUBuffer(shape, hostbuf=b)` over an
existing buffer reinterprets the same device allocation under a new shape
without copying (spec section 3, "Shape reinterpretation ... may share the
underlying device allocation"). -/
def reinterp {α : Type} (shape : List Nat) (b : GPUBuffer α) : GPUBuffer α :=
  ⟨shape, b.data⟩

/-- Device-side effects an operation performs, logged in source order:
`buffer_new` allocations and kernel launches. -/
inductive Event
  | alloc (shape : List Nat)
  | launch (kernel : String)
deriving DecidableEq

/-! ## binary_op -/

/-- Trailing padding of a shape to rank `n` with ones, as in
`shape_x = np.ones(n_dims); shape_x[:len(x.shape)] = x.shape`: the original
dimensions stay left-aligned and ones are appended on the right. -/
def padTrailing (s : List Nat) (n : Nat) : List Nat :=
  s ++ List.replicate (n - s.length) 1

/-- Broadcast-compatibility test of `binary_op`:
`np.all((shape_x == 1) | (shape_y == 1) | (shape_x == shape_y))`. -/
def broadcastOK (sx sy : List Nat) : Bool :=
  (sx.zip sy).all (fun p => p.1 == p.2 || p.1 == 1 || p.2 == 1)

/-- The `push` helper of `binary_op`: append a (size, flag-pair) group to the
merged dimension list, multiplying into the last group when the flag pair
repeats and dropping broadcast-irrelevant `(False, False)` dimensions. -/
def pushDim (acc : List (Nat × (Bool × Bool))) (dim : Nat) (comp : Bool × Bool) :
    List (Nat × (Bool × Bool)) :=
  match acc.getLast? with
  | some lastg =>
      if lastg.2 = comp then acc.dropLast ++ [(lastg.1 * dim, comp)]
      else if comp ≠ (false, false) then acc ++ [(dim, comp)] else acc
  | none => if comp ≠ (false, false) then [(dim, comp)] else acc

/-- The merged (dimlist, complist) pair of `binary_op`, built by folding `push`
over the zipped padded shapes; a raw entry has size `max dx dy` and flag pair
`(dx > 1, dy > 1)`. -/
def mergeDims (szs : List (Nat × Nat)) : List (Nat × (Bool × Bool)) :=
  szs.foldl
    (fun acc p => pushDim acc (max p.1 p.2) (decide (1 < p.1), decide (1 < p.2))) []

/-- Flat-index reconstruction of the generated `binop` kernel: fold
`idx_ret_i + d_i * (...)` over the merged dimensions whose flag (chosen by
`sel`) is set, where `idx_ret_i = (gid / p_i) % d_i` and `p_i` is the
cumulative product of the merged dimensions after position `i`. -/
def binopIdxAux (gid : Nat) (sel : Bool × Bool → Bool) (acc : Nat) :
    List (Nat × (Bool × Bool)) → Nat
  | [] => acc
  | (d, c) :: rest =>
      binopIdxAux gid sel
        (if sel c then gid / (rest.map Prod.fst).prod % d + d * acc else acc) rest

/-- Kernel source index for output position `gid` on the side chosen by `sel`
(`Prod.fst` for operand `x`, `Prod.snd` for operand `y`). -/
def binopIdx (gid : Nat) (sel : Bool × Bool → Bool)
    (l : List (Nat × (Bool × Bool))) : Nat :=
  binopIdxAux gid sel 0 l

/-- The `binary_op(ctx, code, x, y)` host function, with the kernel expression
`code` given denotationally as `f`. Shapes are padded with trailing ones to
equal rank; on a broadcast mismatch the Python code raises before any
allocation or launch. On success a zero-filled buffer of shape `shape_ret` is
allocated and one kernel thread per merged-dimension position writes it. -/
def binary_op {α : Type} [Zero α] (f : α → α → α) (x y : GPUBuffer α) :
    List Event × Except String (GPUBuffer α) :=
  let n_dims := max x.shape.length y.shape.length
  let shape_x := padTrailing x.shape n_dims
  let shape_y := padTrailing y.shape n_dims
  if broadcastOK shape_x shape_y then
    let shape_ret := List.zipWith max shape_x shape_y
    let merged := mergeDims (shape_x.zip shape_y)
    let threads := (merged.map Prod.fst).prod
    let ret : GPUBuffer α :=
      ⟨shape_ret, (List.range shape_ret.prod).map (fun gid =>
        if gid < threads then
          f (x.data.getD (binopIdx gid Prod.fst merged) 0)
            (y.data.getD (binopIdx gid Prod.snd merged) 0)
        else 0)⟩
    ([Event.alloc shape_ret, Event.launch "binop"], Except.ok ret)
  else ([], Except.error "binary op unbroadcastable shape mismatch")

/-! ### Correctness of the merged-dimension index computation -/

theorem binopIdxAux_concat (gid d : Nat) (c : Bool × Bool)
    (sel : Bool × Bool → Bool) (M : List (Nat × (Bool × Bool))) (acc : Nat) :
    binopIdxAux gid sel acc (M ++ [(d, c)]) =
      if sel c then gid % d + d * binopIdxAux (gid / d) sel acc M
      else binopIdxAux (gid / d) sel acc M := by
  induction M generalizing acc with
  | nil => simp [binopIdxAux]
  | cons e M ih =>
    obtain ⟨ed, ec⟩ := e
    have hacc : gid / ((M ++ [(d, c)]).map Prod.fst).prod % ed =
        gid / d / (M.map Prod.fst).prod % ed := by
      rw [List.map_append, List.prod_append, List.map_singleton,
        List.prod_singleton, Nat.div_div_eq_div_mul, Nat.mul_comm]
    show binopIdxAux gid sel
        (if sel ec then gid / ((M ++ [(d, c)]).map Prod.fst).prod % ed + ed * acc
          else acc) (M ++ [(d, c)]) =
      if sel c then gid % d + d * binopIdxAux (gid / d) sel
          (if sel ec then gid / d / (M.map Prod.fst).prod % ed + ed * acc else acc) M
        else binopIdxAux (gid / d) sel
          (if sel ec then gid / d / (M.map Prod.fst).prod % ed + ed * acc else acc) M
    rw [hacc, ih]

theorem mergeDims_concat (szs : List (Nat × Nat)) (p : Nat × Nat) :
    mergeDims (szs ++ [p]) =
      pushDim (mergeDims szs) (max p.1 p.2) (decide (1 < p.1), decide (1 < p.2)) := by
  simp [mergeDims, List.foldl_append]

theorem pushDim_one_ff (M : List (Nat × (Bool × Bool))) :
    pushDim M 1 (false, false) = M := by
  unfold pushDim
  cases h : M.getLast? with
  | none => simp [List.getLast?_eq_none_iff.mp h]
  | some lastg =>
    by_cases hc : lastg.2 = (false, false)
    · have : (lastg.1 * 1, (false, false)) = lastg := by
        rw [Nat.mul_one, ← hc]
      simp only [hc, if_pos rfl, this]
      exact List.dropLast_append_getLast? lastg (by simp [h])
    · simp [hc]

theorem pushDim_mem (M : List (Nat × (Bool × Bool))) (dim : Nat)
    (comp : Bool × Bool) (q : Nat × (Bool × Bool)) (hq : q ∈ pushDim M dim comp) :
    q ∈ M ∨ q.1 = dim ∨ ∃ lastg ∈ M, q.1 = lastg.1 * dim := by
  unfold pushDim at hq
  cases h : M.getLast? with
  | none =>
    rw [h] at hq
    simp only at hq
    split at hq
    · simp at hq; subst hq; exact Or.inr (Or.inl rfl)
    · exact Or.inl hq
  | some lastg =>
    have hdecomp : M.dropLast ++ [lastg] = M :=
      List.dropLast_append_getLast? lastg (by simp [h])
    have hlmem : lastg ∈ M := by rw [← hdecomp]; simp
    have hdl : ∀ r ∈ M.dropLast, r ∈ M := by
      intro r hr; rw [← hdecomp]; exact List.mem_append_left _ hr
    rw [h] at hq
    simp only at hq
    split at hq
    · rcases List.mem_append.mp hq with hq | hq
      · exact Or.inl (hdl q hq)
      · simp at hq; subst hq
        exact Or.inr (Or.inr ⟨lastg, hlmem, rfl⟩)
    · split at hq
      · rcases List.mem_append.mp hq with hq | hq
        · exact Or.inl hq
        · simp at hq; subst hq; exact Or.inr (Or.inl rfl)
      · exact Or.inl hq

theorem mul_add_div_self (g d i : Nat) (hi : i < d) : (g * d + i) / d = g := by
  have hd : 0 < d := Nat.lt_of_le_of_lt (Nat.zero_le i) hi
  rw [show g * d + i = i + d * g by ring, Nat.add_mul_div_left i g hd,
    Nat.div_eq_of_lt hi, Nat.zero_add]

theorem mul_add_mod_self (g d i : Nat) (hi : i < d) : (g * d + i) % d = i := by
  rw [show g * d + i = i + d * g by ring, Nat.add_mul_mod_self_left,
    Nat.mod_eq_of_lt hi]

theorem mul_add_div_mul (g el d i : Nat) (hi : i < d) (hel : 0 < el) :
    (g * d + i) / (el * d) = g / el := by
  have hd : 0 < d := Nat.lt_of_le_of_lt (Nat.zero_le i) hi
  have hdecomp : g * d + i = (el * d) * (g / el) + ((g % el) * d + i) := by
    conv_lhs => rw [← Nat.div_add_mod g el]
    ring
  have hr : (g % el) * d + i < el * d := by
    have h1 : g % el < el := Nat.mod_lt g hel
    calc (g % el) * d + i < (g % el) * d + d := by omega
      _ = (g % el + 1) * d := by ring
      _ ≤ el * d := Nat.mul_le_mul_right d h1
  rw [hdecomp, Nat.mul_add_div (Nat.mul_pos hel hd), Nat.div_eq_of_lt hr,
    Nat.add_zero]

theorem mul_add_mod_mul (g el d i : Nat) (hi : i < d) (hel : 0 < el) :
    (g * d + i) % (el * d) = (g % el) * d + i := by
  have hd : 0 < d := Nat.lt_of_le_of_lt (Nat.zero_le i) hi
  have hdecomp : g * d + i = (el * d) * (g / el) + ((g % el) * d + i) := by
    conv_lhs => rw [← Nat.div_add_mod g el]
    ring
  have hr : (g % el) * d + i < el * d := by
    have h1 : g % el < el := Nat.mod_lt g hel
    calc (g % el) * d + i < (g % el) * d + d := by omega
      _ = (g % el + 1) * d := by ring
      _ ≤ el * d := Nat.mul_le_mul_right d h1
  rw [hdecomp, Nat.mul_add_mod, Nat.mod_eq_of_lt hr]

/-- One step of the merged-index correctness argument: pushing a fresh raw
dimension of size `d` onto an already-merged list `M` extends the kernel's
reconstructed index the same way an unmerged trailing dimension would. -/
theorem binopIdx_push (M : List (Nat × (Bool × Bool))) (hMpos : ∀ q ∈ M, 0 < q.1)
    (g d i : Nat) (hi : i < d) (c : Bool × Bool) (hc : c ≠ (false, false))
    (sel : Bool × Bool → Bool) :
    binopIdx (g * d + i) sel (pushDim M d c) =
      if sel c then i + d * binopIdx g sel M else binopIdx g sel M := by
  unfold pushDim
  cases h : M.getLast? with
  | none =>
    have hM : M = [] := List.getLast?_eq_none_iff.mp h
    subst hM
    simp only [if_pos hc]
    unfold binopIdx binopIdxAux
    simp only [List.map_nil, List.prod_nil, Nat.div_one, Nat.mul_zero]
    rw [mul_add_mod_self g d i hi]
    split <;> simp [binopIdxAux]
  | some lastg =>
    obtain ⟨el, c₀⟩ := lastg
    have hdecomp : M.dropLast ++ [(el, c₀)] = M :=
      List.dropLast_append_getLast? (el, c₀) (by simp [h])
    have hel : 0 < el := hMpos (el, c₀) (by rw [← hdecomp]; simp)
    simp only
    by_cases hcc : c₀ = c
    · subst hcc
      rw [if_pos rfl]
      unfold binopIdx
      conv_rhs => rw [← hdecomp]
      rw [binopIdxAux_concat, binopIdxAux_concat,
        mul_add_div_mul g el d i hi hel, mul_add_mod_mul g el d i hi hel]
      cases hs : sel c₀
      · simp [hs]
      · simp only [hs, if_true]
        ring
    · rw [if_neg hcc, if_pos hc]
      unfold binopIdx
      rw [binopIdxAux_concat, mul_add_div_self g d i hi,
        mul_add_mod_self g d i hi]

theorem mergeDims_pos (szs : List (Nat × Nat))
    (hpos : ∀ p ∈ szs, 0 < p.1 ∧ 0 < p.2) :
    ∀ q ∈ mergeDims szs, 0 < q.1 := by
  induction szs using List.reverseRecOn with
  | nil => intro q hq; simp [mergeDims] at hq
  | append_singleton szs p ih =>
    have ihs : ∀ q ∈ mergeDims szs, 0 < q.1 :=
      ih (fun r hr => hpos r (List.mem_append_left _ hr))
    have hp : 0 < max p.1 p.2 := lt_max_of_lt_left (hpos p (by simp)).1
    intro q hq
    rw [mergeDims_concat] at hq
    rcases pushDim_mem _ _ _ q hq with hq | hq | ⟨lastg, hl, hq⟩
    · exact ihs q hq
    · rw [hq]; exact hp
    · rw [hq]; exact Nat.mul_pos (ihs lastg hl) hp

/-- The merged-dimension kernel index for operand `x` equals the mathematical
broadcast source index: raw dimensions are triples `(dx, dy, m)` of padded
x-size, padded y-size and output coordinate, and broadcasting sends a size-1
x-dimension to coordinate 0. -/
theorem binop_idx_fst (ts : List (Nat × Nat × Nat))
    (hpos : ∀ t ∈ ts, 0 < t.1 ∧ 0 < t.2.1)
    (hcompat : ∀ t ∈ ts, t.1 = t.2.1 ∨ t.1 = 1 ∨ t.2.1 = 1)
    (hb : ∀ t ∈ ts, t.2.2 < max t.1 t.2.1) :
    binopIdx (flatIdx (ts.map fun t => max t.1 t.2.1) (ts.map fun t => t.2.2))
        Prod.fst (mergeDims (ts.map fun t => (t.1, t.2.1)))
      = flatIdx (ts.map fun t => t.1)
          (ts.map fun t => if t.1 = 1 then 0 else t.2.2) := by
  induction ts using List.reverseRecOn with
  | nil => rfl
  | append_singleton ts t ihind =>
    obtain ⟨a, b, i⟩ := t
    have hpos' : ∀ r ∈ ts, 0 < r.1 ∧ 0 < r.2.1 :=
      fun r hr => hpos r (List.mem_append_left _ hr)
    have hcompat' : ∀ r ∈ ts, r.1 = r.2.1 ∨ r.1 = 1 ∨ r.2.1 = 1 :=
      fun r hr => hcompat r (List.mem_append_left _ hr)
    have hb' : ∀ r ∈ ts, r.2.2 < max r.1 r.2.1 :=
      fun r hr => hb r (List.mem_append_left _ hr)
    have ha : 0 < a := (hpos (a, b, i) (by simp)).1
    have hbpos : 0 < b := (hpos (a, b, i) (by simp)).2
    have hi : i < max a b := hb (a, b, i) (by simp)
    have hct : a = b ∨ a = 1 ∨ b = 1 := hcompat (a, b, i) (by simp)
    have ih := ihind hpos' hcompat' hb'
    simp only [List.map_append, List.map_cons, List.map_nil]
    rw [flatIdx_concat _ _ _ _ (by simp), flatIdx_concat _ _ _ _ (by simp),
      mergeDims_concat]
    by_cases hff : a = 1 ∧ b = 1
    · obtain ⟨ha1, hb1⟩ := hff
      subst ha1; subst hb1
      have hi0 : i = 0 := by simpa using hi
      subst hi0
      simp only [Nat.max_self, Nat.mul_one, Nat.add_zero, if_pos rfl]
      rw [show (decide ((1:Nat) < 1), decide ((1:Nat) < 1)) = (false, false) from rfl,
        pushDim_one_ff]
      exact ih
    · have hcne : (decide (1 < a), decide (1 < b)) ≠ (false, false) := by
        intro hcontra
        rw [Prod.mk.injEq, decide_eq_false_iff_not, decide_eq_false_iff_not] at hcontra
        exact hff ⟨by omega, by omega⟩
      rw [binopIdx_push _ (mergeDims_pos _ (by
            intro p hp
            simp only [List.mem_map] at hp
            obtain ⟨r, hr, hpr⟩ := hp
            have := hpos' r hr
            rw [← hpr]
            exact this))
          _ _ _ hi _ hcne]
      by_cases ha1 : 1 < a
      · have hda : max a b = a := by
          rcases hct with h | h | h
          · rw [h, Nat.max_self]
          · omega
          · rw [h]; exact Nat.max_eq_left ha
        simp only [decide_eq_true_eq, if_pos ha1, ih, hda,
          if_neg (by omega : ¬a = 1)]
        ring
      · have ha1' : a = 1 := by omega
        subst ha1'
        simp [ih]

/-- The merged-dimension kernel index for operand `y`, symmetric to
`binop_idx_fst`. -/
theorem binop_idx_snd (ts : List (Nat × Nat × Nat))
    (hpos : ∀ t ∈ ts, 0 < t.1 ∧ 0 < t.2.1)
    (hcompat : ∀ t ∈ ts, t.1 = t.2.1 ∨ t.1 = 1 ∨ t.2.1 = 1)
    (hb : ∀ t ∈ ts, t.2.2 < max t.1 t.2.1) :
    binopIdx (flatIdx (ts.map fun t => max t.1 t.2.1) (ts.map fun t => t.2.2))
        Prod.snd (mergeDims (ts.map fun t => (t.1, t.2.1)))
      = flatIdx (ts.map fun t => t.2.1)
          (ts.map fun t => if t.2.1 = 1 then 0 else t.2.2) := by
  induction ts using List.reverseRecOn with
  | nil => rfl
  | append_singleton ts t ihind =>
    obtain ⟨a, b, i⟩ := t
    have hpos' : ∀ r ∈ ts, 0 < r.1 ∧ 0 < r.2.1 :=
      fun r hr => hpos r (List.mem_append_left _ hr)
    have hcompat' : ∀ r ∈ ts, r.1 = r.2.1 ∨ r.1 = 1 ∨ r.2.1 = 1 :=
      fun r hr => hcompat r (List.mem_append_left _ hr)
    have hb' : ∀ r ∈ ts, r.2.2 < max r.1 r.2.1 :=
      fun r hr => hb r (List.mem_append_left _ hr)
    have ha : 0 < a := (hpos (a, b, i) (by simp)).1
    have hbpos : 0 < b := (hpos (a, b, i) (by simp)).2
    have hi : i < max a b := hb (a, b, i) (by simp)
    have hct : a = b ∨ a = 1 ∨ b = 1 := hcompat (a, b, i) (by simp)
    have ih := ihind hpos' hcompat' hb'
    simp only [List.map_append, List.map_cons, List.map_nil]
    rw [flatIdx_concat _ _ _ _ (by simp), flatIdx_concat _ _ _ _ (by simp),
      mergeDims_concat]
    by_cases hff : a = 1 ∧ b = 1
    · obtain ⟨ha1, hb1⟩ := hff
      subst ha1; subst hb1
      have hi0 : i = 0 := by simpa using hi
      subst hi0
      simp only [Nat.max_self, Nat.mul_one, Nat.add_zero, if_pos rfl]
      rw [show (decide ((1:Nat) < 1), decide ((1:Nat) < 1)) = (false, false) from rfl,
        pushDim_one_ff]
      exact ih
    · have hcne : (decide (1 < a), decide (1 < b)) ≠ (false, false) := by
        intro hcontra
        rw [Prod.mk.injEq, decide_eq_false_iff_not, decide_eq_false_iff_not] at hcontra
        exact hff ⟨by omega, by omega⟩
      rw [binopIdx_push _ (mergeDims_pos _ (by
            intro p hp
            simp only [List.mem_map] at hp
            obtain ⟨r, hr, hpr⟩ := hp
            have := hpos' r hr
            rw [← hpr]
            exact this))
          _ _ _ hi _ hcne]
      by_cases hb1 : 1 < b
      · have hdb : max a b = b := by
          rcases hct with h | h | h
          · rw [h, Nat.max_self]
          · rw [h]; exact Nat.max_eq_right hbpos
          · omega
        simp only [decide_eq_true_eq, if_pos hb1, ih, hdb,
          if_neg (by omega : ¬b = 1)]
        ring
      · have hb1' : b = 1 := by omega
        subst hb1'
        simp [ih]

/-! ### From merged indices to buffer-level binary_op facts -/

/-- Reference broadcast source index: clamp a multi-index to a shape by sending
every size-1 dimension to coordinate 0. -/
def bcastIdx (s m : List Nat) : List Nat :=
  List.zipWith (fun d mi => if d = 1 then 0 else mi) s m

/-- Pointwise combination of three lists, truncating at the shortest. -/
def zipWith3 {β : Type} (f : Nat → Nat → Nat → β) :
    List Nat → List Nat → List Nat → List β
  | a :: A, b :: B, c :: C => f a b c :: zipWith3 f A B C
  | _, _, _ => []

theorem map_zip3 {β : Type} (f : Nat → Nat → Nat → β) (A B C : List Nat) :
    (A.zip (B.zip C)).map (fun t => f t.1 t.2.1 t.2.2) = zipWith3 f A B C := by
  induction A generalizing B C with
  | nil => cases B <;> cases C <;> rfl
  | cons a A ih =>
    cases B with
    | nil => rfl
    | cons b B =>
      cases C with
      | nil => rfl
      | cons c C => simp [zipWith3, ih]

theorem zipWith3_pair12 {β : Type} (g : Nat → Nat → β) (A B C : List Nat)
    (hBC : B.length = C.length) :
    zipWith3 (fun a b _ => g a b) A B C = List.zipWith g A B := by
  induction A generalizing B C with
  | nil => cases B <;> cases C <;> rfl
  | cons a A ih =>
    cases B with
    | nil => rfl
    | cons b B =>
      cases C with
      | nil => simp at hBC
      | cons c C => simp [zipWith3, ih B C (by simpa using hBC)]

theorem zipWith3_pair13 {β : Type} (g : Nat → Nat → β) (A B C : List Nat)
    (hAB : A.length = B.length) :
    zipWith3 (fun a _ c => g a c) A B C = List.zipWith g A C := by
  induction A generalizing B C with
  | nil => cases B <;> cases C <;> rfl
  | cons a A ih =>
    cases B with
    | nil => simp at hAB
    | cons b B =>
      cases C with
      | nil => rfl
      | cons c C => simp [zipWith3, ih B C (by simpa using hAB)]

theorem zipWith3_pair23 {β : Type} (g : Nat → Nat → β) (A B C : List Nat)
    (hAB : A.length = B.length) :
    zipWith3 (fun _ b c => g b c) A B C = List.zipWith g B C := by
  induction A generalizing B C with
  | nil => cases B with
    | nil => cases C <;> rfl
    | cons b B => simp at hAB
  | cons a A ih =>
    cases B with
    | nil => simp at hAB
    | cons b B =>
      cases C with
      | nil => rfl
      | cons c C => simp [zipWith3, ih B C (by simpa using hAB)]

theorem zipWith3_comp12 {β : Type} (g : Nat → Nat → β) (h : Nat → Nat → Nat)
    (A B C : List Nat) (hAB : A.length = B.length) :
    zipWith3 (fun a b c => g (h a b) c) A B C =
      List.zipWith g (List.zipWith h A B) C := by
  induction A generalizing B C with
  | nil => cases B <;> cases C <;> rfl
  | cons a A ih =>
    cases B with
    | nil => simp at hAB
    | cons b B =>
      cases C with
      | nil => rfl
      | cons c C => simp [zipWith3, ih B C (by simpa using hAB)]

theorem zipWith_const_left (A B : List Nat) (hAB : A.length = B.length) :
    List.zipWith (fun a _ => a) A B = A := by
  induction A generalizing B with
  | nil => rfl
  | cons a A ih =>
    cases B with
    | nil => simp at hAB
    | cons b B => simp [ih B (by simpa using hAB)]

theorem zipWith_const_right (A B : List Nat) (hAB : A.length = B.length) :
    List.zipWith (fun _ b => b) A B = B := by
  induction A generalizing B with
  | nil => cases B with
    | nil => rfl
    | cons b B => simp at hAB
  | cons a A ih =>
    cases B with
    | nil => simp at hAB
    | cons b B => simp [ih B (by simpa using hAB)]

theorem padTrailing_length (s : List Nat) (n : Nat) (h : s.length ≤ n) :
    (padTrailing s n).length = n := by
  simp [padTrailing]
  omega

theorem padTrailing_pos (s : List Nat) (n : Nat) (hpos : ∀ d ∈ s, 0 < d) :
    ∀ d ∈ padTrailing s n, 0 < d := by
  intro d hd
  rcases List.mem_append.mp hd with hd | hd
  · exact hpos d hd
  · rw [List.eq_of_mem_replicate hd]
    omega

theorem map_zip_eq_zipWith {β : Type} (f : Nat → Nat → β) (A B : List Nat) :
    (A.zip B).map (fun p => f p.1 p.2) = List.zipWith f A B := by
  induction A generalizing B with
  | nil => cases B <;> rfl
  | cons a A ih =>
    cases B with
    | nil => rfl
    | cons b B => simp [ih]

theorem getD_range_map {β : Type} (g : Nat → β) (N i : Nat) (d : β) (hi : i < N) :
    ((List.range N).map g).getD i d = g i := by
  rw [List.getD_eq_getElem?_getD, List.getElem?_map, List.getElem?_range hi]
  rfl

theorem pushDim_prod (M : List (Nat × (Bool × Bool))) (d : Nat) (c : Bool × Bool)
    (hc : c ≠ (false, false)) :
    ((pushDim M d c).map Prod.fst).prod = (M.map Prod.fst).prod * d := by
  unfold pushDim
  cases h : M.getLast? with
  | none =>
    have hM : M = [] := List.getLast?_eq_none_iff.mp h
    subst hM
    simp [hc]
  | some lastg =>
    have hdecomp : M.dropLast ++ [lastg] = M :=
      List.dropLast_append_getLast? lastg (by simp [h])
    simp only
    by_cases hcc : lastg.2 = c
    · rw [if_pos hcc]
      conv_rhs => rw [← hdecomp]
      simp [List.prod_append, Nat.mul_assoc]
    · rw [if_neg hcc, if_pos hc]
      simp [List.prod_append]

theorem mergeDims_prod (szs : List (Nat × Nat))
    (hpos : ∀ p ∈ szs, 0 < p.1 ∧ 0 < p.2) :
    ((mergeDims szs).map Prod.fst).prod = (szs.map fun p => max p.1 p.2).prod := by
  induction szs using List.reverseRecOn with
  | nil => rfl
  | append_singleton szs p ih =>
    have hpos' : ∀ r ∈ szs, 0 < r.1 ∧ 0 < r.2 :=
      fun r hr => hpos r (List.mem_append_left _ hr)
    have hp := hpos p (by simp)
    have ihp := ih hpos'
    rw [mergeDims_concat]
    simp only [List.map_append, List.map_cons, List.map_nil, List.prod_append,
      List.prod_cons, List.prod_nil]
    by_cases hff : p.1 = 1 ∧ p.2 = 1
    · have hc : (decide (1 < p.1), decide (1 < p.2)) = (false, false) := by
        rw [hff.1, hff.2]; rfl
      have hd : max p.1 p.2 = 1 := by rw [hff.1, hff.2]; rfl
      rw [hc, hd, pushDim_one_ff, ihp]
      ring
    · have hcne : (decide (1 < p.1), decide (1 < p.2)) ≠ (false, false) := by
        intro hcontra
        rw [Prod.mk.injEq, decide_eq_false_iff_not, decide_eq_false_iff_not]
          at hcontra
        exact hff ⟨by omega, by omega⟩
      rw [pushDim_prod _ _ _ hcne, ihp]
      ring

/-- On incompatible padded shapes `binary_op` raises before allocating or
launching anything. -/
theorem binary_op_err {α : Type} [Zero α] (f : α → α → α) (x y : GPUBuffer α)
    (hbad : broadcastOK (padTrailing x.shape (max x.shape.length y.shape.length))
      (padTrailing y.shape (max x.shape.length y.shape.length)) = false) :
    binary_op f x y =
      ([], Except.error "binary op unbroadcastable shape mismatch") := by
  unfold binary_op
  rw [if_neg (by simp [hbad])]

/-- On compatible padded shapes `binary_op` returns a buffer whose shape is
the elementwise maximum of the padded shapes and whose entries are the
mathematical broadcast of `f`. -/
theorem binary_op_ok {α : Type} [Zero α] (f : α → α → α) (x y : GPUBuffer α)
    (hxpos : ∀ d ∈ x.shape, 0 < d) (hypos : ∀ d ∈ y.shape, 0 < d)
    (sx sy : List Nat)
    (hsx : sx = padTrailing x.shape (max x.shape.length y.shape.length))
    (hsy : sy = padTrailing y.shape (max x.shape.length y.shape.length))
    (hok : broadcastOK sx sy = true) :
    ∃ b : GPUBuffer α, (binary_op f x y).2 = Except.ok b ∧
      b.shape = List.zipWith max sx sy ∧
      b.data.length = (List.zipWith max sx sy).prod ∧
      ∀ m : List Nat, m.length = sx.length →
        (∀ p ∈ (List.zipWith max sx sy).zip m, p.2 < p.1) →
        b.data.getD (flatIdx (List.zipWith max sx sy) m) 0 =
          f (x.data.getD (flatIdx sx (bcastIdx sx m)) 0)
            (y.data.getD (flatIdx sy (bcastIdx sy m)) 0) := by
  have hsxlen : sx.length = max x.shape.length y.shape.length := by
    rw [hsx]; exact padTrailing_length _ _ (Nat.le_max_left _ _)
  have hsylen : sy.length = max x.shape.length y.shape.length := by
    rw [hsy]; exact padTrailing_length _ _ (Nat.le_max_right _ _)
  have hxy : sx.length = sy.length := by rw [hsxlen, hsylen]
  have hsxpos : ∀ d ∈ sx, 0 < d := by rw [hsx]; exact padTrailing_pos _ _ hxpos
  have hsypos : ∀ d ∈ sy, 0 < d := by rw [hsy]; exact padTrailing_pos _ _ hypos
  simp only [binary_op]
  rw [← hsx, ← hsy, if_pos hok]
  refine ⟨_, rfl, rfl, by simp, ?_⟩
  intro m hmlen hmb
  have hmaxlen : (List.zipWith max sx sy).length = sx.length := by
    rw [List.length_zipWith]; omega
  have hzpos : ∀ p ∈ sx.zip sy, 0 < p.1 ∧ 0 < p.2 := by
    intro p hp
    have := List.of_mem_zip hp
    exact ⟨hsxpos _ this.1, hsypos _ this.2⟩
  have hthreads : ((mergeDims (sx.zip sy)).map Prod.fst).prod =
      (List.zipWith max sx sy).prod := by
    rw [mergeDims_prod _ hzpos, map_zip_eq_zipWith]
  have hgid : flatIdx (List.zipWith max sx sy) m < (List.zipWith max sx sy).prod :=
    flatIdx_lt _ m (by omega) hmb
  rw [getD_range_map _ _ _ _ hgid, if_pos (by rw [hthreads]; exact hgid)]
  -- identify the kernel indices with the broadcast reference indices
  have hABC1 : sx.length = sy.length := hxy
  have hABC2 : sy.length = m.length := by omega
  have hts1 : (sx.zip (sy.zip m)).map (fun t => (t.1, t.2.1)) = sx.zip sy := by
    rw [map_zip3 (fun a b _ => (a, b)), zipWith3_pair12 _ _ _ _ hABC2]
    rfl
  have hts2 : (sx.zip (sy.zip m)).map (fun t => max t.1 t.2.1) =
      List.zipWith max sx sy := by
    rw [map_zip3 (fun a b _ => max a b), zipWith3_pair12 _ _ _ _ hABC2]
  have hts3 : (sx.zip (sy.zip m)).map (fun t => t.2.2) = m := by
    rw [map_zip3 (fun _ _ c => c), zipWith3_pair23 _ _ _ _ hABC1,
      zipWith_const_right _ _ hABC2]
  have hts4 : (sx.zip (sy.zip m)).map (fun t => t.1) = sx := by
    rw [map_zip3 (fun a _ _ => a), zipWith3_pair12 _ _ _ _ hABC2,
      zipWith_const_left _ _ hABC1]
  have hts5 : (sx.zip (sy.zip m)).map (fun t => t.2.1) = sy := by
    rw [map_zip3 (fun _ b _ => b), zipWith3_pair23 _ _ _ _ hABC1,
      zipWith_const_left _ _ hABC2]
  have hts6 : (sx.zip (sy.zip m)).map (fun t => if t.1 = 1 then 0 else t.2.2) =
      bcastIdx sx m := by
    rw [map_zip3 (fun a _ c => if a = 1 then 0 else c),
      zipWith3_pair13 _ _ _ _ hABC1]
    rfl
  have hts7 : (sx.zip (sy.zip m)).map (fun t => if t.2.1 = 1 then 0 else t.2.2) =
      bcastIdx sy m := by
    rw [map_zip3 (fun _ b c => if b = 1 then 0 else c),
      zipWith3_pair23 _ _ _ _ hABC1]
    rfl
  have hts8 : (sx.zip (sy.zip m)).map (fun t => (max t.1 t.2.1, t.2.2)) =
      (List.zipWith max sx sy).zip m := by
    rw [map_zip3 (fun a b c => (max a b, c))]
    have := zipWith3_comp12 (fun a b => ((a, b) : Nat × Nat)) max sx sy m hABC1
    rw [this]
    rfl
  have htpos : ∀ t ∈ sx.zip (sy.zip m), 0 < t.1 ∧ 0 < t.2.1 := by
    intro t ht
    have h1 := (List.of_mem_zip ht).1
    have h2 := (List.of_mem_zip (List.of_mem_zip ht).2).1
    exact ⟨hsxpos _ h1, hsypos _ h2⟩
  have htcompat : ∀ t ∈ sx.zip (sy.zip m), t.1 = t.2.1 ∨ t.1 = 1 ∨ t.2.1 = 1 := by
    intro t ht
    have hmem : (t.1, t.2.1) ∈ sx.zip sy := by
      rw [← hts1]
      exact List.mem_map_of_mem _ ht
    have hall := List.all_eq_true.mp hok _ hmem
    simp only [Bool.or_eq_true, beq_iff_eq] at hall
    tauto
  have htb : ∀ t ∈ sx.zip (sy.zip m), t.2.2 < max t.1 t.2.1 := by
    intro t ht
    have hmem : (max t.1 t.2.1, t.2.2) ∈ (List.zipWith max sx sy).zip m := by
      rw [← hts8]
      exact List.mem_map_of_mem _ ht
    exact hmb _ hmem
  have hfst := binop_idx_fst (sx.zip (sy.zip m)) htpos htcompat htb
  have hsnd := binop_idx_snd (sx.zip (sy.zip m)) htpos htcompat htb
  rw [hts1, hts2, hts3, hts4, hts6] at hfst
  rw [hts1, hts2, hts3, hts5, hts7] at hsnd
  rw [hfst, hsnd]

/-! ## Claim C1: binary_op broadcasting -/

/-- Right-aligned padding as the spec describes it (the numpy convention,
stated here only to test the claim): ones are prepended, so shapes align at
their trailing dimensions. The source instead assigns
`shape_x[:len(x.shape)] = x.shape` into a ones vector, which left-aligns. -/
def padLeadingSpec (s : List Nat) (n : Nat) : List Nat :=
  List.replicate (n - s.length) 1 ++ s

/-- Claim C1 as stated is false: with `x.shape = (2,)` and `y.shape = (2,3)`
the right-aligned padding of the claim gives `(1,2)` vs `(2,3)`, whose second
dimension pair fails `dx==dy or dx==1 or dy==1`, so the claim requires a
`ShapeMismatchError`; the code instead left-aligns to `(2,1)` vs `(2,3)`,
accepts the pair, and returns the `(2,3)` broadcast result. -/
theorem C1_right_alignment_cex :
    broadcastOK (padLeadingSpec [2] 2) (padLeadingSpec [2, 3] 2) = false ∧
    (binary_op (fun a b => a + b) (⟨[2], [5, 7]⟩ : GPUBuffer ℤ)
        ⟨[2, 3], [1, 2, 3, 4, 5, 6]⟩).2 =
      Except.ok ⟨[2, 3], [6, 7, 8, 11, 12, 13]⟩ := by
  constructor
  · decide
  · decide

/-- Claim C1, amended: `binary_op` LEFT-aligns the two shapes, padding the
shorter one with trailing 1s to equal rank; if any aligned dimension pair
fails `dx==dy or dx==1 or dy==1` it raises the shape-mismatch error, and
otherwise the returned buffer's shape is the elementwise maximum of the padded
shapes and its element values are the mathematical broadcast of the
elementwise operation (each operand is read at the output coordinate with
size-1 dimensions sent to coordinate 0), e.g. the broadcast sum for `Add`. -/
theorem C1_binary_op_broadcast {α : Type} [Zero α] (f : α → α → α)
    (x y : GPUBuffer α)
    (hxpos : ∀ d ∈ x.shape, 0 < d) (hypos : ∀ d ∈ y.shape, 0 < d)
    (sx sy : List Nat)
    (hsx : sx = padTrailing x.shape (max x.shape.length y.shape.length))
    (hsy : sy = padTrailing y.shape (max x.shape.length y.shape.length)) :
    (broadcastOK sx sy = false →
      (binary_op f x y).2 =
        Except.error "binary op unbroadcastable shape mismatch") ∧
    (broadcastOK sx sy = true →
      ∃ b, (binary_op f x y).2 = Except.ok b ∧
        b.shape = List.zipWith max sx sy ∧
        b.data.length = (List.zipWith max sx sy).prod ∧
        ∀ m : List Nat, m.length = sx.length →
          (∀ p ∈ (List.zipWith max sx sy).zip m, p.2 < p.1) →
          b.data.getD (flatIdx (List.zipWith max sx sy) m) 0 =
            f (x.data.getD (flatIdx sx (bcastIdx sx m)) 0)
              (y.data.getD (flatIdx sy (bcastIdx sy m)) 0)) := by
  constructor
  · intro hbad
    rw [hsx, hsy] at hbad
    rw [binary_op_err f x y hbad]
  · intro hok
    exact binary_op_ok f x y hxpos hypos sx sy hsx hsy hok

/-- Witness for C1: a concrete broadcast `Add` of a `(2,3)` buffer with a
`(2,)` buffer (left-aligned to `(2,1)`), checked at output position `(1,2)`,
and a concrete mismatch error. -/
theorem C1_binary_op_broadcast_witness :
    (∃ b, (binary_op (fun a b => a + b)
        (⟨[2, 3], [1, 2, 3, 4, 5, 6]⟩ : GPUBuffer ℤ) ⟨[2], [10, 20]⟩).2 =
          Except.ok b ∧
        b.shape = [2, 3] ∧ b.data.length = 6 ∧ b.data.getD 5 0 = 26) ∧
    (binary_op (fun a b => a + b) (⟨[2, 3], [1, 2, 3, 4, 5, 6]⟩ : GPUBuffer ℤ)
        ⟨[3], [10, 20, 30]⟩).2 =
      Except.error "binary op unbroadcastable shape mismatch" := by
  constructor
  · obtain ⟨b, hb, hshape, hlen, hval⟩ :=
      (C1_binary_op_broadcast (fun a b => a + b)
        (⟨[2, 3], [1, 2, 3, 4, 5, 6]⟩ : GPUBuffer ℤ) ⟨[2], [10, 20]⟩
        (by decide) (by decide) [2, 3] [2, 1] (by decide) (by decide)).2 rfl
    refine ⟨b, hb, ?_, ?_, ?_⟩
    · rw [hshape]; decide
    · rw [hlen]; decide
    · exact hval [1, 2] (by decide) (by decide)
  · exact (C1_binary_op_broadcast (fun a b => a + b)
      (⟨[2, 3], [1, 2, 3, 4, 5, 6]⟩ : GPUBuffer ℤ) ⟨[3], [10, 20, 30]⟩
      (by decide) (by decide) [2, 3] [3, 1] (by decide) (by decide)).1 rfl

/-! ## reduce_op, Sum and Max -/

/-- Set the listed axis positions of a shape to 1, as `osize[list(axis)] = 1`
does; with `axis=None` the whole shape collapses to ones (full reduce). This
is also the `shape` list built at the top of `Max.backward` and
`Sum.backward`: `[1 if axis is None or i in axis else input.shape[i] ...]`. -/
def collapsedShape (s : List Nat) (axis : Option (List Nat)) : List Nat :=
  match axis with
  | none => List.replicate s.length 1
  | some ax => s.mapIdx (fun i d => if i ∈ ax then 1 else d)

/-- Index walk of the generated `reduce` kernel: `idx` collects one digit per
input dimension, taken from the output position `gid` when the dimension is
kept (`shape_x[dim] == shape_ret[dim]`) and from the reduction loop counter
`x` when it is reduced over; `tprod` and `tsz` hold the running suffix
products of the kept and reduced dimensions. -/
def reduceIdxA (gid x : Nat) : Nat → Nat → Nat → List (Nat × Nat) → Nat
  | _, _, idx, [] => idx
  | tprod, tsz, idx, (dx, dr) :: rest =>
      if dx = dr then
        reduceIdxA gid x (tprod / dx) tsz (idx * dx + gid / (tprod / dx) % dx) rest
      else
        reduceIdxA gid x tprod (tsz / dx) (idx * dx + x / (tsz / dx) % dx) rest

/-- The `reduce_op(ctx, code, code2, inp, axis, start)` host function, with
the accumulation expression `code` given denotationally as `acc`, the
finalize expression `code2` as `fin` and the start literal as `start`. The
output buffer has the reduced shape `osize` (reassigned to `(1,)` when `axis`
is unset); one kernel thread per output position folds `acc` over the `sz`
input positions of its group and writes `fin` of the result. -/
def reduce_op {α : Type} [Zero α] (acc : α → α → α) (fin : α → α)
    (inp : GPUBuffer α) (axis : Option (List Nat)) (start : α) : GPUBuffer α :=
  let osize := collapsedShape inp.shape axis
  let sz := inp.shape.prod / osize.prod
  let retshape := match axis with
    | none => [1]
    | some _ => osize
  ⟨retshape, (List.range osize.prod).map (fun gid =>
    fin ((List.range sz).foldl
      (fun out x =>
        acc out (inp.data.getD
          (reduceIdxA gid x osize.prod sz 0 (inp.shape.zip osize)) 0))
      start))⟩

/-- The axis-dropping comprehension of `Sum.forward` and `Max.forward`:
`tuple([input.shape[i] for i in range(len(input.shape)) if i not in axis])`. -/
def dropAxes (s : List Nat) (ax : List Nat) : List Nat :=
  ((List.range s.length).filter (fun i => decide (i ∉ ax))).map (fun i => s.getD i 0)

/-- `Sum.forward`: reduce with `out += a` starting from `0.0`, then reassign
the shape to drop the reduced axes when an axis list was given. -/
def sumForward {α : Type} [Zero α] [Add α] (input : GPUBuffer α)
    (axis : Option (List Nat)) : GPUBuffer α :=
  let ret := reduce_op (fun out a => out + a) id input axis 0
  match axis with
  | none => ret
  | some ax => ⟨dropAxes input.shape ax, ret.data⟩

/-- `Max.forward`: reduce with `out = max(a, out)` starting from `-INFINITY`,
then reassign the shape to drop the reduced axes when an axis list was given.
The float literal `-INFINITY` has no counterpart in an exact numeric type;
the model takes the start value `ninf` as a parameter, and the value-level
claims assume `ninf` lies below every input element, which is true of
`-INFINITY` for every float input. -/
def maxForward {α : Type} [Zero α] [LinearOrder α] (ninf : α)
    (input : GPUBuffer α) (axis : Option (List Nat)) : GPUBuffer α :=
  let ret := reduce_op (fun out a => max a out) id input axis ninf
  match axis with
  | none => ret
  | some ax => ⟨dropAxes input.shape ax, ret.data⟩

/-- The float literal `1e-10` of `Max.backward`, exact in `ℚ`. -/
def eps10 : ℚ := 1 / 10000000000

/-- `Max.backward`: the indicator `1.0*(a==b)` of the broadcast forward
output, divided by the tie count `reduce-sum + 1e-10`, times the broadcast
upstream gradient. The saved forward output `ret` and the upstream gradient
are reinterpreted under the collapsed shape (`GPUBuffer(shape, hostbuf=...)`),
and the three elementwise stages are ordinary `binary_op` launches. -/
def maxBackward (input : GPUBuffer ℚ) (axis : Option (List Nat))
    (ret grad_output : GPUBuffer ℚ) : Except String (GPUBuffer ℚ) := do
  let shape := collapsedShape input.shape axis
  let ret2 ← (binary_op (fun a b => if a = b then (1 : ℚ) else 0) input
    (reinterp shape ret)).2
  let div := reduce_op (fun out a => out + a) (fun out => out + eps10) ret2 axis 0
  let ret3 ← (binary_op (fun a b => a / b) ret2 (reinterp shape div)).2
  (binary_op (fun a b => a * b) ret3 (reinterp shape grad_output)).2
/-! ## Claim C2: reduction output shapes -/

theorem collapsedShape_some_length (s ax : List Nat) :
    (collapsedShape s (some ax)).length = s.length := by
  simp [collapsedShape]

theorem collapsedShape_some_getD (s ax : List Nat) (i : Nat) (hi : i < s.length) :
    (collapsedShape s (some ax)).getD i 0 = if i ∈ ax then 1 else s.getD i 0 := by
  unfold collapsedShape
  simp only
  rw [List.mapIdx_eq_enum_map]
  have hlen2 : i < (List.map
      (Function.uncurry fun i d => if i ∈ ax then 1 else d) s.enum).length := by
    simpa [List.enum_length] using hi
  rw [List.getD_eq_getElem _ _ hlen2, List.getElem_map, List.getElem_enum,
    List.getD_eq_getElem _ _ hi]
  rfl

/-- The comprehension of `Sum.forward`/`Max.forward` drops exactly the listed
axes: it equals the enumerated shape filtered to the non-reduced positions. -/
theorem dropAxes_eq_enum_filter (s ax : List Nat) :
    dropAxes s ax =
      (s.enum.filter (fun p => decide (p.1 ∉ ax))).map Prod.snd := by
  induction s using List.reverseRecOn with
  | nil => rfl
  | append_singleton s d ih =>
    have henum : (s ++ [d]).enum = s.enum ++ [(s.length, d)] := by
      rw [List.enum_eq_zip_range, List.enum_eq_zip_range, List.length_append,
        List.length_singleton, List.range_succ, List.zip_append (by simp)]
      rfl
    have hrange : List.range (s ++ [d]).length =
        List.range s.length ++ [s.length] := by
      rw [List.length_append, List.length_singleton, List.range_succ]
    unfold dropAxes
    rw [hrange, henum, List.filter_append, List.filter_append, List.map_append,
      List.map_append]
    congr 1
    · have hmap : ∀ i ∈ (List.range s.length).filter (fun i => decide (i ∉ ax)),
          (s ++ [d]).getD i 0 = s.getD i 0 := by
        intro i hifil
        have := List.mem_range.mp (List.mem_of_mem_filter hifil)
        exact List.getD_append s [d] 0 i this
      rw [List.map_congr_left hmap]
      exact ih
    · by_cases hmem : s.length ∈ ax
      · simp [hmem]
      · simp [hmem, List.getD_append_right s [d] 0 s.length (Nat.le_refl _)]

/-- Claim C2 as stated is false for `Sum` (and `Max`): reducing a `(2,3)`
buffer over axis 1 returns shape `(2,)` — the reduced axis is dropped by the
`ret.shape` reassignment in `Sum.forward` — not `(2,1)` as the claim
requires. -/
theorem C2_sum_shape_cex :
    (sumForward (⟨[2, 3], [1, 2, 3, 4, 5, 6]⟩ : GPUBuffer ℤ) (some [1])).shape
        ≠ [2, 1] ∧
    (sumForward (⟨[2, 3], [1, 2, 3, 4, 5, 6]⟩ : GPUBuffer ℤ) (some [1])).shape
        = [2] := by
  constructor
  · decide
  · decide

/-- Claim C2, amended: the buffer `reduce_op` returns has the input shape with
each reduced axis set to 1 (or shape `(1,)` — fully scalar — when `axis` is
unset), but the `Sum` and `Max` forward passes then reassign the shape so that
each reduced axis is REMOVED entirely; a full reduce still returns the scalar
shape `(1,)`. -/
theorem C2_reduce_shapes {α : Type} [Zero α] [Add α] [LinearOrder α]
    (acc : α → α → α) (fin : α → α) (start ninf : α)
    (x : GPUBuffer α) (ax : List Nat) :
    (reduce_op acc fin x none start).shape = [1] ∧
    (sumForward x none).shape = [1] ∧
    (maxForward ninf x none).shape = [1] ∧
    ((reduce_op acc fin x (some ax) start).shape.length = x.shape.length ∧
      ∀ i, i < x.shape.length →
        (reduce_op acc fin x (some ax) start).shape.getD i 0 =
          if i ∈ ax then 1 else x.shape.getD i 0) ∧
    (sumForward x (some ax)).shape =
      (x.shape.enum.filter (fun p => decide (p.1 ∉ ax))).map Prod.snd ∧
    (maxForward ninf x (some ax)).shape =
      (x.shape.enum.filter (fun p => decide (p.1 ∉ ax))).map Prod.snd := by
  refine ⟨rfl, rfl, rfl,
    ⟨collapsedShape_some_length _ _, fun i hi => collapsedShape_some_getD _ _ i hi⟩,
    ?_, ?_⟩
  · exact dropAxes_eq_enum_filter x.shape ax
  · exact dropAxes_eq_enum_filter x.shape ax

/-- Witness for C2: concrete `(2,3)` reductions over axis 1 and a full
reduce. -/
theorem C2_reduce_shapes_witness :
    (reduce_op (fun out a => out + a) id
      (⟨[2, 3], [1, 2, 3, 4, 5, 6]⟩ : GPUBuffer ℤ) (some [1]) 0).shape.getD 1 0
        = 1 ∧
    (sumForward (⟨[2, 3], [1, 2, 3, 4, 5, 6]⟩ : GPUBuffer ℤ) (some [1])).shape
        = [2] ∧
    (maxForward (-1000) (⟨[2, 3], [1, 2, 3, 4, 5, 6]⟩ : GPUBuffer ℤ) none).shape
        = [1] := by
  obtain ⟨h1, h2, h3, ⟨h4len, h4⟩, h5, h6⟩ :=
    C2_reduce_shapes (fun out a => out + a) id 0 (-1000)
      (⟨[2, 3], [1, 2, 3, 4, 5, 6]⟩ : GPUBuffer ℤ) [1]
  refine ⟨?_, ?_, h3⟩
  · rw [h4 1 (by decide)]
    decide
  · rw [h5]
    decide

/-! ## Reshape -/

/-- `Reshape.forward`: resolve an optional `-1` entry via
`-np.prod(x.shape) // np.prod(shape)` (Python floor division, the product
taken over the raw requested shape including the `-1`), reinterpret the
buffer under the new shape without copying, then `assert` that the element
count is unchanged. No buffer is allocated and no kernel is launched; the
failing `assert` raises after the (allocation-free) reinterpretation. -/
def reshapeForward {α : Type} (x : GPUBuffer α) (shape : List Int) :
    List Event × Except String (GPUBuffer α) :=
  let prodx : Int := (x.shape.prod : Nat)
  let resolved : List Int :=
    shape.map (fun s => if s = -1 then Int.fdiv (-prodx) shape.prod else s)
  let r : GPUBuffer α := ⟨resolved.map Int.toNat, x.data⟩
  if prodx = resolved.prod then ([], Except.ok r)
  else ([], Except.error "reshape element count mismatch")

/-! ## Matmul -/

/-- The generated `matmul` kernel. A thread `(X, Y, stride)` writes
`res[X*osize + Y + isize*osize*stride]`; since that write position is the
row-major flattening of `(stride, X, Y)` over `(cnt, isize, osize)`, the
result list is built position by position through the inverse decomposition
of the flat position `p`. Operand reads use the passed stride constants
`is0, is1, ws0, ws1` and the batch offsets `isize*msize*stride` and
`msize*osize*stride` exactly as in the kernel source; reads past the end of a
buffer (possible when an operand does not really carry `cnt` batch slices)
return the model's out-of-bounds value 0. -/
def matmulKernel {α : Type} [Zero α] [Add α] [Mul α] (a b : List α)
    (isize is0 is1 msize ws0 ws1 osize cnt : Nat) : List α :=
  (List.range (cnt * (isize * osize))).map (fun p =>
    let stride := p / (isize * osize)
    let X := p / osize % isize
    let Y := p % osize
    (List.range msize).foldl (fun racc k =>
      racc + a.getD (X * is0 + k * is1 + isize * msize * stride) 0 *
        b.getD (Y * ws0 + k * ws1 + msize * osize * stride) 0) 0)

/-- `Matmul.forward`: `assert input.shape[-1] == weight.shape[-2]` (an
`IndexError` for ranks below 2 also raises before any allocation), flatten
the leading input dimensions into a batch count `cnt`, allocate the output
of shape `input.shape[0:-2] + (isize, osize)` and launch the kernel with
strides `is0=msize, is1=1, ws0=1, ws1=osize`. -/
def matmulForward {α : Type} [Zero α] [Add α] [Mul α]
    (input weight : GPUBuffer α) : List Event × Except String (GPUBuffer α) :=
  if 2 ≤ input.shape.length ∧ 2 ≤ weight.shape.length then
    let isize := input.shape.getD (input.shape.length - 2) 0
    let msize := input.shape.getD (input.shape.length - 1) 0
    let osize := weight.shape.getD (weight.shape.length - 1) 0
    if msize = weight.shape.getD (weight.shape.length - 2) 0 then
      let cnt := input.shape.dropLast.dropLast.prod
      let retshape := input.shape.dropLast.dropLast ++ [isize, osize]
      ([Event.alloc retshape, Event.launch "matmul"],
        Except.ok ⟨retshape,
          matmulKernel input.data weight.data isize msize 1 msize 1 osize osize cnt⟩)
    else ([], Except.error "matmul contraction mismatch")
  else ([], Except.error "matmul rank below 2")

/-- `Matmul.backward`: the two gradient buffers are produced by the identical
saved `matmul` kernel (the same `matmulKernel` definition the forward pass
launches), re-launched with operand roles and stride constants permuted:
`grad_input` from `(grad_output, weight)` with
`is0=osize, is1=1, ws0=osize, ws1=1`, and `grad_weight` from
`(input, grad_output)` with `is0=1, is1=msize, ws0=1, ws1=osize`. The
buffers are allocated with `input.shape` and `weight.shape`; the kernel
writes `cnt*isize*msize` resp. `cnt*msize*osize` positions. -/
def matmulBackward {α : Type} [Zero α] [Add α] [Mul α]
    (input weight grad_output : GPUBuffer α) : GPUBuffer α × GPUBuffer α :=
  let isize := input.shape.getD (input.shape.length - 2) 0
  let msize := input.shape.getD (input.shape.length - 1) 0
  let osize := weight.shape.getD (weight.shape.length - 1) 0
  let cnt := input.shape.dropLast.dropLast.prod
  (⟨input.shape,
      matmulKernel grad_output.data weight.data isize osize 1 osize osize 1 msize cnt⟩,
    ⟨weight.shape,
      matmulKernel input.data grad_output.data msize 1 msize isize 1 osize osize cnt⟩)

/-! ## Conv2D forward -/

/-- `Conv2D.forward`. The stride is normalised to a pair; a zero stride
raises Python's division error at the `oy, ox` computation, before the
channel asserts. Output spatial sizes are the Python floor divisions
`(iy-(H-ys))//ys` and `(ix-(W-xs))//xs`. The two `assert`s run before the
output allocation and launch. One thread per
`(batch*groups*rcout, oy, ox)` position accumulates over the input channels
of its group and the kernel window; the write position
`B*groups*rcout*oy*ox + g*rcout*oy*ox + c*oy*ox + Y*ox + X` is the row-major
flattening of `(B, g, c, Y, X)`, inverted here to build the data list
position by position. -/
def conv2dForward {α : Type} [Zero α] [Add α] [Mul α] (x w : GPUBuffer α)
    (stride : Nat × Nat) (groups : Nat) :
    List Event × Except String (GPUBuffer α) :=
  match x.shape, w.shape with
  | [bs, cin_, iy, ix], [cout, cin, H, W] =>
    let ys := stride.1
    let xs := stride.2
    if ys = 0 ∨ xs = 0 then ([], Except.error "conv zero stride")
    else
      let oyI : Int := Int.fdiv ((iy : Int) - ((H : Int) - (ys : Int))) (ys : Int)
      let oxI : Int := Int.fdiv ((ix : Int) - ((W : Int) - (xs : Int))) (xs : Int)
      if cin * groups = cin_ ∧ cout % groups = 0 then
        let rcout := cout / groups
        let oy := oyI.toNat
        let ox := oxI.toNat
        let ret : GPUBuffer α := ⟨[bs, cout, oy, ox],
          (List.range (bs * cout * (oy * ox))).map (fun p =>
            let gid0 := p / (oy * ox)
            let Y := p / ox % oy
            let X := p % ox
            let B := gid0 / (groups * rcout)
            let g := gid0 / rcout % groups
            let c := gid0 % rcout
            (List.range cin).foldl (fun acc1 ci =>
              (List.range H).foldl (fun acc2 dy =>
                (List.range W).foldl (fun acc3 dx =>
                  acc3 + x.data.getD (B * (groups * cin * (iy * ix)) +
                      g * (cin * (iy * ix)) + ci * (iy * ix) +
                      (Y * ys + dy) * ix + (X * xs + dx)) 0 *
                    w.data.getD (g * (rcout * cin * (H * W)) +
                      c * (cin * (H * W)) + ci * (H * W) + dy * W + dx) 0)
                  acc2) acc1) 0)⟩
        ([Event.alloc [bs, cout, oy, ox], Event.launch "conv"], Except.ok ret)
      else ([], Except.error "conv channel-group mismatch")
  | _, _ => ([], Except.error "conv rank mismatch")

/-! ## Transpose / permutation -/

/-- Index computation of the generated `perm` kernel: the loop runs
`i = n_axis-1` down to `0`, peeling the least-significant output digit
`gi % shape[order[i]]` and adding it with the input stride
`prod(shape[order[i]+1:])`; the loop is modelled by structural recursion over
the reversed `order` list. -/
def permIdxA (shape : List Nat) : List Nat → Nat → Nat → Nat
  | [], _, idx => idx
  | o :: rest, gi, idx =>
      permIdxA shape rest (gi / shape.getD o 0)
        (idx + gi % shape.getD o 0 * (shape.drop (o + 1)).prod)

/-- `perm_axis(ctx, inp, order)`: the output shape is the input shape
permuted by `order` (`np.array(inp.shape)[list(order)]`), and every output
position reads the input at the strided index computed by the `perm`
kernel. -/
def perm_axis {α : Type} [Zero α] (inp : GPUBuffer α) (order : List Nat) :
    GPUBuffer α :=
  let osize := order.map (fun o => inp.shape.getD o 0)
  ⟨osize, (List.range osize.prod).map (fun gid =>
    inp.data.getD (permIdxA inp.shape order.reverse gid 0) 0)⟩

/-- Modelled from the spec: `np.argsort(order)` applied to a permutation
`order` (the only way `Transpose.backward` uses it) returns the inverse
permutation — position `i` holds the position of value `i` inside `order`. -/
def argsort (o : List Nat) : List Nat :=
  (List.range o.length).map (fun i => o.indexOf i)

/-- `Transpose.forward`: a full-copy permutation of the axes. -/
def transposeForward {α : Type} [Zero α] (x : GPUBuffer α) (order : List Nat) :
    GPUBuffer α :=
  perm_axis x order

/-- `Transpose.backward`: the inverse permutation `np.argsort(ctx.order)`
applied to the upstream gradient. -/
def transposeBackward {α : Type} [Zero α] (grad : GPUBuffer α)
    (order : List Nat) : GPUBuffer α :=
  perm_axis grad (argsort order)

/-! ## Slice -/

/-- Index walk of the generated `gslice` kernel: per dimension, divide the
running output suffix product, form `sidx = (gid/prod) % shape_ret[dim] +
shift[dim]` (an `Int`, since shifts may be negative), update the in-bounds
flag `zero &= 0 <= sidx < shape_x[dim]` and the input pointer
`iptr = iptr * shape_x[dim] + sidx`. -/
def sliceIdxA (gid : Nat) : Nat → Int → Bool → List (Nat × Nat × Int) → Int × Bool
  | _, iptr, zero, [] => (iptr, zero)
  | prodv, iptr, zero, (dx, dr, sh) :: rest =>
      let prodv2 := prodv / dr
      let sidx : Int := ((gid / prodv2 % dr : Nat) : Int) + sh
      sliceIdxA gid prodv2 (iptr * (dx : Int) + sidx)
        (zero && decide (0 ≤ sidx ∧ sidx < (dx : Int))) rest

/-- `inner_slice(ctx, x, arg)`: output shape is `end - start` per axis (the
model clamps a negative extent to 0, where the real allocator would fail);
each output position reads the shifted input position when it is in bounds
on every axis and the constant `0.0` otherwise. -/
def inner_slice {α : Type} [Zero α] (x : GPUBuffer α) (arg : List (Int × Int)) :
    GPUBuffer α :=
  let shift : List Int := arg.map Prod.fst
  let oshape : List Nat := arg.map (fun p => (p.2 - p.1).toNat)
  ⟨oshape, (List.range oshape.prod).map (fun gid =>
    let r := sliceIdxA gid oshape.prod 0 true (x.shape.zip (oshape.zip shift))
    if r.2 then x.data.getD r.1.toNat 0 else 0)⟩

/-- `Slice.forward` is `inner_slice` on the argument range list. -/
def sliceForward {α : Type} [Zero α] (x : GPUBuffer α) (arg : List (Int × Int)) :
    GPUBuffer α :=
  inner_slice x arg

/-! ## Claim C4: no partial work on failure -/

/-- Claim C4: for the operations with argument validation — `binary_op`
(broadcast compatibility), `Reshape` (element count), `Matmul` (contraction
sizes) and `Conv2D` (channel/group arithmetic) — every check runs before any
buffer allocation or kernel launch, so a failing invocation logs no events at
all: no new buffer exists and no kernel ran. (`Reshape` logs no events even
on success: the new `GPUBuffer` shares the existing device allocation.) -/
theorem C4_no_partial_work {α : Type} [Zero α] [Add α] [Mul α]
    (f : α → α → α) (x y : GPUBuffer α) (rx : GPUBuffer α) (ns : List Int)
    (input weight cx cw : GPUBuffer α) (stride : Nat × Nat) (groups : Nat) :
    (∀ e, (binary_op f x y).2 = Except.error e → (binary_op f x y).1 = []) ∧
    (reshapeForward rx ns).1 = [] ∧
    (∀ e, (matmulForward input weight).2 = Except.error e →
      (matmulForward input weight).1 = []) ∧
    (∀ e, (conv2dForward cx cw stride groups).2 = Except.error e →
      (conv2dForward cx cw stride groups).1 = []) := by
  have hbin : (binary_op f x y).1 = [] ∨
      ∃ b, (binary_op f x y).2 = Except.ok b := by
    simp only [binary_op]
    split
    · right; exact ⟨_, rfl⟩
    · left; rfl
  have hre : (reshapeForward rx ns).1 = [] := by
    simp only [reshapeForward]
    split
    · rfl
    · rfl
  have hmat : (matmulForward input weight).1 = [] ∨
      ∃ b, (matmulForward input weight).2 = Except.ok b := by
    simp only [matmulForward]
    split
    · split
      · right; exact ⟨_, rfl⟩
      · left; rfl
    · left; rfl
  have hconv : (conv2dForward cx cw stride groups).1 = [] ∨
      ∃ b, (conv2dForward cx cw stride groups).2 = Except.ok b := by
    simp only [conv2dForward]
    split
    · split
      · left; rfl
      · split
        · right; exact ⟨_, rfl⟩
        · left; rfl
    · left; rfl
  refine ⟨?_, hre, ?_, ?_⟩
  · intro e he
    rcases hbin with h | ⟨b, hb⟩
    · exact h
    · rw [hb] at he; cases he
  · intro e he
    rcases hmat with h | ⟨b, hb⟩
    · exact h
    · rw [hb] at he; cases he
  · intro e he
    rcases hconv with h | ⟨b, hb⟩
    · exact h
    · rw [hb] at he; cases he

/-- Witness for C4: concrete invalid invocations of all four operations leave
an empty event trace. -/
theorem C4_no_partial_work_witness :
    (binary_op (fun a b => a + b) (⟨[2], [1, 2]⟩ : GPUBuffer ℤ)
      ⟨[3], [1, 2, 3]⟩).1 = [] ∧
    (reshapeForward (⟨[2, 3], [1, 2, 3, 4, 5, 6]⟩ : GPUBuffer ℤ) [4, 2]).1 = [] ∧
    (matmulForward (⟨[2, 3], [1, 2, 3, 4, 5, 6]⟩ : GPUBuffer ℤ)
      ⟨[2, 2], [1, 2, 3, 4]⟩).1 = [] ∧
    (conv2dForward (⟨[1, 2, 3, 3], List.replicate 18 1⟩ : GPUBuffer ℤ)
      ⟨[1, 1, 2, 2], List.replicate 4 1⟩ (1, 1) 1).1 = [] := by
  obtain ⟨h1, h2, h3, h4⟩ :=
    C4_no_partial_work (fun a b => (a + b : ℤ)) ⟨[2], [1, 2]⟩ ⟨[3], [1, 2, 3]⟩
      ⟨[2, 3], [1, 2, 3, 4, 5, 6]⟩ [4, 2] ⟨[2, 3], [1, 2, 3, 4, 5, 6]⟩
      ⟨[2, 2], [1, 2, 3, 4]⟩ ⟨[1, 2, 3, 3], List.replicate 18 1⟩
      ⟨[1, 1, 2, 2], List.replicate 4 1⟩ (1, 1) 1
  exact ⟨h1 "binary op unbroadcastable shape mismatch" (by decide), h2,
    h3 "matmul contraction mismatch" (by decide),
    h4 "conv channel-group mismatch" (by decide)⟩

/-! ## Claim C5: Conv2D forward shape contract -/

/-- Claim C5: `Conv2D.forward` raises unless `cin*groups` equals the input
channel count and `cout` is divisible by `groups`; on success the output
shape is `(bs, cout, oy, ox)` with `oy = (iy-(H-ys))//ys` and
`ox = (ix-(W-xs))//xs` (Python floor division, clamped to a natural number
for the shape; the last two conjuncts state the exact floor-division formula
whenever it is nonnegative). -/
theorem C5_conv2d_shape {α : Type} [Zero α] [Add α] [Mul α]
    (x w : GPUBuffer α) (bs cin_ iy ix cout cin H W ys xs groups : Nat)
    (hx : x.shape = [bs, cin_, iy, ix]) (hw : w.shape = [cout, cin, H, W])
    (hys : 0 < ys) (hxs : 0 < xs) :
    (¬(cin * groups = cin_ ∧ cout % groups = 0) →
      conv2dForward x w (ys, xs) groups =
        ([], Except.error "conv channel-group mismatch")) ∧
    ((cin * groups = cin_ ∧ cout % groups = 0) →
      ∃ b : GPUBuffer α, (conv2dForward x w (ys, xs) groups).2 = Except.ok b ∧
        b.shape = [bs, cout,
          (Int.fdiv ((iy : Int) - ((H : Int) - (ys : Int))) (ys : Int)).toNat,
          (Int.fdiv ((ix : Int) - ((W : Int) - (xs : Int))) (xs : Int)).toNat] ∧
        (H ≤ iy + ys → ((b.shape.getD 2 0 : Int) =
          Int.fdiv ((iy : Int) - ((H : Int) - (ys : Int))) (ys : Int))) ∧
        (W ≤ ix + xs → ((b.shape.getD 3 0 : Int) =
          Int.fdiv ((ix : Int) - ((W : Int) - (xs : Int))) (xs : Int)))) := by
  obtain ⟨xsh, xdata⟩ := x
  obtain ⟨wsh, wdata⟩ := w
  simp only at hx hw
  subst hx
  subst hw
  have hzero : ¬(ys = 0 ∨ xs = 0) := by omega
  constructor
  · intro hbad
    simp only [conv2dForward]
    rw [if_neg hzero, if_neg hbad]
  · intro hgood
    have hmain : ∃ b : GPUBuffer α,
        (conv2dForward ⟨[bs, cin_, iy, ix], xdata⟩ ⟨[cout, cin, H, W], wdata⟩
          (ys, xs) groups).2 = Except.ok b ∧
        b.shape = [bs, cout,
          (Int.fdiv ((iy : Int) - ((H : Int) - (ys : Int))) (ys : Int)).toNat,
          (Int.fdiv ((ix : Int) - ((W : Int) - (xs : Int))) (xs : Int)).toNat] := by
      simp only [conv2dForward]
      rw [if_neg hzero, if_pos hgood]
      exact ⟨_, rfl, rfl⟩
    obtain ⟨b, hb, hshape⟩ := hmain
    refine ⟨b, hb, hshape, ?_, ?_⟩
    · intro hle
      have hnn : 0 ≤ Int.fdiv ((iy : Int) - ((H : Int) - (ys : Int))) (ys : Int) :=
        Int.fdiv_nonneg (by omega) (by omega)
      rw [hshape]
      simp only [List.getD_cons_succ, List.getD_cons_zero]
      rw [Int.toNat_of_nonneg hnn]
    · intro hle
      have hnn : 0 ≤ Int.fdiv ((ix : Int) - ((W : Int) - (xs : Int))) (xs : Int) :=
        Int.fdiv_nonneg (by omega) (by omega)
      rw [hshape]
      simp only [List.getD_cons_succ, List.getD_cons_zero]
      rw [Int.toNat_of_nonneg hnn]

/-- Witness for C5: a `5x5` input with a `3x3` kernel gives a `3x3` output at
stride 1 and a `2x2` output at stride 2, and a channel mismatch raises. -/
theorem C5_conv2d_shape_witness :
    (∃ b : GPUBuffer ℤ,
      (conv2dForward ⟨[1, 1, 5, 5], (List.range 25).map (fun i => (i : ℤ))⟩
        ⟨[1, 1, 3, 3], List.replicate 9 1⟩ (1, 1) 1).2 = Except.ok b ∧
      b.shape = [1, 1, 3, 3]) ∧
    (∃ b : GPUBuffer ℤ,
      (conv2dForward ⟨[1, 1, 5, 5], (List.range 25).map (fun i => (i : ℤ))⟩
        ⟨[1, 1, 3, 3], List.replicate 9 1⟩ (2, 2) 1).2 = Except.ok b ∧
      b.shape = [1, 1, 2, 2]) ∧
    conv2dForward (⟨[1, 2, 3, 3], List.replicate 18 1⟩ : GPUBuffer ℤ)
      ⟨[1, 1, 2, 2], List.replicate 4 1⟩ (1, 1) 1 =
      ([], Except.error "conv channel-group mismatch") := by
  refine ⟨?_, ?_, ?_⟩
  · obtain ⟨b, hb, hshape, h2, h3⟩ :=
      (C5_conv2d_shape ⟨[1, 1, 5, 5], (List.range 25).map (fun i => (i : ℤ))⟩
        ⟨[1, 1, 3, 3], List.replicate 9 1⟩ 1 1 5 5 1 1 3 3 1 1 1 rfl rfl
        (by decide) (by decide)).2 (by decide)
    exact ⟨b, hb, by rw [hshape]; decide⟩
  · obtain ⟨b, hb, hshape, h2, h3⟩ :=
      (C5_conv2d_shape ⟨[1, 1, 5, 5], (List.range 25).map (fun i => (i : ℤ))⟩
        ⟨[1, 1, 3, 3], List.replicate 9 1⟩ 1 1 5 5 1 1 3 3 2 2 1 rfl rfl
        (by decide) (by decide)).2 (by decide)
    exact ⟨b, hb, by rw [hshape]; decide⟩
  · exact (C5_conv2d_shape ⟨[1, 2, 3, 3], List.replicate 18 1⟩
      ⟨[1, 1, 2, 2], List.replicate 4 1⟩ 1 2 3 3 1 1 2 2 1 1 1 rfl rfl
      (by decide) (by decide)).1 (by decide)

/-! ## Claim C3: Matmul forward -/

theorem foldl_range_add {α : Type} [AddCommMonoid α] (f : Nat → α) (n : Nat)
    (a : α) :
    (List.range n).foldl (fun acc k => acc + f k) a =
      a + ∑ k in Finset.range n, f k := by
  induction n generalizing a with
  | zero => simp
  | succ n ih =>
    rw [List.range_succ, List.foldl_append, ih a]
    simp only [List.foldl_cons, List.foldl_nil]
    rw [Finset.sum_range_succ, add_assoc]

/-- The value the `matmul` kernel leaves at flat output position `p`: the
dot product over the shared dimension, at the operand offsets determined by
the stride constants and the batch index `p / (isize*osize)`. -/
theorem matmulKernel_getD {α : Type} [AddCommMonoid α] [Mul α] (a b : List α)
    (isize is0 is1 msize ws0 ws1 osize cnt p : Nat)
    (hp : p < cnt * (isize * osize)) :
    (matmulKernel a b isize is0 is1 msize ws0 ws1 osize cnt).getD p 0 =
      ∑ k in Finset.range msize,
        a.getD (p / osize % isize * is0 + k * is1 +
          isize * msize * (p / (isize * osize))) 0 *
        b.getD (p % osize * ws0 + k * ws1 +
          msize * osize * (p / (isize * osize))) 0 := by
  unfold matmulKernel
  rw [getD_range_map _ _ _ _ hp, foldl_range_add]
  rw [zero_add]

theorem matmul_flat_decompose (s X Y isize osize : Nat)
    (hX : X < isize) (hY : Y < osize) :
    (s * (isize * osize) + X * osize + Y) / (isize * osize) = s ∧
    (s * (isize * osize) + X * osize + Y) / osize % isize = X ∧
    (s * (isize * osize) + X * osize + Y) % osize = Y := by
  have hXY : X * osize + Y < isize * osize := by
    calc X * osize + Y < X * osize + osize := by omega
      _ = (X + 1) * osize := by ring
      _ ≤ isize * osize := Nat.mul_le_mul_right osize hX
  have h0 : s * (isize * osize) + X * osize + Y =
      s * (isize * osize) + (X * osize + Y) := by ring
  refine ⟨?_, ?_, ?_⟩
  · rw [h0, mul_add_div_self s (isize * osize) (X * osize + Y) hXY]
  · have h1 : s * (isize * osize) + X * osize + Y =
        (s * isize + X) * osize + Y := by ring
    rw [h1, mul_add_div_self (s * isize + X) osize Y hY,
      show s * isize + X = X + isize * s by ring,
      Nat.add_mul_mod_self_left, Nat.mod_eq_of_lt hX]
  · have h1 : s * (isize * osize) + X * osize + Y =
        (s * isize + X) * osize + Y := by ring
    rw [h1, mul_add_mod_self (s * isize + X) osize Y hY]

/-- Claim C3 as stated is false at its own example: for an input of shape
`(2,3,4)` and a weight of shape `(4,5)` the kernel applies the batch offset
`msize*osize*stride` to the weight as well, so batch slice 1 reads the
20-element weight buffer at flat offsets 20..39 — out of bounds (0 in the
model). The output entry at batch 1, position (0,0) is therefore 0, while
the 2D matrix product of input slice 1 with the weight is 518 there. -/
theorem C3_matmul_batch_cex :
    ((matmulForward (⟨[2, 3, 4], (List.range 24).map (fun i => (i : ℤ) + 1)⟩ :
        GPUBuffer ℤ) ⟨[4, 5], (List.range 20).map (fun i => (i : ℤ) + 1)⟩).2.map
      (fun b => b.data.getD 15 0)) = Except.ok 0 ∧
    (∑ k in Finset.range 4,
      ((List.range 24).map (fun i => (i : ℤ) + 1)).getD ((1 * 3 + 0) * 4 + k) 0 *
        ((List.range 20).map (fun i => (i : ℤ) + 1)).getD (k * 5 + 0) 0) = 518 ∧
    (0 : ℤ) ≠ 518 := by
  refine ⟨by decide, by decide, by decide⟩

/-- Claim C3, amended: `Matmul.forward` fails exactly when
`input.shape[-1] != weight.shape[-2]` (ranks below 2 also raise, before any
allocation); on success, for rank > 2 the leading input dimensions are
flattened into a batch count `cnt` and the kernel treats BOTH operands as
batched: output batch slice `s` is the 2D matrix product of input slice `s`
with WEIGHT slice `s` (at flat weight offset `s*msize*osize`). A weight
buffer must therefore carry `cnt` slices; with a rank-2 weight and a batched
input — the claim's `(2,3,4) @ (4,5)` example — the kernel reads the weight
out of bounds and the example fails. The output shape is
`input.shape[0:-2] + (isize, osize)`, e.g. `(2,3,5)` there. -/
theorem C3_matmul_forward {α : Type} [AddCommMonoid α] [Mul α]
    (input weight : GPUBuffer α) (cnt isize msize osize : Nat)
    (hrank : 2 ≤ input.shape.length) (hwrank : 2 ≤ weight.shape.length)
    (hisize : input.shape.getD (input.shape.length - 2) 0 = isize)
    (hmsize : input.shape.getD (input.shape.length - 1) 0 = msize)
    (hosize : weight.shape.getD (weight.shape.length - 1) 0 = osize)
    (hcnt : input.shape.dropLast.dropLast.prod = cnt) :
    (¬(msize = weight.shape.getD (weight.shape.length - 2) 0) →
      matmulForward input weight =
        ([], Except.error "matmul contraction mismatch")) ∧
    (msize = weight.shape.getD (weight.shape.length - 2) 0 →
      ∃ b : GPUBuffer α, (matmulForward input weight).2 = Except.ok b ∧
        b.shape = input.shape.dropLast.dropLast ++ [isize, osize] ∧
        b.data.length = cnt * (isize * osize) ∧
        ∀ s X Y, s < cnt → X < isize → Y < osize →
          b.data.getD (s * (isize * osize) + X * osize + Y) 0 =
            ∑ k in Finset.range msize,
              input.data.getD (s * (isize * msize) + X * msize + k) 0 *
                weight.data.getD (s * (msize * osize) + k * osize + Y) 0) := by
  have hcond : 2 ≤ input.shape.length ∧ 2 ≤ weight.shape.length := ⟨hrank, hwrank⟩
  constructor
  · intro hbad
    simp only [matmulForward]
    rw [if_pos hcond, if_neg (by rw [hmsize]; exact hbad)]
  · intro hgood
    have hmain : ∃ b : GPUBuffer α, (matmulForward input weight).2 = Except.ok b ∧
        b.shape = input.shape.dropLast.dropLast ++ [isize, osize] ∧
        b.data = matmulKernel input.data weight.data isize msize 1 msize 1
          osize osize cnt := by
      simp only [matmulForward]
      rw [if_pos hcond, if_pos (by rw [hmsize]; exact hgood), hisize, hmsize,
        hosize, hcnt]
      exact ⟨_, rfl, rfl, rfl⟩
    obtain ⟨b, hb, hshape, hdata⟩ := hmain
    refine ⟨b, hb, hshape, ?_, ?_⟩
    · rw [hdata]
      simp [matmulKernel]
    · intro s X Y hs hX hY
      have hp : s * (isize * osize) + X * osize + Y < cnt * (isize * osize) := by
        have hXY : X * osize + Y < isize * osize := by
          calc X * osize + Y < X * osize + osize := by omega
            _ = (X + 1) * osize := by ring
            _ ≤ isize * osize := Nat.mul_le_mul_right osize hX
        calc s * (isize * osize) + X * osize + Y
            < s * (isize * osize) + isize * osize := by omega
          _ = (s + 1) * (isize * osize) := by ring
          _ ≤ cnt * (isize * osize) := Nat.mul_le_mul_right _ hs
      obtain ⟨hd1, hd2, hd3⟩ := matmul_flat_decompose s X Y isize osize hX hY
      rw [hdata, matmulKernel_getD _ _ _ _ _ _ _ _ _ _ _ hp, hd1, hd2, hd3]
      apply Finset.sum_congr rfl
      intro k hk
      congr 1
      · congr 1
        ring
      · congr 1
        ring

/-- Witness for C3: a concrete 2D product `[[1,2],[3,4]] @ [[5,6],[7,8]]`
(batch count 1), checked at entry `(0,1)`, and a concrete contraction
mismatch. -/
theorem C3_matmul_forward_witness :
    (∃ b : GPUBuffer ℤ,
      (matmulForward (⟨[2, 2], [1, 2, 3, 4]⟩ : GPUBuffer ℤ)
        ⟨[2, 2], [5, 6, 7, 8]⟩).2 = Except.ok b ∧
      b.shape = [2, 2] ∧ b.data.getD 1 0 = 22) ∧
    matmulForward (⟨[2, 2], [1, 2, 3, 4]⟩ : GPUBuffer ℤ)
      ⟨[3, 2], [5, 6, 7, 8, 9, 10]⟩ =
      ([], Except.error "matmul contraction mismatch") := by
  constructor
  · obtain ⟨b, hb, hshape, hlen, hval⟩ :=
      (C3_matmul_forward (⟨[2, 2], [1, 2, 3, 4]⟩ : GPUBuffer ℤ)
        ⟨[2, 2], [5, 6, 7, 8]⟩ 1 2 2 2 (by decide) (by decide) (by decide)
        (by decide) (by decide) (by decide)).2 (by decide)
    refine ⟨b, hb, by rw [hshape]; decide, ?_⟩
    have := hval 0 0 1 (by decide) (by decide) (by decide)
    rw [show (0 * (2 * 2) + 0 * 2 + 1 : Nat) = 1 from rfl] at this
    rw [this]
    decide
  · exact (C3_matmul_forward (⟨[2, 2], [1, 2, 3, 4]⟩ : GPUBuffer ℤ)
      ⟨[3, 2], [5, 6, 7, 8, 9, 10]⟩ 1 2 2 2 (by decide) (by decide) (by decide)
      (by decide) (by decide) (by decide)).1 (by decide)

/-! ## Claim C8: Matmul backward -/

/-- Claim C8 as stated is false for a batched input with a rank-2 weight:
with input `(2,3,4)`, weight `(4,5)` and a matching upstream gradient
`(2,3,5)` (all ones), the re-launched kernel applies its batch stride to the
weight operand, reading the 20-element weight buffer out of bounds for batch
slice 1, so `grad_input` there is 0 while the reference
`grad_output @ weight^T` entry is 5. -/
theorem C8_matmul_backward_cex :
    ((matmulBackward (⟨[2, 3, 4], List.replicate 24 1⟩ : GPUBuffer ℤ)
        ⟨[4, 5], List.replicate 20 1⟩
        ⟨[2, 3, 5], List.replicate 30 1⟩).1.data.getD 12 0) = 0 ∧
    (∑ k in Finset.range 5,
      (List.replicate 30 (1 : ℤ)).getD (1 * (3 * 5) + 0 * 5 + k) 0 *
        (List.replicate 20 (1 : ℤ)).getD (0 * 5 + k) 0) = 5 ∧
    (0 : ℤ) ≠ 5 := by
  refine ⟨by decide, by decide, by decide⟩

/-- Claim C8, amended: `Matmul.backward` launches only the identical saved
kernel (the same `matmulKernel` the forward pass uses) with operand roles and
stride constants permuted, and the two returned buffers equal the reference
transposed products slice by slice — `grad_input` slice `s` is
`grad_output_s @ (weight_s)^T` and `grad_weight` slice `s` is
`(input_s)^T @ grad_output_s` — treating BOTH saved operands as batched with
the input's flattened batch count (for rank-2 operands, `cnt = 1`, this is
exactly the claim; with a rank-2 weight and a batched input the kernel reads
out of bounds and the claim fails). -/
theorem C8_matmul_backward {α : Type} [AddCommMonoid α] [Mul α]
    (input weight grad_output : GPUBuffer α) (cnt isize msize osize : Nat)
    (hisize : input.shape.getD (input.shape.length - 2) 0 = isize)
    (hmsize : input.shape.getD (input.shape.length - 1) 0 = msize)
    (hosize : weight.shape.getD (weight.shape.length - 1) 0 = osize)
    (hcnt : input.shape.dropLast.dropLast.prod = cnt) :
    (matmulBackward input weight grad_output).1.shape = input.shape ∧
    (matmulBackward input weight grad_output).2.shape = weight.shape ∧
    (∀ s X Y, s < cnt → X < isize → Y < msize →
      (matmulBackward input weight grad_output).1.data.getD
          (s * (isize * msize) + X * msize + Y) 0 =
        ∑ k in Finset.range osize,
          grad_output.data.getD (s * (isize * osize) + X * osize + k) 0 *
            weight.data.getD (s * (msize * osize) + Y * osize + k) 0) ∧
    (∀ s X Y, s < cnt → X < msize → Y < osize →
      (matmulBackward input weight grad_output).2.data.getD
          (s * (msize * osize) + X * osize + Y) 0 =
        ∑ k in Finset.range isize,
          input.data.getD (s * (isize * msize) + k * msize + X) 0 *
            grad_output.data.getD (s * (isize * osize) + k * osize + Y) 0) := by
  have hgi : (matmulBackward input weight grad_output).1.data =
      matmulKernel grad_output.data weight.data isize osize 1 osize osize 1
        msize cnt := by
    simp only [matmulBackward]
    rw [hisize, hmsize, hosize, hcnt]
  have hgw : (matmulBackward input weight grad_output).2.data =
      matmulKernel input.data grad_output.data msize 1 msize isize 1 osize
        osize cnt := by
    simp only [matmulBackward]
    rw [hisize, hmsize, hosize, hcnt]
  refine ⟨rfl, rfl, ?_, ?_⟩
  · intro s X Y hs hX hY
    have hp : s * (isize * msize) + X * msize + Y < cnt * (isize * msize) := by
      have hXY : X * msize + Y < isize * msize := by
        calc X * msize + Y < X * msize + msize := by omega
          _ = (X + 1) * msize := by ring
          _ ≤ isize * msize := Nat.mul_le_mul_right msize hX
      calc s * (isize * msize) + X * msize + Y
          < s * (isize * msize) + isize * msize := by omega
        _ = (s + 1) * (isize * msize) := by ring
        _ ≤ cnt * (isize * msize) := Nat.mul_le_mul_right _ hs
    obtain ⟨hd1, hd2, hd3⟩ := matmul_flat_decompose s X Y isize msize hX hY
    rw [hgi, matmulKernel_getD _ _ _ _ _ _ _ _ _ _ _ hp, hd1, hd2, hd3]
    apply Finset.sum_congr rfl
    intro k hk
    congr 1
    · congr 1
      ring
    · congr 1
      ring
  · intro s X Y hs hX hY
    have hp : s * (msize * osize) + X * osize + Y < cnt * (msize * osize) := by
      have hXY : X * osize + Y < msize * osize := by
        calc X * osize + Y < X * osize + osize := by omega
          _ = (X + 1) * osize := by ring
          _ ≤ msize * osize := Nat.mul_le_mul_right osize hX
      calc s * (msize * osize) + X * osize + Y
          < s * (msize * osize) + msize * osize := by omega
        _ = (s + 1) * (msize * osize) := by ring
        _ ≤ cnt * (msize * osize) := Nat.mul_le_mul_right _ hs
    obtain ⟨hd1, hd2, hd3⟩ := matmul_flat_decompose s X Y msize osize hX hY
    rw [hgw, matmulKernel_getD _ _ _ _ _ _ _ _ _ _ _ hp, hd1, hd2, hd3]
    apply Finset.sum_congr rfl
    intro k hk
    congr 1
    · congr 1
      ring
    · congr 1
      ring

/-- Witness for C8: a concrete rank-2 case. With `input = [[1,2],[3,4]]`,
`weight = [[5,6],[7,8]]` and identity upstream gradient, `grad_input` equals
`weight^T` and `grad_weight` equals `input^T`, checked entrywise. -/
theorem C8_matmul_backward_witness :
    ((matmulBackward (⟨[2, 2], [1, 2, 3, 4]⟩ : GPUBuffer ℤ)
        ⟨[2, 2], [5, 6, 7, 8]⟩ ⟨[2, 2], [1, 0, 0, 1]⟩).1.data.getD 1 0 = 7) ∧
    ((matmulBackward (⟨[2, 2], [1, 2, 3, 4]⟩ : GPUBuffer ℤ)
        ⟨[2, 2], [5, 6, 7, 8]⟩ ⟨[2, 2], [1, 0, 0, 1]⟩).2.data.getD 1 0 = 3) := by
  obtain ⟨hsh1, hsh2, hgi, hgw⟩ :=
    C8_matmul_backward (⟨[2, 2], [1, 2, 3, 4]⟩ : GPUBuffer ℤ)
      ⟨[2, 2], [5, 6, 7, 8]⟩ ⟨[2, 2], [1, 0, 0, 1]⟩ 1 2 2 2
      (by decide) (by decide) (by decide) (by decide)
  constructor
  · have := hgi 0 0 1 (by decide) (by decide) (by decide)
    rw [show (0 * (2 * 2) + 0 * 2 + 1 : Nat) = 1 from rfl] at this
    rw [this]
    decide
  · have := hgw 0 0 1 (by decide) (by decide) (by decide)
    rw [show (0 * (2 * 2) + 0 * 2 + 1 : Nat) = 1 from rfl] at this
    rw [this]
    decide

/-! ## Claim C6: Slice zero-padding -/

theorem forall_zip_iff_getD {α β : Type} (da : α) (db : β) (P : α → β → Prop) :
    ∀ (A : List α) (B : List β), A.length = B.length →
    ((∀ p ∈ A.zip B, P p.1 p.2) ↔
      (∀ i, i < A.length → P (A.getD i da) (B.getD i db))) := by
  intro A
  induction A with
  | nil => intro B h; simp
  | cons a A ih =>
    intro B h
    cases B with
    | nil => simp at h
    | cons b B =>
      have hlen : A.length = B.length := by simpa using h
      constructor
      · intro hp i hi
        cases i with
        | zero => exact hp (a, b) (by simp)
        | succ j =>
          exact (ih B hlen).mp (fun p hm => hp p (by simp [hm])) j
            (by simpa using hi)
      · intro hp p hm
        rw [List.zip_cons_cons, List.mem_cons] at hm
        rcases hm with hm | hm
        · subst hm; exact hp 0 (by simp)
        · exact (ih B hlen).mpr (fun j hj => hp (j + 1) (by simpa using hj)) p hm

theorem zip3_proj {α β γ : Type} :
    ∀ (A : List α) (B : List β) (C : List γ), A.length = B.length →
    B.length = C.length →
    (A.zip (B.zip C)).map (fun t => t.1) = A ∧
    (A.zip (B.zip C)).map (fun t => t.2.1) = B ∧
    (A.zip (B.zip C)).map (fun t => t.2.2) = C := by
  intro A
  induction A with
  | nil =>
    intro B C h1 h2
    have : B = [] := List.eq_nil_of_length_eq_zero h1.symm
    subst this
    have : C = [] := List.eq_nil_of_length_eq_zero h2.symm
    subst this
    exact ⟨rfl, rfl, rfl⟩
  | cons a A ih =>
    intro B C h1 h2
    cases B with
    | nil => simp at h1
    | cons b B =>
      cases C with
      | nil => simp at h2
      | cons c C =>
        obtain ⟨e1, e2, e3⟩ := ih B C (by simpa using h1) (by simpa using h2)
        exact ⟨by simp [e1], by simp [e2], by simp [e3]⟩

theorem pos_of_zip_lt (A B : List Nat) (h : A.length = B.length)
    (hb : ∀ p ∈ A.zip B, p.2 < p.1) : ∀ a ∈ A, 0 < a := by
  intro a ha
  rw [List.mem_iff_getElem] at ha
  obtain ⟨i, hi, rfl⟩ := ha
  have := (forall_zip_iff_getD 0 0 (fun x y => y < x) A B h).mp hb i hi
  rw [List.getD_eq_getElem A 0 hi] at this
  omega

theorem flatIdx_cons (d : Nat) (D M : List Nat) (m : Nat)
    (h : D.length = M.length) :
    flatIdx (d :: D) (m :: M) = m * D.prod + flatIdx D M := by
  unfold flatIdx
  rw [List.zip_cons_cons]
  simp only [flatAcc, List.foldl_cons, Nat.zero_mul, Nat.zero_add]
  have := flatAcc_acc (D.zip M) m
  simp only [flatAcc] at this
  rw [this, List.map_fst_zip D M (le_of_eq h)]

/-- The `gslice` walk on the zipped `(shape_x, shape_ret, shift)` triples:
feeding it the flat output index of a bounded multi-index `ms` (plus any
higher batch part `q`) yields the Horner input pointer over the shifted
coordinates together with the conjunction of the per-axis bounds checks. -/
theorem sliceIdxA_spec :
    ∀ (ts : List (Nat × Nat × Int)) (ms : List Nat) (q : Nat) (iptr : Int)
      (zero : Bool), ms.length = ts.length →
    (∀ p ∈ (ts.map fun t => t.2.1).zip ms, p.2 < p.1) →
    sliceIdxA (q * (ts.map fun t => t.2.1).prod +
        flatIdx (ts.map fun t => t.2.1) ms)
      ((ts.map fun t => t.2.1).prod) iptr zero ts =
    ((ts.zip ms).foldl
        (fun acc p => acc * (p.1.1 : Int) + ((p.2 : Int) + p.1.2.2)) iptr,
     (ts.zip ms).foldl
        (fun z p => z && decide (0 ≤ (p.2 : Int) + p.1.2.2 ∧
          (p.2 : Int) + p.1.2.2 < (p.1.1 : Int))) zero) := by
  intro ts
  induction ts with
  | nil =>
    intro ms q iptr zero hlen hb
    have : ms = [] := List.eq_nil_of_length_eq_zero (by simpa using hlen)
    subst this
    rfl
  | cons t ts ih =>
    intro ms q iptr zero hlen hb
    obtain ⟨dx, dr, sh⟩ := t
    cases ms with
    | nil => simp at hlen
    | cons m ms =>
      have hlen' : ms.length = ts.length := by simpa using hlen
      have hlen2 : (ts.map fun t => t.2.1).length = ms.length := by
        simp [hlen']
      have hm : m < dr := by
        have := hb (dr, m) (by simp)
        simpa using this
      have hb' : ∀ p ∈ (ts.map fun t => t.2.1).zip ms, p.2 < p.1 := by
        intro p hp
        exact hb p (by simp [hp])
      have hdrpos : 0 < dr := Nat.lt_of_le_of_lt (Nat.zero_le m) hm
      have hF : flatIdx (ts.map fun t => t.2.1) ms <
          (ts.map fun t => t.2.1).prod :=
        flatIdx_lt _ ms hlen2 hb'
      simp only [List.map_cons, List.prod_cons, List.zip_cons_cons,
        List.foldl_cons]
      rw [flatIdx_cons dr (ts.map fun t => t.2.1) ms m hlen2]
      rw [show q * (dr * (ts.map fun t => t.2.1).prod) +
          (m * (ts.map fun t => t.2.1).prod + flatIdx (ts.map fun t => t.2.1) ms)
          = (q * dr + m) * (ts.map fun t => t.2.1).prod +
            flatIdx (ts.map fun t => t.2.1) ms by ring]
      simp only [sliceIdxA]
      rw [Nat.mul_div_cancel_left _ hdrpos,
        mul_add_div_self _ _ _ hF,
        show q * dr + m = m + dr * q by ring, Nat.add_mul_mod_self_left,
        Nat.mod_eq_of_lt hm,
        show (m + dr * q) * (ts.map fun t => t.2.1).prod +
            flatIdx (ts.map fun t => t.2.1) ms
          = (q * dr + m) * (ts.map fun t => t.2.1).prod +
            flatIdx (ts.map fun t => t.2.1) ms by ring]
      exact ih ms (q * dr + m) _ _ hlen' hb'

theorem foldl_and_true_iff {γ : Type} (Q : γ → Prop) [DecidablePred Q] :
    ∀ (L : List γ) (z : Bool),
    (L.foldl (fun b p => b && decide (Q p)) z) = true ↔
      (z = true ∧ ∀ p ∈ L, Q p) := by
  intro L
  induction L with
  | nil => intro z; simp
  | cons a L ih =>
    intro z
    simp only [List.foldl_cons, ih, Bool.and_eq_true, decide_eq_true_eq,
      List.forall_mem_cons]
    tauto

theorem zip_getD {α β : Type} (A : List α) (B : List β) (da : α) (db : β)
    (i : Nat) (hA : i < A.length) (hB : i < B.length) :
    (A.zip B).getD i (da, db) = (A.getD i da, B.getD i db) := by
  rw [List.getD_eq_getElem _ _ (by rw [List.length_zip]; omega),
    List.getElem_zip, List.getD_eq_getElem A da hA, List.getD_eq_getElem B db hB]

/-- When every shifted coordinate is nonnegative, the `Int`-valued Horner
pointer accumulated by the slice kernel is the `Nat` row-major flat index of
the `toNat`-shifted coordinates inside the input shape. -/
theorem slice_ptr_eq :
    ∀ (ts : List (Nat × Nat × Int)) (ms : List Nat) (iptr : Nat),
    (∀ p ∈ ts.zip ms, 0 ≤ (p.2 : Int) + p.1.2.2) →
    (ts.zip ms).foldl
        (fun acc p => acc * (p.1.1 : Int) + ((p.2 : Int) + p.1.2.2))
        (iptr : Int)
      = ((flatAcc ((ts.map fun t => t.1).zip
          (List.zipWith (fun t (m : Nat) => ((m : Int) + t.2.2).toNat) ts ms)) iptr
          : Nat) : Int) := by
  intro ts
  induction ts with
  | nil => intro ms iptr h0; rfl
  | cons t ts ih =>
    intro ms iptr h0
    cases ms with
    | nil => rfl
    | cons m ms =>
      have hhead : (0 : Int) ≤ (m : Int) + t.2.2 := by
        have := h0 (t, m) (by simp)
        simpa using this
      have htail : ∀ p ∈ ts.zip ms, 0 ≤ (p.2 : Int) + p.1.2.2 := by
        intro p hp
        exact h0 p (by simp [hp])
      simp only [List.zip_cons_cons, List.foldl_cons, List.map_cons,
        List.zipWith_cons_cons]
      rw [show flatAcc ((t.1, ((m : Int) + t.2.2).toNat) ::
          (ts.map fun t => t.1).zip
            (List.zipWith (fun t (m : Nat) => ((m : Int) + t.2.2).toNat) ts ms)) iptr
        = flatAcc ((ts.map fun t => t.1).zip
            (List.zipWith (fun t (m : Nat) => ((m : Int) + t.2.2).toNat) ts ms))
            (iptr * t.1 + ((m : Int) + t.2.2).toNat) from rfl]
      rw [← ih ms (iptr * t.1 + ((m : Int) + t.2.2).toNat) htail]
      congr 1
      push_cast [Int.toNat_of_nonneg hhead]
      ring

/-- Claim C6: for every input buffer and per-axis `(start, end)` pair list
(matching the rank, with `start <= end` as the shape formula presupposes),
`Slice.forward` returns a buffer of shape `end - start` per axis; every
output position whose shifted input position `output index + start` lies in
`[0, input_dim)` on every axis holds the input's value there, and every
other output position holds exactly `0`. No range raises an error: the
embedding of `inner_slice` is a total function. -/
theorem C6_slice_zero_pad {α : Type} [Zero α] (x : GPUBuffer α)
    (arg : List (Int × Int))
    (hlen : arg.length = x.shape.length)
    (hse : ∀ p ∈ arg, p.1 ≤ p.2) :
    (inner_slice x arg).shape = arg.map (fun p => (p.2 - p.1).toNat) ∧
    (∀ i, i < arg.length →
      (((inner_slice x arg).shape.getD i 0 : Int))
        = (arg.getD i (0, 0)).2 - (arg.getD i (0, 0)).1) ∧
    (inner_slice x arg).data.length = (inner_slice x arg).shape.prod ∧
    (∀ ms : List Nat, ms.length = arg.length →
      (∀ p ∈ (inner_slice x arg).shape.zip ms, p.2 < p.1) →
      (inner_slice x arg).data.getD (flatIdx (inner_slice x arg).shape ms) 0 =
        if ∀ i, i < arg.length →
            0 ≤ (ms.getD i 0 : Int) + (arg.getD i (0, 0)).1 ∧
            (ms.getD i 0 : Int) + (arg.getD i (0, 0)).1 < (x.shape.getD i 0 : Int)
        then x.data.getD (flatIdx x.shape
          (List.zipWith (fun (m : Nat) p => ((m : Int) + p.1).toNat) ms arg)) 0
        else 0) := by
  have hsh : (inner_slice x arg).shape = arg.map (fun p => (p.2 - p.1).toNat) :=
    rfl
  refine ⟨rfl, ?_, ?_, ?_⟩
  · intro i hi
    rw [hsh]
    have hi' : i < (arg.map (fun p => (p.2 - p.1).toNat)).length := by
      simpa using hi
    rw [List.getD_eq_getElem _ _ hi', List.getElem_map,
      List.getD_eq_getElem arg (0, 0) hi]
    have hmem : arg[i] ∈ arg := List.mem_iff_getElem.mpr ⟨i, hi, rfl⟩
    have := hse _ hmem
    exact Int.toNat_of_nonneg (by omega)
  · simp [inner_slice]
  · intro ms hmslen hmb
    simp only [inner_slice] at hmb ⊢
    have holen : (arg.map (fun p => (p.2 - p.1).toNat)).length = ms.length := by
      simp [hmslen]
    have hgid := flatIdx_lt _ ms holen hmb
    rw [getD_range_map _ _ _ _ hgid]
    have htslen : (x.shape.zip ((arg.map fun p => (p.2 - p.1).toNat).zip
        (arg.map Prod.fst))).length = arg.length := by
      simp [List.length_zip, hlen]
    obtain ⟨ht1, ht2, ht3⟩ := zip3_proj x.shape
      (arg.map fun p => (p.2 - p.1).toNat) (arg.map Prod.fst)
      (by simp [hlen]) (by simp)
    have hspec := sliceIdxA_spec
      (x.shape.zip ((arg.map fun p => (p.2 - p.1).toNat).zip (arg.map Prod.fst)))
      ms 0 0 true (by rw [htslen, hmslen]) (by rw [ht2]; exact hmb)
    rw [ht2, Nat.zero_mul, Nat.zero_add] at hspec
    simp only [hspec]
    have hsgetD : ∀ i, i < arg.length →
        (arg.map Prod.fst).getD i 0 = (arg.getD i (0, 0)).1 := by
      intro i hi
      rw [List.getD_eq_getElem _ _ (by simpa using hi), List.getElem_map,
        List.getD_eq_getElem arg (0, 0) hi]
    have hogetD : ∀ i, i < arg.length →
        (arg.map fun p => (p.2 - p.1).toNat).getD i 0
          = ((arg.getD i (0, 0)).2 - (arg.getD i (0, 0)).1).toNat := by
      intro i hi
      rw [List.getD_eq_getElem _ _ (by simpa using hi), List.getElem_map,
        List.getD_eq_getElem arg (0, 0) hi]
    have htsgetD : ∀ i, i < arg.length →
        (x.shape.zip ((arg.map fun p => (p.2 - p.1).toNat).zip
            (arg.map Prod.fst))).getD i (0, 0, (0 : Int))
          = (x.shape.getD i 0,
             ((arg.getD i (0, 0)).2 - (arg.getD i (0, 0)).1).toNat,
             (arg.getD i (0, 0)).1) := by
      intro i hi
      rw [zip_getD _ _ _ _ i (by omega) (by simp [List.length_zip]; omega),
        zip_getD _ _ _ _ i (by simpa using hi) (by simpa using hi),
        hogetD i hi, hsgetD i hi]
    have hiff := forall_zip_iff_getD ((0 : Nat), ((0 : Nat), (0 : Int))) (0 : Nat)
      (fun t m => 0 ≤ (m : Int) + t.2.2 ∧ (m : Int) + t.2.2 < (t.1 : Int))
      (x.shape.zip ((arg.map fun p => (p.2 - p.1).toNat).zip (arg.map Prod.fst)))
      ms (htslen.trans hmslen.symm)
    have hQ1 : (∀ p ∈ (x.shape.zip ((arg.map fun p => (p.2 - p.1).toNat).zip
          (arg.map Prod.fst))).zip ms,
          0 ≤ (p.2 : Int) + p.1.2.2 ∧ (p.2 : Int) + p.1.2.2 < (p.1.1 : Int)) →
        (∀ i, i < arg.length →
          0 ≤ (ms.getD i 0 : Int) + (arg.getD i (0, 0)).1 ∧
          (ms.getD i 0 : Int) + (arg.getD i (0, 0)).1
            < (x.shape.getD i 0 : Int)) := by
      intro h i hi
      have := hiff.mp h i (by rw [htslen]; exact hi)
      rw [htsgetD i hi] at this
      exact this
    have hQ2 : (∀ i, i < arg.length →
          0 ≤ (ms.getD i 0 : Int) + (arg.getD i (0, 0)).1 ∧
          (ms.getD i 0 : Int) + (arg.getD i (0, 0)).1
            < (x.shape.getD i 0 : Int)) →
        (∀ p ∈ (x.shape.zip ((arg.map fun p => (p.2 - p.1).toNat).zip
          (arg.map Prod.fst))).zip ms,
          0 ≤ (p.2 : Int) + p.1.2.2 ∧ (p.2 : Int) + p.1.2.2 < (p.1.1 : Int)) := by
      intro h
      refine hiff.mpr ?_
      intro i hi
      have hi' : i < arg.length := by rw [← htslen]; exact hi
      rw [htsgetD i hi']
      exact h i hi'
    by_cases hc : ∀ i, i < arg.length →
        0 ≤ (ms.getD i 0 : Int) + (arg.getD i (0, 0)).1 ∧
        (ms.getD i 0 : Int) + (arg.getD i (0, 0)).1 < (x.shape.getD i 0 : Int)
    · rw [if_pos hc]
      have hall := hQ2 hc
      have hflag : (((x.shape.zip ((arg.map fun p => (p.2 - p.1).toNat).zip
            (arg.map Prod.fst))).zip ms).foldl
          (fun z p => z && decide (0 ≤ (p.2 : Int) + p.1.2.2 ∧
            (p.2 : Int) + p.1.2.2 < (p.1.1 : Int))) true) = true :=
        (foldl_and_true_iff _ _ _).mpr ⟨rfl, hall⟩
      have hvals : List.zipWith (fun t (m : Nat) => ((m : Int) + t.2.2).toNat)
            (x.shape.zip ((arg.map fun p => (p.2 - p.1).toNat).zip
              (arg.map Prod.fst))) ms
          = List.zipWith (fun (m : Nat) p => ((m : Int) + p.1).toNat) ms arg := by
        apply List.ext_getElem
        · simp [List.length_zipWith, htslen, hmslen]
        · intro i h1 h2
          simp only [List.getElem_zipWith, List.getElem_zip, List.getElem_map]
      have hptrEq : (((x.shape.zip ((arg.map fun p => (p.2 - p.1).toNat).zip
            (arg.map Prod.fst))).zip ms).foldl
          (fun acc p => acc * (p.1.1 : Int) + ((p.2 : Int) + p.1.2.2))
          0).toNat
          = flatIdx x.shape
              (List.zipWith (fun (m : Nat) p => ((m : Int) + p.1).toNat) ms arg) := by
        have hptr := slice_ptr_eq
          (x.shape.zip ((arg.map fun p => (p.2 - p.1).toNat).zip
            (arg.map Prod.fst))) ms 0 (fun p hp => (hall p hp).1)
        rw [ht1, hvals] at hptr
        rw [Nat.cast_zero] at hptr
        rw [hptr]
        simp [flatIdx]
      rw [hptrEq, hflag]
      simp
    · rw [if_neg hc]
      cases hflag : (((x.shape.zip ((arg.map fun p => (p.2 - p.1).toNat).zip
            (arg.map Prod.fst))).zip ms).foldl
          (fun z p => z && decide (0 ≤ (p.2 : Int) + p.1.2.2 ∧
            (p.2 : Int) + p.1.2.2 < (p.1.1 : Int))) true) with
      | false => simp
      | true =>
        exact absurd (hQ1 ((foldl_and_true_iff _ _ _).mp hflag).2) hc

/-- Witness for C6 at the spec's own example: slicing `[1,2,3]` (shape `(3,)`)
with the range `(-1,4)` gives shape `(5,)` and data `[0,1,2,3,0]`; position 0
is zero padding and position 1 holds the input's first element. -/
theorem C6_slice_zero_pad_witness :
    (inner_slice (⟨[3], [1, 2, 3]⟩ : GPUBuffer ℤ) [((-1 : Int), (4 : Int))]).shape
      = [5] ∧
    (inner_slice (⟨[3], [1, 2, 3]⟩ : GPUBuffer ℤ) [((-1 : Int), (4 : Int))]).data
      = [0, 1, 2, 3, 0] ∧
    (inner_slice (⟨[3], [1, 2, 3]⟩ : GPUBuffer ℤ)
        [((-1 : Int), (4 : Int))]).data.getD
      (flatIdx (inner_slice (⟨[3], [1, 2, 3]⟩ : GPUBuffer ℤ)
        [((-1 : Int), (4 : Int))]).shape [0]) 0 = 0 ∧
    (inner_slice (⟨[3], [1, 2, 3]⟩ : GPUBuffer ℤ)
        [((-1 : Int), (4 : Int))]).data.getD
      (flatIdx (inner_slice (⟨[3], [1, 2, 3]⟩ : GPUBuffer ℤ)
        [((-1 : Int), (4 : Int))]).shape [1]) 0 = 1 := by
  obtain ⟨h1, h2, h3, h4⟩ := C6_slice_zero_pad (⟨[3], [1, 2, 3]⟩ : GPUBuffer ℤ)
    [((-1 : Int), (4 : Int))] rfl (by decide)
  refine ⟨h1, by decide, ?_, ?_⟩
  · have h := h4 [0] rfl (by decide)
    rw [if_neg (by decide)] at h
    exact h
  · have h := h4 [1] rfl (by decide)
    rw [if_pos (by decide)] at h
    exact h.trans (by decide)

/-! ## Claim C7: Max backward -/

/-- Per-dimension radix of the output position `gid` in the reduce kernel:
the full extent on a kept dimension (`shape_x[dim] == shape_ret[dim]`),
1 on a reduced one. -/
def keptDim (p : Nat × Nat) : Nat := if p.1 = p.2 then p.1 else 1

/-- Per-dimension radix of the reduction loop counter `x`: 1 on kept
dimensions, the full extent on reduced ones. -/
def redDim (p : Nat × Nat) : Nat := if p.1 = p.2 then 1 else p.1

/-- Merge a per-group multi-index (kept dimensions) with an in-group
multi-index (reduced dimensions), dimension by dimension. -/
def combineIdx : List (Nat × Nat) → List Nat → List Nat → List Nat
  | (dx, dr) :: ts, g :: gs, r :: rs =>
      (if dx = dr then g else r) :: combineIdx ts gs rs
  | _, _, _ => []

/-- Number of input positions in one reduction group of shape `sh` reduced
to `c`. -/
def groupSize (sh c : List Nat) : Nat := ((sh.zip c).map redDim).prod

/-- Flat input index of the `x`-th member of the reduction group of the
collapsed multi-index `mc`: the member agrees with `mc` on kept dimensions
and carries the mixed-radix digits of `x` on reduced ones. -/
def groupIdx (sh c mc : List Nat) (x : Nat) : Nat :=
  flatIdx sh (combineIdx (sh.zip c) mc (multiIdx ((sh.zip c).map redDim) x))

theorem keptDim_mul_redDim (p : Nat × Nat) : keptDim p * redDim p = p.1 := by
  unfold keptDim redDim
  by_cases h : p.1 = p.2 <;> simp [h]

theorem prod_kept_mul_red (ts : List (Nat × Nat)) :
    (ts.map keptDim).prod * (ts.map redDim).prod = (ts.map Prod.fst).prod := by
  induction ts with
  | nil => simp
  | cons p ts ih =>
    simp only [List.map_cons, List.prod_cons]
    calc (keptDim p * (ts.map keptDim).prod) * (redDim p * (ts.map redDim).prod)
        = (keptDim p * redDim p) *
            ((ts.map keptDim).prod * (ts.map redDim).prod) := by ring
      _ = p.1 * (ts.map Prod.fst).prod := by rw [keptDim_mul_redDim, ih]

theorem keptMap_eq (ts : List (Nat × Nat))
    (h : ∀ p ∈ ts, p.2 = p.1 ∨ p.2 = 1) :
    ts.map keptDim = ts.map Prod.snd := by
  induction ts with
  | nil => rfl
  | cons p ts ih =>
    have hp := h p (by simp)
    have hrest : ∀ q ∈ ts, q.2 = q.1 ∨ q.2 = 1 := fun q hq => h q (by simp [hq])
    simp only [List.map_cons, ih hrest]
    congr 1
    unfold keptDim
    rcases hp with hp | hp
    · rw [hp]; simp
    · by_cases he : p.1 = p.2
      · simp [he]
      · simp [he, hp]

theorem collapsedShape_length (s : List Nat) (ax : Option (List Nat)) :
    (collapsedShape s ax).length = s.length := by
  unfold collapsedShape
  cases ax with
  | none => simp
  | some a => simp

theorem collapsedShape_pairs (s : List Nat) (ax : Option (List Nat)) :
    ∀ p ∈ s.zip (collapsedShape s ax), p.2 = p.1 ∨ p.2 = 1 := by
  cases ax with
  | none =>
    intro p hp
    right
    have := (List.of_mem_zip hp).2
    unfold collapsedShape at this
    exact List.eq_of_mem_replicate this
  | some a =>
    have hlen : s.length = (collapsedShape s (some a)).length :=
      (collapsedShape_length s (some a)).symm
    refine (forall_zip_iff_getD 0 0 (fun x y => y = x ∨ y = 1) s
      (collapsedShape s (some a)) hlen).mpr ?_
    intro i hi
    rw [collapsedShape_some_getD s a i hi]
    by_cases hm : i ∈ a
    · simp [hm]
    · simp [hm]

theorem collapsedShape_pos (s : List Nat) (ax : Option (List Nat))
    (hpos : ∀ d ∈ s, 0 < d) : ∀ d ∈ collapsedShape s ax, 0 < d := by
  intro d hd
  rw [List.mem_iff_getElem] at hd
  obtain ⟨i, hi, rfl⟩ := hd
  have hi' : i < s.length := by
    rw [← collapsedShape_length s ax]; exact hi
  have hmem : (s[i], (collapsedShape s ax)[i]) ∈
      s.zip (collapsedShape s ax) := by
    rw [List.mem_iff_getElem]
    refine ⟨i, by rw [List.length_zip]; omega, ?_⟩
    rw [List.getElem_zip]
  rcases collapsedShape_pairs s ax _ hmem with h | h
  · have h' : (collapsedShape s ax)[i] = s[i] := h
    rw [h']
    exact hpos _ (List.mem_iff_getElem.mpr ⟨i, hi', rfl⟩)
  · have h' : (collapsedShape s ax)[i] = 1 := h
    rw [h']
    omega

theorem getD_zipWith {α β γ : Type} (f : α → β → γ) (A : List α) (B : List β)
    (da : α) (db : β) (dg : γ) (i : Nat) (hA : i < A.length) (hB : i < B.length) :
    (List.zipWith f A B).getD i dg = f (A.getD i da) (B.getD i db) := by
  rw [List.getD_eq_getElem _ _ (by rw [List.length_zipWith]; omega),
    List.getElem_zipWith, List.getD_eq_getElem A da hA, List.getD_eq_getElem B db hB]

theorem mem_zip_right {α β : Type} (A : List α) (B : List β)
    (h : A.length = B.length) (b : β) (hb : b ∈ B) :
    ∃ a ∈ A, (a, b) ∈ A.zip B := by
  rw [List.mem_iff_getElem] at hb
  obtain ⟨i, hi, rfl⟩ := hb
  have hiA : i < A.length := by omega
  refine ⟨A[i], List.mem_iff_getElem.mpr ⟨i, hiA, rfl⟩, ?_⟩
  rw [List.mem_iff_getElem]
  refine ⟨i, by rw [List.length_zip]; omega, ?_⟩
  rw [List.getElem_zip]

/-- Index walk of the generated `reduce` kernel: feeding it the flat output
position built from the kept digits `mg` and the loop counter built from the
reduced digits `mx` (each with an arbitrary high part) accumulates, dimension
by dimension, the Horner index over the merged digits — the kept digit where
`shape_x[dim] == shape_ret[dim]` and the loop digit elsewhere. -/
theorem reduceIdxA_spec :
    ∀ (ts : List (Nat × Nat)) (mg mx : List Nat) (qg qx idx : Nat),
    mg.length = ts.length → mx.length = ts.length →
    (∀ p ∈ (ts.map keptDim).zip mg, p.2 < p.1) →
    (∀ p ∈ (ts.map redDim).zip mx, p.2 < p.1) →
    reduceIdxA (qg * (ts.map keptDim).prod + flatIdx (ts.map keptDim) mg)
               (qx * (ts.map redDim).prod + flatIdx (ts.map redDim) mx)
               ((ts.map keptDim).prod) ((ts.map redDim).prod) idx ts
      = flatAcc ((ts.zip (mg.zip mx)).map
          (fun t => (t.1.1, if t.1.1 = t.1.2 then t.2.1 else t.2.2))) idx := by
  intro ts
  induction ts with
  | nil =>
    intro mg mx qg qx idx h1 h2 hb1 hb2
    rfl
  | cons t ts ih =>
    intro mg mx qg qx idx h1 h2 hb1 hb2
    obtain ⟨dx, dr⟩ := t
    cases mg with
    | nil => simp at h1
    | cons g mg =>
      cases mx with
      | nil => simp at h2
      | cons xd mx =>
        have h1' : mg.length = ts.length := by simpa using h1
        have h2' : mx.length = ts.length := by simpa using h2
        have hklen : (ts.map keptDim).length = mg.length := by simp [h1']
        have hrlen : (ts.map redDim).length = mx.length := by simp [h2']
        have hg : g < keptDim (dx, dr) := by
          have := hb1 (keptDim (dx, dr), g) (by simp)
          simpa using this
        have hx : xd < redDim (dx, dr) := by
          have := hb2 (redDim (dx, dr), xd) (by simp)
          simpa using this
        have hb1' : ∀ p ∈ (ts.map keptDim).zip mg, p.2 < p.1 := by
          intro p hp; exact hb1 p (by simp [hp])
        have hb2' : ∀ p ∈ (ts.map redDim).zip mx, p.2 < p.1 := by
          intro p hp; exact hb2 p (by simp [hp])
        have hFg : flatIdx (ts.map keptDim) mg < (ts.map keptDim).prod :=
          flatIdx_lt _ _ hklen hb1'
        have hFx : flatIdx (ts.map redDim) mx < (ts.map redDim).prod :=
          flatIdx_lt _ _ hrlen hb2'
        simp only [List.map_cons, List.prod_cons, List.zip_cons_cons]
        rw [flatIdx_cons _ _ _ _ hklen, flatIdx_cons _ _ _ _ hrlen]
        rw [show flatAcc (((dx, if dx = dr then g else xd) : Nat × Nat) ::
              (ts.zip (mg.zip mx)).map
              (fun t => (t.1.1, if t.1.1 = t.1.2 then t.2.1 else t.2.2))) idx
            = flatAcc ((ts.zip (mg.zip mx)).map
              (fun t => (t.1.1, if t.1.1 = t.1.2 then t.2.1 else t.2.2)))
              (idx * dx + (if dx = dr then g else xd)) from rfl]
        by_cases he : dx = dr
        · have hkd : keptDim (dx, dr) = dx := by
            unfold keptDim; rw [if_pos he]
          have hrd : redDim (dx, dr) = 1 := by
            unfold redDim; rw [if_pos he]
          rw [hkd] at hg ⊢
          rw [hrd] at hx ⊢
          have hdx : 0 < dx := Nat.lt_of_le_of_lt (Nat.zero_le g) hg
          simp only [reduceIdxA]
          rw [if_pos he]
          rw [Nat.mul_div_cancel_left _ hdx]
          rw [show qg * (dx * (ts.map keptDim).prod) +
              (g * (ts.map keptDim).prod + flatIdx (ts.map keptDim) mg)
              = (qg * dx + g) * (ts.map keptDim).prod +
                flatIdx (ts.map keptDim) mg by ring]
          rw [mul_add_div_self _ _ _ hFg, mul_add_mod_self _ _ _ hg]
          rw [if_pos he, one_mul]
          rw [show qx * (ts.map redDim).prod +
              (xd * (ts.map redDim).prod + flatIdx (ts.map redDim) mx)
              = (qx * 1 + xd) * (ts.map redDim).prod +
                flatIdx (ts.map redDim) mx by ring]
          exact ih mg mx (qg * dx + g) (qx * 1 + xd) (idx * dx + g)
            h1' h2' hb1' hb2'
        · have hkd : keptDim (dx, dr) = 1 := by
            unfold keptDim; rw [if_neg he]
          have hrd : redDim (dx, dr) = dx := by
            unfold redDim; rw [if_neg he]
          rw [hkd] at hg ⊢
          rw [hrd] at hx ⊢
          have hdx : 0 < dx := Nat.lt_of_le_of_lt (Nat.zero_le xd) hx
          simp only [reduceIdxA]
          rw [if_neg he]
          rw [Nat.mul_div_cancel_left _ hdx]
          rw [show qx * (dx * (ts.map redDim).prod) +
              (xd * (ts.map redDim).prod + flatIdx (ts.map redDim) mx)
              = (qx * dx + xd) * (ts.map redDim).prod +
                flatIdx (ts.map redDim) mx by ring]
          rw [mul_add_div_self _ _ _ hFx, mul_add_mod_self _ _ _ hx]
          rw [if_neg he, one_mul]
          rw [show qg * (ts.map keptDim).prod +
              (g * (ts.map keptDim).prod + flatIdx (ts.map keptDim) mg)
              = (qg * 1 + g) * (ts.map keptDim).prod +
                flatIdx (ts.map keptDim) mg by ring]
          exact ih mg mx (qg * 1 + g) (qx * dx + xd) (idx * dx + xd)
            h1' h2' hb1' hb2'

theorem combine_zip :
    ∀ (ts : List (Nat × Nat)) (mg mx : List Nat),
    mg.length = ts.length → mx.length = ts.length →
    (ts.zip (mg.zip mx)).map
        (fun t => (t.1.1, if t.1.1 = t.1.2 then t.2.1 else t.2.2))
      = (ts.map Prod.fst).zip (combineIdx ts mg mx) := by
  intro ts
  induction ts with
  | nil => intro mg mx h1 h2; rfl
  | cons t ts ih =>
    intro mg mx h1 h2
    obtain ⟨dx, dr⟩ := t
    cases mg with
    | nil => simp at h1
    | cons g mg =>
      cases mx with
      | nil => simp at h2
      | cons xd mx =>
        simp only [List.zip_cons_cons, List.map_cons, combineIdx]
        rw [ih mg mx (by simpa using h1) (by simpa using h2)]

theorem combine_flatAcc (ts : List (Nat × Nat)) (mg mx : List Nat)
    (h1 : mg.length = ts.length) (h2 : mx.length = ts.length) :
    flatAcc ((ts.zip (mg.zip mx)).map
        (fun t => (t.1.1, if t.1.1 = t.1.2 then t.2.1 else t.2.2))) 0
      = flatIdx (ts.map Prod.fst) (combineIdx ts mg mx) := by
  rw [combine_zip ts mg mx h1 h2]
  rfl

theorem combineIdx_length :
    ∀ (ts : List (Nat × Nat)) (mg mx : List Nat),
    mg.length = ts.length → mx.length = ts.length →
    (combineIdx ts mg mx).length = ts.length := by
  intro ts
  induction ts with
  | nil => intro mg mx h1 h2; rfl
  | cons t ts ih =>
    intro mg mx h1 h2
    obtain ⟨dx, dr⟩ := t
    cases mg with
    | nil => simp at h1
    | cons g mg =>
      cases mx with
      | nil => simp at h2
      | cons xd mx =>
        simp only [combineIdx, List.length_cons]
        rw [ih mg mx (by simpa using h1) (by simpa using h2)]

theorem combineIdx_bounds :
    ∀ (ts : List (Nat × Nat)) (mg mx : List Nat),
    mg.length = ts.length → mx.length = ts.length →
    (∀ p ∈ (ts.map keptDim).zip mg, p.2 < p.1) →
    (∀ p ∈ (ts.map redDim).zip mx, p.2 < p.1) →
    ∀ p ∈ (ts.map Prod.fst).zip (combineIdx ts mg mx), p.2 < p.1 := by
  intro ts
  induction ts with
  | nil => intro mg mx h1 h2 hb1 hb2 p hp; simp at hp
  | cons t ts ih =>
    intro mg mx h1 h2 hb1 hb2 p hp
    obtain ⟨dx, dr⟩ := t
    cases mg with
    | nil => simp at h1
    | cons g mg =>
      cases mx with
      | nil => simp at h2
      | cons xd mx =>
        simp only [combineIdx, List.map_cons, List.zip_cons_cons,
          List.mem_cons] at hp
        rcases hp with hp | hp
        · subst hp
          by_cases he : dx = dr
          · rw [if_pos he]
            have := hb1 (keptDim (dx, dr), g) (by simp)
            have hkd : keptDim (dx, dr) = dx := by
              unfold keptDim; rw [if_pos he]
            rw [hkd] at this
            simpa using this
          · rw [if_neg he]
            have := hb2 (redDim (dx, dr), xd) (by simp)
            have hrd : redDim (dx, dr) = dx := by
              unfold redDim; rw [if_neg he]
            rw [hrd] at this
            simpa using this
        · exact ih mg mx (by simpa using h1) (by simpa using h2)
            (fun q hq => hb1 q (by simp [hq]))
            (fun q hq => hb2 q (by simp [hq])) p hp

/-- Value of one `reduce_op` output position: the finalizer applied to the
fold of the accumulator over the input values of that position's reduction
group, enumerated in kernel order. -/
theorem reduce_op_getD {α : Type} [Zero α] (acc : α → α → α) (fin : α → α)
    (inp : GPUBuffer α) (axis : Option (List Nat)) (start : α)
    (hpos : ∀ d ∈ inp.shape, 0 < d) (mc : List Nat)
    (hlen : mc.length = inp.shape.length)
    (hbc : ∀ p ∈ (collapsedShape inp.shape axis).zip mc, p.2 < p.1) :
    (reduce_op acc fin inp axis start).data.getD
        (flatIdx (collapsedShape inp.shape axis) mc) 0
      = fin ((List.range
            (groupSize inp.shape (collapsedShape inp.shape axis))).foldl
          (fun out x => acc out (inp.data.getD
            (groupIdx inp.shape (collapsedShape inp.shape axis) mc x) 0))
          start) := by
  have hclen : (collapsedShape inp.shape axis).length = inp.shape.length :=
    collapsedShape_length _ _
  have hcpos : ∀ d ∈ collapsedShape inp.shape axis, 0 < d :=
    collapsedShape_pos _ _ hpos
  have hpairs := collapsedShape_pairs inp.shape axis
  have htslen : (inp.shape.zip (collapsedShape inp.shape axis)).length
      = inp.shape.length := by
    rw [List.length_zip, hclen, Nat.min_self]
  have hmapfst : (inp.shape.zip (collapsedShape inp.shape axis)).map Prod.fst
      = inp.shape :=
    List.map_fst_zip _ _ (le_of_eq hclen.symm)
  have hmapsnd : (inp.shape.zip (collapsedShape inp.shape axis)).map Prod.snd
      = collapsedShape inp.shape axis :=
    List.map_snd_zip _ _ (le_of_eq hclen)
  have hkept : (inp.shape.zip (collapsedShape inp.shape axis)).map keptDim
      = collapsedShape inp.shape axis := by
    rw [keptMap_eq _ hpairs, hmapsnd]
  have hKpos : 0 < (collapsedShape inp.shape axis).prod := List.prod_pos hcpos
  have hgid : flatIdx (collapsedShape inp.shape axis) mc
      < (collapsedShape inp.shape axis).prod :=
    flatIdx_lt _ _ (by rw [hclen, hlen]) hbc
  have hszS : inp.shape.prod / (collapsedShape inp.shape axis).prod
      = ((inp.shape.zip (collapsedShape inp.shape axis)).map redDim).prod := by
    calc inp.shape.prod / (collapsedShape inp.shape axis).prod
        = (((inp.shape.zip (collapsedShape inp.shape axis)).map keptDim).prod *
            ((inp.shape.zip (collapsedShape inp.shape axis)).map redDim).prod) /
            ((inp.shape.zip (collapsedShape inp.shape axis)).map keptDim).prod := by
          rw [prod_kept_mul_red, hmapfst, hkept]
      _ = ((inp.shape.zip (collapsedShape inp.shape axis)).map redDim).prod :=
          Nat.mul_div_cancel_left _ (by rw [hkept]; exact hKpos)
  have hredpos : ∀ d ∈ (inp.shape.zip (collapsedShape inp.shape axis)).map redDim,
      0 < d := by
    intro d hd
    rw [List.mem_map] at hd
    obtain ⟨q, hq, rfl⟩ := hd
    unfold redDim
    by_cases hqe : q.1 = q.2
    · rw [if_pos hqe]
      exact Nat.one_pos
    · rw [if_neg hqe]
      exact hpos _ (List.of_mem_zip hq).1
  simp only [reduce_op]
  rw [getD_range_map _ _ _ _ hgid]
  simp only [hszS, groupSize, groupIdx]
  refine congrArg fin (List.foldl_ext _ _ start ?_)
  intro o x hx
  have hxS : x < ((inp.shape.zip (collapsedShape inp.shape axis)).map redDim).prod :=
    List.mem_range.mp hx
  have hmglen : mc.length = (inp.shape.zip (collapsedShape inp.shape axis)).length := by
    rw [htslen, hlen]
  have hmxlen : (multiIdx ((inp.shape.zip (collapsedShape inp.shape axis)).map redDim) x).length
      = (inp.shape.zip (collapsedShape inp.shape axis)).length := by
    rw [multiIdx_length, List.length_map]
  have hbmg : ∀ p ∈ ((inp.shape.zip (collapsedShape inp.shape axis)).map keptDim).zip mc,
      p.2 < p.1 := by
    rw [hkept]
    exact hbc
  have hbmx : ∀ p ∈ ((inp.shape.zip (collapsedShape inp.shape axis)).map redDim).zip
      (multiIdx ((inp.shape.zip (collapsedShape inp.shape axis)).map redDim) x),
      p.2 < p.1 :=
    multiIdx_lt _ x hredpos
  have hwalk := reduceIdxA_spec (inp.shape.zip (collapsedShape inp.shape axis))
    mc (multiIdx ((inp.shape.zip (collapsedShape inp.shape axis)).map redDim) x)
    0 0 0 hmglen hmxlen hbmg hbmx
  simp only [Nat.zero_mul, Nat.zero_add] at hwalk
  rw [hkept] at hwalk
  rw [flatIdx_multiIdx _ _ hxS] at hwalk
  rw [hwalk, combine_flatAcc _ _ _ hmglen hmxlen, hmapfst]

/-- `binary_op` between buffers of equal rank whose second shape divides the
first in the broadcast sense (`dy == dx` or `dy == 1` per axis): no error,
the output keeps the first operand's shape, and each bounded position holds
`f` of the first operand there and the second operand at the collapsed
index. -/
theorem binary_op_eqrank {α : Type} [Zero α] (f : α → α → α) (x y : GPUBuffer α)
    (hxpos : ∀ d ∈ x.shape, 0 < d)
    (hlen : y.shape.length = x.shape.length)
    (hpairs : ∀ p ∈ x.shape.zip y.shape, p.2 = p.1 ∨ p.2 = 1) :
    ∃ b : GPUBuffer α, (binary_op f x y).2 = Except.ok b ∧
      b.shape = x.shape ∧ b.data.length = x.shape.prod ∧
      ∀ m : List Nat, m.length = x.shape.length →
        (∀ p ∈ x.shape.zip m, p.2 < p.1) →
        b.data.getD (flatIdx x.shape m) 0 =
          f (x.data.getD (flatIdx x.shape m) 0)
            (y.data.getD (flatIdx y.shape (bcastIdx y.shape m)) 0) := by
  have hypos : ∀ d ∈ y.shape, 0 < d := by
    intro d hd
    obtain ⟨a, ha, hab⟩ := mem_zip_right x.shape y.shape hlen.symm d hd
    rcases hpairs _ hab with h | h
    · have h' : d = a := h
      rw [h']
      exact hxpos a ha
    · have h' : d = 1 := h
      rw [h']
      exact Nat.one_pos
  have hpadx : padTrailing x.shape (max x.shape.length y.shape.length)
      = x.shape := by
    unfold padTrailing
    rw [hlen, Nat.max_self, Nat.sub_self, List.replicate_zero, List.append_nil]
  have hpady : padTrailing y.shape (max x.shape.length y.shape.length)
      = y.shape := by
    unfold padTrailing
    rw [hlen, Nat.max_self, Nat.sub_self, List.replicate_zero,
      List.append_nil]
  have hok : broadcastOK x.shape y.shape = true := by
    unfold broadcastOK
    rw [List.all_eq_true]
    intro p hp
    rcases hpairs p hp with h | h
    · simp [h]
    · simp [h]
  have hmaxeq : List.zipWith max x.shape y.shape = x.shape := by
    apply List.ext_getElem
    · rw [List.length_zipWith, hlen, Nat.min_self]
    · intro i h1 h2
      have h2y : i < y.shape.length := by omega
      rw [List.getElem_zipWith]
      have hmem : (x.shape[i], y.shape[i]) ∈ x.shape.zip y.shape := by
        rw [List.mem_iff_getElem]
        exact ⟨i, by rw [List.length_zip]; omega, by rw [List.getElem_zip]⟩
      have hx1 : 0 < x.shape[i] := hxpos _ (List.mem_iff_getElem.mpr ⟨i, h2, rfl⟩)
      rcases hpairs _ hmem with h | h
      · have h' : y.shape[i] = x.shape[i] := h
        rw [h', Nat.max_self]
      · have h' : y.shape[i] = 1 := h
        rw [h']
        omega
  have hbcx : ∀ m : List Nat, m.length = x.shape.length →
      (∀ p ∈ x.shape.zip m, p.2 < p.1) → bcastIdx x.shape m = m := by
    intro m hmlen hmb
    apply List.ext_getElem
    · unfold bcastIdx
      rw [List.length_zipWith, hmlen, Nat.min_self]
    · intro i h1 h2
      have h2x : i < x.shape.length := by omega
      unfold bcastIdx
      rw [List.getElem_zipWith]
      by_cases hx1 : x.shape[i] = 1
      · rw [if_pos hx1]
        have hmem : (x.shape[i], m[i]) ∈ x.shape.zip m := by
          rw [List.mem_iff_getElem]
          exact ⟨i, by rw [List.length_zip]; omega, by rw [List.getElem_zip]⟩
        have := hmb _ hmem
        have h2' : m[i] < x.shape[i] := this
        omega
      · rw [if_neg hx1]
  obtain ⟨b, hokb, hshape, hdlen, hval⟩ := binary_op_ok f x y hxpos hypos
    x.shape y.shape hpadx.symm hpady.symm hok
  refine ⟨b, hokb, by rw [hshape, hmaxeq], by rw [hdlen, hmaxeq], ?_⟩
  intro m hmlen hmb
  have hv := hval m hmlen (by rw [hmaxeq]; exact hmb)
  rw [hmaxeq] at hv
  rw [hv, hbcx m hmlen hmb]

theorem foldl_max_le {β : Type} [LinearOrder β] :
    ∀ (L : List β) (b : β),
    b ≤ L.foldl (fun out a => max a out) b ∧
      ∀ a ∈ L, a ≤ L.foldl (fun out a => max a out) b := by
  intro L
  induction L with
  | nil =>
    intro b
    exact ⟨le_refl b, by simp⟩
  | cons c L ih =>
    intro b
    simp only [List.foldl_cons]
    constructor
    · calc b ≤ max c b := le_max_right c b
        _ ≤ _ := (ih (max c b)).1
    · intro a ha
      rcases List.mem_cons.mp ha with rfl | ha
      · calc a ≤ max a b := le_max_left a b
          _ ≤ _ := (ih (max a b)).1
      · exact (ih (max c b)).2 a ha

theorem foldl_max_mem {β : Type} [LinearOrder β] :
    ∀ (L : List β) (b : β),
    L.foldl (fun out a => max a out) b ∈ L ∨
      L.foldl (fun out a => max a out) b = b := by
  intro L
  induction L with
  | nil => intro b; right; rfl
  | cons c L ih =>
    intro b
    simp only [List.foldl_cons]
    rcases ih (max c b) with h | h
    · left
      exact List.mem_cons_of_mem _ h
    · rcases max_choice c b with he | he
      · left
        rw [h, he]
        exact List.mem_cons_self _ _
      · right
        rw [h, he]

theorem foldl_max_attained {β : Type} [LinearOrder β] (L : List β) (b : β)
    (hne : L ≠ []) (hb : ∀ a ∈ L, b ≤ a) :
    L.foldl (fun out a => max a out) b ∈ L := by
  rcases foldl_max_mem L b with h | h
  · exact h
  · cases L with
    | nil => exact absurd rfl hne
    | cons c L =>
      have h1 : c ≤ (c :: L).foldl (fun out a => max a out) b :=
        (foldl_max_le (c :: L) b).2 c (by simp)
      have h2 : b ≤ c := hb c (by simp)
      rw [h]
      have hbc : b = c := le_antisymm h2 (h ▸ h1)
      rw [hbc]
      exact List.mem_cons_self _ _

theorem combineIdx_getD :
    ∀ (A B : List Nat) (mg mx : List Nat) (i : Nat),
    A.length = B.length → mg.length = A.length → mx.length = A.length →
    i < A.length →
    (combineIdx (A.zip B) mg mx).getD i 0
      = if A.getD i 0 = B.getD i 0 then mg.getD i 0 else mx.getD i 0 := by
  intro A
  induction A with
  | nil => intro B mg mx i h1 h2 h3 hi; simp at hi
  | cons a A ih =>
    intro B mg mx i h1 h2 h3 hi
    cases B with
    | nil => simp at h1
    | cons b B =>
      cases mg with
      | nil => simp at h2
      | cons g mg =>
        cases mx with
        | nil => simp at h3
        | cons xd mx =>
          simp only [List.zip_cons_cons, combineIdx]
          cases i with
          | zero => simp [List.getD_cons_zero]
          | succ j =>
            simp only [List.getD_cons_succ]
            exact ih B mg mx j (by simpa using h1) (by simpa using h2)
              (by simpa using h3) (by simpa using hi)

theorem zipWith3_length {β : Type} (f : Nat → Nat → Nat → β) :
    ∀ (A B C : List Nat), A.length = B.length → B.length = C.length →
    (zipWith3 f A B C).length = A.length := by
  intro A
  induction A with
  | nil => intro B C h1 h2; rfl
  | cons a A ih =>
    intro B C h1 h2
    cases B with
    | nil => simp at h1
    | cons b B =>
      cases C with
      | nil => simp at h2
      | cons c C =>
        simp only [zipWith3, List.length_cons]
        rw [ih B C (by simpa using h1) (by simpa using h2)]

theorem zipWith3_getD {β : Type} (f : Nat → Nat → Nat → β) :
    ∀ (A B C : List Nat) (i : Nat) (d : β),
    A.length = B.length → B.length = C.length → i < A.length →
    (zipWith3 f A B C).getD i d
      = f (A.getD i 0) (B.getD i 0) (C.getD i 0) := by
  intro A
  induction A with
  | nil => intro B C i d h1 h2 hi; simp at hi
  | cons a A ih =>
    intro B C i d h1 h2 hi
    cases B with
    | nil => simp at h1
    | cons b B =>
      cases C with
      | nil => simp at h2
      | cons c C =>
        simp only [zipWith3]
        cases i with
        | zero => simp [List.getD_cons_zero]
        | succ j =>
          simp only [List.getD_cons_succ]
          exact ih B C j d (by simpa using h1) (by simpa using h2)
            (by simpa using hi)

theorem redDim_map_getD (sh c : List Nat) (i : Nat)
    (hclen : c.length = sh.length) (hi : i < sh.length) :
    ((sh.zip c).map redDim).getD i 0
      = if sh.getD i 0 = c.getD i 0 then 1 else sh.getD i 0 := by
  have hlen : i < ((sh.zip c).map redDim).length := by
    rw [List.length_map, List.length_zip]
    omega
  rw [List.getD_eq_getElem _ _ hlen, List.getElem_map, List.getElem_zip,
    List.getD_eq_getElem sh 0 hi, List.getD_eq_getElem c 0 (by omega)]
  rfl

theorem redDim_map_pos (sh c : List Nat) (hpos : ∀ d ∈ sh, 0 < d) :
    ∀ d ∈ (sh.zip c).map redDim, 0 < d := by
  intro d hd
  rw [List.mem_map] at hd
  obtain ⟨q, hq, rfl⟩ := hd
  unfold redDim
  by_cases hqe : q.1 = q.2
  · rw [if_pos hqe]
    exact Nat.one_pos
  · rw [if_neg hqe]
    exact hpos _ (List.of_mem_zip hq).1

/-- The `x`-th member of a reduction group is a well-formed input
multi-index; its flat index is in range and it collapses back to the group's
own collapsed multi-index. -/
theorem group_member_facts (sh c mc : List Nat) (x : Nat)
    (hpos : ∀ d ∈ sh, 0 < d)
    (hclen : c.length = sh.length)
    (hpairs : ∀ p ∈ sh.zip c, p.2 = p.1 ∨ p.2 = 1)
    (hmc : mc.length = sh.length)
    (hcb : ∀ p ∈ c.zip mc, p.2 < p.1) :
    (combineIdx (sh.zip c) mc (multiIdx ((sh.zip c).map redDim) x)).length
        = sh.length ∧
    (∀ p ∈ sh.zip
        (combineIdx (sh.zip c) mc (multiIdx ((sh.zip c).map redDim) x)),
      p.2 < p.1) ∧
    groupIdx sh c mc x < sh.prod ∧
    bcastIdx c (combineIdx (sh.zip c) mc (multiIdx ((sh.zip c).map redDim) x))
      = mc := by
  have htslen : (sh.zip c).length = sh.length := by
    rw [List.length_zip]
    omega
  have hmglen : mc.length = (sh.zip c).length := by rw [htslen, hmc]
  have hmxlen : (multiIdx ((sh.zip c).map redDim) x).length
      = (sh.zip c).length := by
    rw [multiIdx_length, List.length_map]
  have hmapfst : (sh.zip c).map Prod.fst = sh :=
    List.map_fst_zip _ _ (le_of_eq hclen.symm)
  have hmapsnd : (sh.zip c).map Prod.snd = c :=
    List.map_snd_zip _ _ (le_of_eq hclen)
  have hkept : (sh.zip c).map keptDim = c := by
    rw [keptMap_eq _ hpairs, hmapsnd]
  have hbmg : ∀ p ∈ ((sh.zip c).map keptDim).zip mc, p.2 < p.1 := by
    rw [hkept]
    exact hcb
  have hbmx : ∀ p ∈ ((sh.zip c).map redDim).zip
      (multiIdx ((sh.zip c).map redDim) x), p.2 < p.1 :=
    multiIdx_lt _ x (redDim_map_pos sh c hpos)
  have hlen1 : (combineIdx (sh.zip c) mc
      (multiIdx ((sh.zip c).map redDim) x)).length = sh.length := by
    rw [combineIdx_length _ _ _ hmglen hmxlen, htslen]
  have hb1 : ∀ p ∈ sh.zip
      (combineIdx (sh.zip c) mc (multiIdx ((sh.zip c).map redDim) x)),
      p.2 < p.1 := by
    have := combineIdx_bounds (sh.zip c) mc
      (multiIdx ((sh.zip c).map redDim) x) hmglen hmxlen hbmg hbmx
    rw [hmapfst] at this
    exact this
  refine ⟨hlen1, hb1, ?_, ?_⟩
  · unfold groupIdx
    exact flatIdx_lt _ _ hlen1.symm hb1
  · have hcbIdx : ∀ i, i < c.length → mc.getD i 0 < c.getD i 0 :=
      (forall_zip_iff_getD 0 0 (fun a b => b < a) c mc
        (by rw [hmc, hclen])).mp hcb
    have hpairsIdx : ∀ i, i < sh.length →
        c.getD i 0 = sh.getD i 0 ∨ c.getD i 0 = 1 :=
      (forall_zip_iff_getD 0 0 (fun a b => b = a ∨ b = 1) sh c hclen.symm).mp
        hpairs
    apply List.ext_getElem
    · unfold bcastIdx
      rw [List.length_zipWith, hlen1, hclen, Nat.min_self, hmc]
    · intro i h1 h2
      have hi : i < sh.length := by rw [← hmc]; exact h2
      rw [← List.getD_eq_getElem _ 0 h1, ← List.getD_eq_getElem _ 0 h2]
      unfold bcastIdx
      rw [getD_zipWith _ _ _ 0 0 0 i (by omega) (by rw [hlen1]; exact hi)]
      rw [combineIdx_getD sh c _ _ i hclen.symm (by rw [hmc]) (by
        rw [multiIdx_length, List.length_map, List.length_zip]; omega) hi]
      by_cases hc1 : c.getD i 0 = 1
      · rw [if_pos hc1]
        have := hcbIdx i (by omega)
        omega
      · rw [if_neg hc1]
        rcases hpairsIdx i hi with h | h
        · rw [if_pos h.symm]
        · exact absurd h hc1

/-- Every bounded input position is a member of its own reduction group. -/
theorem group_self_member (sh c ms : List Nat)
    (hclen : c.length = sh.length)
    (hpairs : ∀ p ∈ sh.zip c, p.2 = p.1 ∨ p.2 = 1)
    (hmslen : ms.length = sh.length)
    (hmsb : ∀ p ∈ sh.zip ms, p.2 < p.1) :
    ∃ xm, xm < groupSize sh c ∧
      groupIdx sh c (bcastIdx c ms) xm = flatIdx sh ms := by
  have hmsIdx : ∀ i, i < sh.length → ms.getD i 0 < sh.getD i 0 :=
    (forall_zip_iff_getD 0 0 (fun a b => b < a) sh ms hmslen.symm).mp hmsb
  have hpairsIdx : ∀ i, i < sh.length →
      c.getD i 0 = sh.getD i 0 ∨ c.getD i 0 = 1 :=
    (forall_zip_iff_getD 0 0 (fun a b => b = a ∨ b = 1) sh c hclen.symm).mp
      hpairs
  have hredlen : ((sh.zip c).map redDim).length = sh.length := by
    rw [List.length_map, List.length_zip]
    omega
  have hmx0len : (zipWith3 (fun si ci m => if si = ci then 0 else m)
      sh c ms).length = sh.length :=
    zipWith3_length _ sh c ms hclen.symm (by rw [hclen, hmslen])
  have hmx0getD : ∀ i, i < sh.length →
      (zipWith3 (fun si ci m => if si = ci then 0 else m) sh c ms).getD i 0
        = if sh.getD i 0 = c.getD i 0 then 0 else ms.getD i 0 := by
    intro i hi
    exact zipWith3_getD _ sh c ms i 0 hclen.symm (by rw [hclen, hmslen]) hi
  have hmx0b : ∀ p ∈ ((sh.zip c).map redDim).zip
      (zipWith3 (fun si ci m => if si = ci then 0 else m) sh c ms),
      p.2 < p.1 := by
    refine (forall_zip_iff_getD 0 0 (fun a b => b < a) _ _
      (by rw [hredlen, hmx0len])).mpr ?_
    intro i hi
    have hi' : i < sh.length := by rw [← hredlen]; exact hi
    rw [redDim_map_getD sh c i hclen hi', hmx0getD i hi']
    by_cases he : sh.getD i 0 = c.getD i 0
    · rw [if_pos he, if_pos he]
      omega
    · rw [if_neg he, if_neg he]
      exact hmsIdx i hi'
  refine ⟨flatIdx ((sh.zip c).map redDim)
    (zipWith3 (fun si ci m => if si = ci then 0 else m) sh c ms), ?_, ?_⟩
  · exact flatIdx_lt _ _ (by rw [hredlen, hmx0len]) hmx0b
  · unfold groupIdx
    rw [multiIdx_flatIdx _ _ (by rw [hredlen, hmx0len]) hmx0b]
    congr 1
    apply List.ext_getElem
    · rw [combineIdx_length _ _ _ ?l1 ?l2, List.length_zip, hclen,
        Nat.min_self, hmslen]
      case l1 =>
        unfold bcastIdx
        rw [List.length_zipWith, List.length_zip, hclen, hmslen, Nat.min_self]
      case l2 =>
        rw [hmx0len, List.length_zip, hclen, Nat.min_self]
    · intro i h1 h2
      have hi : i < sh.length := by rw [← hmslen]; exact h2
      rw [← List.getD_eq_getElem _ 0 h1, ← List.getD_eq_getElem _ 0 h2]
      rw [combineIdx_getD sh c _ _ i hclen.symm (by
          unfold bcastIdx
          rw [List.length_zipWith, hclen, hmslen, Nat.min_self]) (by
          rw [hmx0len]) hi]
      have hbcgetD : (bcastIdx c ms).getD i 0
          = if c.getD i 0 = 1 then 0 else ms.getD i 0 := by
        unfold bcastIdx
        exact getD_zipWith _ c ms 0 0 0 i (by omega) (by rw [hmslen]; exact hi)
      by_cases he : sh.getD i 0 = c.getD i 0
      · rw [if_pos he, hbcgetD]
        by_cases hc1 : c.getD i 0 = 1
        · rw [if_pos hc1]
          have := hmsIdx i hi
          omega
        · rw [if_neg hc1]
      · rw [if_neg he, hmx0getD i hi, if_neg he]

/-- Claim C7: `Max.backward` returns, at each input position, the value
`indicator / (count + 1e-10) * broadcast_grad`, where `indicator` is `1.0`
exactly when the input element equals the broadcast forward maximum of its
reduction group (else `0.0`), `count` is the reduce-sum of the indicator
over that group, and `broadcast_grad` is the upstream gradient broadcast to
the input shape. The saved forward value really is the group maximum: it
bounds every member of the group and is attained, and the position's own
value belongs to its group. `ninf` models the `-INFINITY` start, which lies
below every (finite float) input element. -/
theorem C7_max_backward (input grad_output : GPUBuffer ℚ)
    (axis : Option (List Nat)) (ninf : ℚ) (c : List Nat) (ret : GPUBuffer ℚ)
    (hpos : ∀ d ∈ input.shape, 0 < d)
    (hwf : input.data.length = input.shape.prod)
    (hninf : ∀ v ∈ input.data, ninf ≤ v)
    (hc : c = collapsedShape input.shape axis)
    (hret : ret = reduce_op (fun out a => max a out) id input axis ninf) :
    ∃ out : GPUBuffer ℚ,
      maxBackward input axis ret grad_output = Except.ok out ∧
      out.shape = input.shape ∧
      out.data.length = input.shape.prod ∧
      ∀ ms : List Nat, ms.length = input.shape.length →
        (∀ p ∈ input.shape.zip ms, p.2 < p.1) →
        (∃ xm, xm < groupSize input.shape c ∧
          groupIdx input.shape c (bcastIdx c ms) xm = flatIdx input.shape ms) ∧
        (∀ xg, xg < groupSize input.shape c →
          input.data.getD (groupIdx input.shape c (bcastIdx c ms) xg) 0
            ≤ ret.data.getD (flatIdx c (bcastIdx c ms)) 0) ∧
        (∃ xg, xg < groupSize input.shape c ∧
          input.data.getD (groupIdx input.shape c (bcastIdx c ms) xg) 0
            = ret.data.getD (flatIdx c (bcastIdx c ms)) 0) ∧
        out.data.getD (flatIdx input.shape ms) 0 =
          (if input.data.getD (flatIdx input.shape ms) 0
              = ret.data.getD (flatIdx c (bcastIdx c ms)) 0
            then (1 : ℚ) else 0)
          / ((∑ xg in Finset.range (groupSize input.shape c),
              if input.data.getD (groupIdx input.shape c (bcastIdx c ms) xg) 0
                = ret.data.getD (flatIdx c (bcastIdx c ms)) 0
              then (1 : ℚ) else 0) + eps10)
          * grad_output.data.getD (flatIdx c (bcastIdx c ms)) 0 := by
  subst hc
  subst hret
  have hclen : (collapsedShape input.shape axis).length = input.shape.length :=
    collapsedShape_length _ _
  have hpairs := collapsedShape_pairs input.shape axis
  obtain ⟨b2, hok2, hsh2, hlen2, hval2⟩ := binary_op_eqrank
    (fun a b => if a = b then (1 : ℚ) else 0) input
    (reinterp (collapsedShape input.shape axis)
      (reduce_op (fun out a => max a out) id input axis ninf))
    hpos hclen hpairs
  have hsh2pos : ∀ d ∈ b2.shape, 0 < d := by rw [hsh2]; exact hpos
  obtain ⟨b3, hok3, hsh3, hlen3, hval3⟩ := binary_op_eqrank
    (fun a b => a / b) b2
    (reinterp (collapsedShape input.shape axis)
      (reduce_op (fun out a => out + a) (fun out => out + eps10) b2 axis 0))
    hsh2pos (by rw [hsh2]; exact hclen) (by rw [hsh2]; exact hpairs)
  obtain ⟨b4, hok4, hsh4, hlen4, hval4⟩ := binary_op_eqrank
    (fun a b => a * b) b3
    (reinterp (collapsedShape input.shape axis) grad_output)
    (by rw [hsh3, hsh2]; exact hpos)
    (by rw [hsh3, hsh2]; exact hclen)
    (by rw [hsh3, hsh2]; exact hpairs)
  have hbind : ∀ {γ δ : Type} (a : γ) (f : γ → Except String δ),
      (Except.ok a >>= f) = f a := fun a f => rfl
  refine ⟨b4, ?_, by rw [hsh4, hsh3, hsh2], by rw [hlen4, hsh3, hsh2], ?_⟩
  · simp only [maxBackward, hok2, hbind, hok3, hok4]
  · intro ms hmslen hmsb
    have hmsIdx : ∀ i, i < input.shape.length →
        ms.getD i 0 < input.shape.getD i 0 :=
      (forall_zip_iff_getD 0 0 (fun a b => b < a) input.shape ms
        hmslen.symm).mp hmsb
    have hpairsIdx : ∀ i, i < input.shape.length →
        (collapsedShape input.shape axis).getD i 0 = input.shape.getD i 0 ∨
        (collapsedShape input.shape axis).getD i 0 = 1 :=
      (forall_zip_iff_getD 0 0 (fun a b => b = a ∨ b = 1) input.shape
        (collapsedShape input.shape axis) hclen.symm).mp hpairs
    have hbclen : (bcastIdx (collapsedShape input.shape axis) ms).length
        = input.shape.length := by
      unfold bcastIdx
      rw [List.length_zipWith, hclen, hmslen, Nat.min_self]
    have hbcgetD : ∀ i, i < input.shape.length →
        (bcastIdx (collapsedShape input.shape axis) ms).getD i 0
          = if (collapsedShape input.shape axis).getD i 0 = 1 then 0
            else ms.getD i 0 := by
      intro i hi
      unfold bcastIdx
      exact getD_zipWith _ _ ms 0 0 0 i (by omega) (by rw [hmslen]; exact hi)
    have hbcb : ∀ p ∈ (collapsedShape input.shape axis).zip
        (bcastIdx (collapsedShape input.shape axis) ms), p.2 < p.1 := by
      refine (forall_zip_iff_getD 0 0 (fun a b => b < a) _ _
        (by rw [hbclen, hclen])).mpr ?_
      intro i hi
      have hi' : i < input.shape.length := by rw [← hclen]; exact hi
      rw [hbcgetD i hi']
      by_cases hc1 : (collapsedShape input.shape axis).getD i 0 = 1
      · rw [if_pos hc1, hc1]
        omega
      · rw [if_neg hc1]
        rcases hpairsIdx i hi' with h | h
        · rw [h]
          exact hmsIdx i hi'
        · exact absurd h hc1
    have hSpos : 0 < groupSize input.shape (collapsedShape input.shape axis) := by
      unfold groupSize
      exact List.prod_pos (redDim_map_pos _ _ hpos)
    have hmemfacts := fun xg => group_member_facts input.shape
      (collapsedShape input.shape axis)
      (bcastIdx (collapsedShape input.shape axis) ms) xg hpos hclen hpairs
      hbclen hbcb
    have hreadmem : ∀ xg, ninf ≤ input.data.getD
        (groupIdx input.shape (collapsedShape input.shape axis)
          (bcastIdx (collapsedShape input.shape axis) ms) xg) 0 := by
      intro xg
      obtain ⟨-, -, hlt, -⟩ := hmemfacts xg
      have hlt' : groupIdx input.shape (collapsedShape input.shape axis)
          (bcastIdx (collapsedShape input.shape axis) ms) xg
          < input.data.length := by rw [hwf]; exact hlt
      rw [List.getD_eq_getElem _ _ hlt']
      exact hninf _ (List.mem_iff_getElem.mpr ⟨_, hlt', rfl⟩)
    have hretval := reduce_op_getD (fun out a => max a out) id input axis ninf
      hpos (bcastIdx (collapsedShape input.shape axis) ms) hbclen hbcb
    simp only [id_eq] at hretval
    have hLfold : (((List.range (groupSize input.shape
          (collapsedShape input.shape axis))).map
          (fun xg => input.data.getD (groupIdx input.shape
            (collapsedShape input.shape axis)
            (bcastIdx (collapsedShape input.shape axis) ms) xg) 0)).foldl
          (fun out a => max a out) ninf)
        = (List.range (groupSize input.shape
            (collapsedShape input.shape axis))).foldl
          (fun out xg => max (input.data.getD (groupIdx input.shape
            (collapsedShape input.shape axis)
            (bcastIdx (collapsedShape input.shape axis) ms) xg) 0) out) ninf :=
      List.foldl_map _ _ _ _
    have hmval : (reduce_op (fun out a => max a out) id input axis
          ninf).data.getD (flatIdx (collapsedShape input.shape axis)
          (bcastIdx (collapsedShape input.shape axis) ms)) 0
        = (((List.range (groupSize input.shape
            (collapsedShape input.shape axis))).map
            (fun xg => input.data.getD (groupIdx input.shape
              (collapsedShape input.shape axis)
              (bcastIdx (collapsedShape input.shape axis) ms) xg) 0)).foldl
            (fun out a => max a out) ninf) :=
      hretval.trans hLfold.symm
    refine ⟨?_, ?_, ?_, ?_⟩
    · exact group_self_member input.shape (collapsedShape input.shape axis) ms
        hclen hpairs hmslen hmsb
    · intro xg hxg
      rw [hmval]
      exact (foldl_max_le _ ninf).2 _
        (List.mem_map_of_mem _ (List.mem_range.mpr hxg))
    · have hLne : ((List.range (groupSize input.shape
          (collapsedShape input.shape axis))).map
          (fun xg => input.data.getD (groupIdx input.shape
            (collapsedShape input.shape axis)
            (bcastIdx (collapsedShape input.shape axis) ms) xg) 0)) ≠ [] :=
        List.length_pos.mp (by simpa using hSpos)
      have hattained := foldl_max_attained _ ninf hLne (by
        intro a ha
        obtain ⟨xg, hxgr, rfl⟩ := List.mem_map.mp ha
        exact hreadmem xg)
      obtain ⟨xg, hxgr, hxeq⟩ := List.mem_map.mp hattained
      exact ⟨xg, List.mem_range.mp hxgr, hxeq.trans hmval.symm⟩
    · have h4 := hval4 ms (by rw [hsh3, hsh2]; exact hmslen)
        (by rw [hsh3, hsh2]; exact hmsb)
      rw [hsh3, hsh2] at h4
      simp only [reinterp] at h4
      have h3 := hval3 ms (by rw [hsh2]; exact hmslen)
        (by rw [hsh2]; exact hmsb)
      rw [hsh2] at h3
      simp only [reinterp] at h3
      have h2 := hval2 ms hmslen hmsb
      simp only [reinterp] at h2
      have hdiv := reduce_op_getD (fun out a => out + a)
        (fun out => out + eps10) b2 axis 0 hsh2pos
        (bcastIdx (collapsedShape input.shape axis) ms)
        (by rw [hsh2]; exact hbclen) (by rw [hsh2]; exact hbcb)
      rw [hsh2] at hdiv
      simp only [] at hdiv
      have hsum : (List.range (groupSize input.shape
            (collapsedShape input.shape axis))).foldl
            (fun out xg => out + b2.data.getD (groupIdx input.shape
              (collapsedShape input.shape axis)
              (bcastIdx (collapsedShape input.shape axis) ms) xg) 0) 0
          = 0 + ∑ xg in Finset.range (groupSize input.shape
              (collapsedShape input.shape axis)),
              b2.data.getD (groupIdx input.shape
                (collapsedShape input.shape axis)
                (bcastIdx (collapsedShape input.shape axis) ms) xg) 0 :=
        foldl_range_add _ _ _
      rw [hsum, zero_add] at hdiv
      have hind : ∀ xg, b2.data.getD (groupIdx input.shape
            (collapsedShape input.shape axis)
            (bcastIdx (collapsedShape input.shape axis) ms) xg) 0
          = if input.data.getD (groupIdx input.shape
                (collapsedShape input.shape axis)
                (bcastIdx (collapsedShape input.shape axis) ms) xg) 0
              = (reduce_op (fun out a => max a out) id input axis
                  ninf).data.getD (flatIdx (collapsedShape input.shape axis)
                  (bcastIdx (collapsedShape input.shape axis) ms)) 0
            then (1 : ℚ) else 0 := by
        intro xg
        obtain ⟨hglen, hgb, -, hgbc⟩ := hmemfacts xg
        have h := hval2 (combineIdx
          (input.shape.zip (collapsedShape input.shape axis))
          (bcastIdx (collapsedShape input.shape axis) ms)
          (multiIdx ((input.shape.zip
            (collapsedShape input.shape axis)).map redDim) xg)) hglen hgb
        simp only [reinterp] at h
        simp only [hgbc] at h
        exact h
      have hsums : (∑ xg in Finset.range (groupSize input.shape
            (collapsedShape input.shape axis)),
            b2.data.getD (groupIdx input.shape
              (collapsedShape input.shape axis)
              (bcastIdx (collapsedShape input.shape axis) ms) xg) 0)
          = ∑ xg in Finset.range (groupSize input.shape
              (collapsedShape input.shape axis)),
              if input.data.getD (groupIdx input.shape
                  (collapsedShape input.shape axis)
                  (bcastIdx (collapsedShape input.shape axis) ms) xg) 0
                = (reduce_op (fun out a => max a out) id input axis
                    ninf).data.getD (flatIdx (collapsedShape input.shape axis)
                    (bcastIdx (collapsedShape input.shape axis) ms)) 0
              then (1 : ℚ) else 0 :=
        Finset.sum_congr rfl (fun xg _ => hind xg)
      rw [h4, h3, h2, hdiv, hsums]

/-- Witness for C7: a 2x2 input reduced over axis 1, with `ninf = 0` below
every element; `Max.backward` succeeds and returns an input-shaped buffer. -/
theorem C7_max_backward_witness :
    ∃ out : GPUBuffer ℚ,
      maxBackward (⟨[2, 2], [1, 3, 3, 2]⟩ : GPUBuffer ℚ) (some [1])
        (reduce_op (fun out a => max a out) id
          (⟨[2, 2], [1, 3, 3, 2]⟩ : GPUBuffer ℚ) (some [1]) 0)
        (⟨[2, 1], [10, 20]⟩ : GPUBuffer ℚ) = Except.ok out ∧
      out.shape = [2, 2] ∧
      out.data.length = 4 := by
  obtain ⟨out, hok, hsh, hlen, hms⟩ := C7_max_backward
    (⟨[2, 2], [1, 3, 3, 2]⟩ : GPUBuffer ℚ) (⟨[2, 1], [10, 20]⟩ : GPUBuffer ℚ)
    (some [1]) 0 (collapsedShape [2, 2] (some [1]))
    (reduce_op (fun out a => max a out) id
      (⟨[2, 2], [1, 3, 3, 2]⟩ : GPUBuffer ℚ) (some [1]) 0)
    (by decide) rfl (by decide) rfl rfl
  exact ⟨out, hok, hsh, hlen⟩

/-! ## Claim C9: kernel compilation caching -/

/-- State of the `functools.lru_cache()` wrapping `clbuild` (and
`get_binop_prg`): the cached `(key, handle)` pairs in most-recently-used
first order, and the number of `thr.compile` calls performed so far. Each
compilation returns a fresh handle, modelled by the running counter. Keys
abstract the `(thr, prg, name)` argument tuple. -/
structure CacheState where
  entries : List (Nat × Nat)
  compiles : Nat
deriving DecidableEq

/-- The default `maxsize` of `functools.lru_cache()`. -/
def lruMaxsize : Nat := 128

/-- One call of the cached `clbuild`, following CPython's `lru_cache`
discipline with the default `maxsize=128`: a hit returns the stored handle
and moves the key to most-recently-used position; a miss compiles (fresh
handle, counter bump), inserts at the front and drops the least recently
used entry when the cache is over capacity. -/
def clbuild (s : CacheState) (k : Nat) : Nat × CacheState :=
  match s.entries.lookup k with
  | some v =>
      (v, ⟨(k, v) :: s.entries.eraseP (fun p => p.1 == k), s.compiles⟩)
  | none =>
      (s.compiles,
       ⟨((k, s.compiles) :: s.entries).take lruMaxsize, s.compiles + 1⟩)

/-- Run a sequence of `clbuild` calls, discarding the returned handles. -/
def clbuildRun (s : CacheState) (ks : List Nat) : CacheState :=
  ks.foldl (fun s k => (clbuild s k).2) s

theorem lookup_append_cons :
    ∀ (l1 : List (Nat × Nat)) (k v : Nat) (l2 : List (Nat × Nat)),
    (∀ p ∈ l1, p.1 ≠ k) →
    List.lookup k (l1 ++ (k, v) :: l2) = some v := by
  intro l1
  induction l1 with
  | nil =>
    intro k v l2 h
    simp [List.lookup]
  | cons p l1 ih =>
    intro k v l2 h
    obtain ⟨a, b⟩ := p
    have ha : a ≠ k := h (a, b) (by simp)
    have hke : (k == a) = false := by
      simp only [beq_eq_false_iff_ne]
      exact fun he => ha he.symm
    simp only [List.cons_append, List.lookup, hke]
    exact ih k v l2 (fun q hq => h q (by simp [hq]))

theorem eraseP_append_cons :
    ∀ (l1 : List (Nat × Nat)) (k v j : Nat) (l2 : List (Nat × Nat)),
    j ≠ k →
    (∀ p ∈ l1, p.1 ≠ k) →
    ∃ l1' l2', (l1 ++ (k, v) :: l2).eraseP (fun p => p.1 == j)
        = l1' ++ (k, v) :: l2' ∧
      l1'.length ≤ l1.length ∧ (∀ p ∈ l1', p.1 ≠ k) := by
  intro l1
  induction l1 with
  | nil =>
    intro k v j l2 hjk h
    refine ⟨[], l2.eraseP (fun p => p.1 == j), ?_, le_refl _, by simp⟩
    simp only [List.nil_append]
    have hkj : (k == j) = false := by
      simp only [beq_eq_false_iff_ne]
      exact fun he => hjk he.symm
    simp only [List.eraseP_cons, hkj, cond_false]
  | cons p l1 ih =>
    intro k v j l2 hjk h
    by_cases hp : (p.1 == j) = true
    · refine ⟨l1, l2, ?_, by simp, fun q hq => h q (by simp [hq])⟩
      simp only [List.cons_append, List.eraseP_cons, hp, cond_true]
    · obtain ⟨l1', l2', heq, hle, hkeys⟩ :=
        ih k v j l2 hjk (fun q hq => h q (by simp [hq]))
      refine ⟨p :: l1', l2', ?_, by simpa using hle, ?_⟩
      · have hpf : (p.1 == j) = false := by
          cases hb : (p.1 == j)
          · rfl
          · exact absurd hb hp
        simp only [List.cons_append, List.eraseP_cons, hpf, cond_false]
        rw [heq]
      · intro q hq
        rcases List.mem_cons.mp hq with rfl | hq
        · exact h q (by simp)
        · exact hkeys q hq

theorem take_append_cons {α : Type} :
    ∀ (A : List α) (b : α) (C : List α) (n : Nat), A.length < n →
    (A ++ b :: C).take n = A ++ b :: C.take (n - A.length - 1) := by
  intro A
  induction A with
  | nil =>
    intro b C n hn
    cases n with
    | zero => omega
    | succ m => simp
  | cons a A ih =>
    intro b C n hn
    cases n with
    | zero => omega
    | succ m =>
      simp only [List.cons_append, List.take_succ_cons, List.length_cons]
      rw [ih b C m (by simpa using hn)]
      have harith : m - A.length - 1 = m + 1 - (A.length + 1) - 1 := by omega
      rw [harith]

/-- While fewer than `maxsize` other keys intervene, an entry survives the
LRU discipline: each call pushes it back by at most one position. -/
theorem clbuildRun_keeps (k v : Nat) :
    ∀ (ks : List Nat) (l1 l2 : List (Nat × Nat)) (comp : Nat),
    (∀ j ∈ ks, j ≠ k) →
    (∀ p ∈ l1, p.1 ≠ k) →
    l1.length + ks.length ≤ lruMaxsize - 1 →
    ∃ l1' l2' comp',
      clbuildRun ⟨l1 ++ (k, v) :: l2, comp⟩ ks
        = ⟨l1' ++ (k, v) :: l2', comp'⟩ ∧
      (∀ p ∈ l1', p.1 ≠ k) := by
  intro ks
  induction ks with
  | nil =>
    intro l1 l2 comp hks hkeys hlen
    exact ⟨l1, l2, comp, rfl, hkeys⟩
  | cons j ks ih =>
    intro l1 l2 comp hks hkeys hlen
    have hjk : j ≠ k := hks j (by simp)
    have hks' : ∀ i ∈ ks, i ≠ k := fun i hi => hks i (by simp [hi])
    show ∃ l1' l2' comp',
      clbuildRun (clbuild ⟨l1 ++ (k, v) :: l2, comp⟩ j).2 ks
        = ⟨l1' ++ (k, v) :: l2', comp'⟩ ∧ ∀ p ∈ l1', p.1 ≠ k
    cases hlk : List.lookup j (l1 ++ (k, v) :: l2) with
    | some w =>
      obtain ⟨e1, e2, heq, hle, hekeys⟩ :=
        eraseP_append_cons l1 k v j l2 hjk hkeys
      have hstep : (clbuild ⟨l1 ++ (k, v) :: l2, comp⟩ j).2
          = ⟨((j, w) :: e1) ++ (k, v) :: e2, comp⟩ := by
        simp only [clbuild, hlk, heq]
        rfl
      rw [hstep]
      obtain ⟨l1', l2', comp', hrun, hkeys'⟩ := ih ((j, w) :: e1) e2 comp hks'
        (by
          intro q hq
          rcases List.mem_cons.mp hq with rfl | hq
          · exact hjk
          · exact hekeys q hq)
        (by
          simp only [List.length_cons]
          have := hle
          simp only [List.length_cons] at hlen ⊢
          omega)
      exact ⟨l1', l2', comp', hrun, hkeys'⟩
    | none =>
      have hl1n : l1.length < lruMaxsize - 1 := by
        simp only [List.length_cons] at hlen
        omega
      have hstep : (clbuild ⟨l1 ++ (k, v) :: l2, comp⟩ j).2
          = ⟨((j, comp) :: l1) ++ (k, v) ::
              l2.take (lruMaxsize - 1 - l1.length - 1), comp + 1⟩ := by
        simp only [clbuild, hlk]
        congr 1
        rw [show lruMaxsize = 127 + 1 from rfl, List.take_succ_cons,
          take_append_cons l1 (k, v) l2 127 (by
            have : lruMaxsize = 128 := rfl
            omega)]
        rfl
      rw [hstep]
      obtain ⟨l1', l2', comp', hrun, hkeys'⟩ := ih ((j, comp) :: l1) _ (comp + 1)
        hks'
        (by
          intro q hq
          rcases List.mem_cons.mp hq with rfl | hq
          · exact hjk
          · exact hkeys q hq)
        (by
          simp only [List.length_cons] at hlen ⊢
          omega)
      exact ⟨l1', l2', comp', hrun, hkeys'⟩

set_option maxRecDepth 40000 in
/-- Counterexample for C9: with the default `functools.lru_cache()` capacity
of 128, building key 0, then 128 other distinct keys, then key 0 again does
NOT return the original handle — key 0 was evicted, so the repeat call
recompiles (the compile counter moves), contradicting process-lifetime
idempotence. -/
theorem C9_process_lifetime_cex :
    (clbuild (clbuildRun (clbuild (⟨[], 0⟩ : CacheState) 0).2
        ((List.range 128).map (fun i => i + 1))) 0).1
      ≠ (clbuild (⟨[], 0⟩ : CacheState) 0).1 ∧
    (clbuild (clbuildRun (clbuild (⟨[], 0⟩ : CacheState) 0).2
        ((List.range 128).map (fun i => i + 1))) 0).2.compiles
      ≠ (clbuildRun (clbuild (⟨[], 0⟩ : CacheState) 0).2
          ((List.range 128).map (fun i => i + 1))).compiles := by
  decide

/-- Claim C9 (amended): `clbuild`'s cache is an `functools.lru_cache()` with
the default capacity 128, not an unbounded process-lifetime cache. A repeat
call with an equal key returns the identical handle without recompiling
PROVIDED fewer than 128 calls with other keys intervened; beyond that the
entry may be evicted (see the counterexample). -/
theorem C9_clbuild_lru (s : CacheState) (k : Nat) (ks : List Nat)
    (hks : ∀ j ∈ ks, j ≠ k)
    (hlen : ks.length ≤ lruMaxsize - 1) :
    (clbuild (clbuildRun (clbuild s k).2 ks) k).1 = (clbuild s k).1 ∧
    (clbuild (clbuildRun (clbuild s k).2 ks) k).2.compiles
      = (clbuildRun (clbuild s k).2 ks).compiles := by
  cases hl : List.lookup k s.entries with
  | some v =>
    have h1 : (clbuild s k).1 = v := by
      simp only [clbuild, hl]
    have h2 : (clbuild s k).2
        = ⟨(k, v) :: s.entries.eraseP (fun p => p.1 == k), s.compiles⟩ := by
      simp only [clbuild, hl]
    rw [h1, h2]
    obtain ⟨l1', l2', comp', hrun, hkeys'⟩ := clbuildRun_keeps k v ks []
      (s.entries.eraseP (fun p => p.1 == k)) s.compiles hks (by simp)
      (by simpa using hlen)
    rw [List.nil_append] at hrun
    rw [hrun]
    have hfinal : List.lookup k (l1' ++ (k, v) :: l2') = some v :=
      lookup_append_cons l1' k v l2' hkeys'
    constructor
    · simp only [clbuild, hfinal]
    · simp only [clbuild, hfinal]
  | none =>
    have h1 : (clbuild s k).1 = s.compiles := by
      simp only [clbuild, hl]
    have h2 : (clbuild s k).2
        = ⟨(k, s.compiles) :: s.entries.take (lruMaxsize - 1),
           s.compiles + 1⟩ := by
      simp only [clbuild, hl]
      rw [show lruMaxsize = 127 + 1 from rfl, List.take_succ_cons]
    rw [h1, h2]
    obtain ⟨l1', l2', comp', hrun, hkeys'⟩ := clbuildRun_keeps k s.compiles ks
      [] (s.entries.take (lruMaxsize - 1)) (s.compiles + 1) hks (by simp)
      (by simpa using hlen)
    rw [List.nil_append] at hrun
    rw [hrun]
    have hfinal : List.lookup k (l1' ++ (k, s.compiles) :: l2')
        = some s.compiles :=
      lookup_append_cons l1' k s.compiles l2' hkeys'
    constructor
    · simp only [clbuild, hfinal]
    · simp only [clbuild, hfinal]

/-- Witness for C9's amended statement: key 5, three distinct intervening
keys, same handle returned. -/
theorem C9_clbuild_lru_witness :
    (∀ j ∈ [1, 2, 3], j ≠ 5) ∧ [1, 2, 3].length ≤ lruMaxsize - 1 ∧
    (clbuild (clbuildRun (clbuild (⟨[], 0⟩ : CacheState) 5).2 [1, 2, 3]) 5).1
      = (clbuild (⟨[], 0⟩ : CacheState) 5).1 := by
  refine ⟨by decide, by decide, ?_⟩
  exact (C9_clbuild_lru ⟨[], 0⟩ 5 [1, 2, 3] (by decide) (by decide)).1

/-! ## Claim C10: Transpose round-trip -/

theorem buffer_ext {α : Type} (a b : GPUBuffer α)
    (h1 : a.shape = b.shape) (h2 : a.data = b.data) : a = b := by
  cases a
  cases b
  cases h1
  cases h2
  rfl

theorem flatIdx_eq_sum :
    ∀ (sh m : List Nat), m.length = sh.length →
    flatIdx sh m = ∑ j in Finset.range sh.length,
      m.getD j 0 * (sh.drop (j + 1)).prod := by
  intro sh
  induction sh with
  | nil =>
    intro m h
    have hm : m = [] := List.eq_nil_of_length_eq_zero h
    subst hm
    simp [flatIdx, flatAcc]
  | cons d sh ih =>
    intro m h
    cases m with
    | nil => simp at h
    | cons a m =>
      have h' : m.length = sh.length := by simpa using h
      rw [flatIdx_cons d sh m a h'.symm, ih m h']
      rw [List.length_cons, Finset.sum_range_succ']
      simp only [List.getD_cons_succ, List.getD_cons_zero,
        List.drop_succ_cons, List.drop_zero]
      ring

theorem list_sum_getD :
    ∀ (L : List Nat), L.sum = ∑ i in Finset.range L.length, L.getD i 0 := by
  intro L
  induction L with
  | nil => simp
  | cons a L ih =>
    rw [List.sum_cons, List.length_cons, Finset.sum_range_succ']
    simp only [List.getD_cons_succ, List.getD_cons_zero]
    rw [← ih]
    ring

/-- Index walk of the generated `perm` kernel (loop modelled over the
reversed order): feeding it the little-endian flat output position peels one
digit per axis and accumulates `digit * stride(order[i])` with the input
strides `prod(shape[order[i]+1:])`. -/
theorem permIdxA_spec (sh : List Nat) :
    ∀ (orderR mR : List Nat) (q idx : Nat),
    mR.length = orderR.length →
    (∀ p ∈ (orderR.map (fun o => sh.getD o 0)).zip mR, p.2 < p.1) →
    permIdxA sh orderR
      (flatR (orderR.map (fun o => sh.getD o 0)) mR +
        q * (orderR.map (fun o => sh.getD o 0)).prod) idx
      = idx + ((orderR.zip mR).map
          (fun p => p.2 * (sh.drop (p.1 + 1)).prod)).sum := by
  intro orderR
  induction orderR with
  | nil =>
    intro mR q idx h hb
    have hm : mR = [] := List.eq_nil_of_length_eq_zero h
    subst hm
    rfl
  | cons o rest ih =>
    intro mR q idx h hb
    cases mR with
    | nil => simp at h
    | cons d mR =>
      have h' : mR.length = rest.length := by simpa using h
      have hd : d < sh.getD o 0 := by
        have := hb (sh.getD o 0, d) (List.mem_cons_self _ _)
        simpa using this
      have hb' : ∀ p ∈ (rest.map (fun o => sh.getD o 0)).zip mR, p.2 < p.1 :=
        fun p hp => hb p (List.mem_cons_of_mem _ hp)
      have hr0 : 0 < sh.getD o 0 := Nat.lt_of_le_of_lt (Nat.zero_le d) hd
      simp only [List.map_cons, List.prod_cons, flatR, List.zip_cons_cons]
      rw [show d + sh.getD o 0 * flatR (rest.map (fun o => sh.getD o 0)) mR +
          q * (sh.getD o 0 * (rest.map (fun o => sh.getD o 0)).prod)
          = d + sh.getD o 0 * (flatR (rest.map (fun o => sh.getD o 0)) mR +
            q * (rest.map (fun o => sh.getD o 0)).prod) by ring]
      simp only [permIdxA]
      rw [Nat.add_mul_mod_self_left, Nat.mod_eq_of_lt hd,
        Nat.add_mul_div_left _ _ hr0, Nat.div_eq_of_lt hd, Nat.zero_add]
      rw [ih mR q (idx + d * (sh.drop (o + 1)).prod) h' hb']
      simp only [List.map_cons, List.sum_cons]
      ring

/-- Value of one `perm_axis` output position: the kernel's strided read is
exactly the input value at the inverse-scattered multi-index (position `j`
of the input index is the output digit at `order.indexOf j`). -/
theorem perm_axis_val {α : Type} [Zero α] (x : GPUBuffer α) (order : List Nat)
    (horder : ∀ i, i < order.length → order.getD i 0 < x.shape.length)
    (hnodup : order.Nodup)
    (m : List Nat) (hm : m.length = order.length)
    (hb : ∀ p ∈ (order.map (fun o => x.shape.getD o 0)).zip m, p.2 < p.1) :
    (perm_axis x order).data.getD
        (flatIdx (order.map (fun o => x.shape.getD o 0)) m) 0
      = x.data.getD (flatIdx x.shape
          ((List.range x.shape.length).map
            (fun j => m.getD (order.indexOf j) 0))) 0 := by
  have hosl : (order.map (fun o => x.shape.getD o 0)).length = m.length := by
    simp [hm]
  have hgid : flatIdx (order.map (fun o => x.shape.getD o 0)) m
      < (order.map (fun o => x.shape.getD o 0)).prod :=
    flatIdx_lt _ _ hosl hb
  simp only [perm_axis]
  rw [getD_range_map _ _ _ _ hgid]
  have hrev : flatIdx (order.map (fun o => x.shape.getD o 0)) m
      = flatR (order.reverse.map (fun o => x.shape.getD o 0)) m.reverse +
        0 * (order.reverse.map (fun o => x.shape.getD o 0)).prod := by
    rw [Nat.zero_mul, Nat.add_zero, flatIdx_flatR _ _ hosl]
    congr 1
    rw [List.map_reverse]
  rw [hrev, permIdxA_spec x.shape order.reverse m.reverse 0 0
    (by simp [hm])
    (by
      intro p hp
      rw [List.map_reverse, zip_of_reverse _ _ hosl] at hp
      exact hb p (List.mem_reverse.mp hp))]
  rw [Nat.zero_add]
  have hzipsum : ((order.reverse.zip m.reverse).map
        (fun p => p.2 * (x.shape.drop (p.1 + 1)).prod)).sum
      = ((order.zip m).map
        (fun p => p.2 * (x.shape.drop (p.1 + 1)).prod)).sum := by
    rw [zip_of_reverse _ _ hm.symm, List.map_reverse, List.sum_reverse]
  rw [hzipsum]
  have hcong : (∑ j in Finset.range x.shape.length,
        ((List.range x.shape.length).map
          (fun j => m.getD (order.indexOf j) 0)).getD j 0 *
          (x.shape.drop (j + 1)).prod)
      = ∑ j in Finset.range x.shape.length,
          m.getD (order.indexOf j) 0 * (x.shape.drop (j + 1)).prod :=
    Finset.sum_congr rfl (fun j hj => by
      rw [getD_range_map _ _ _ _ (Finset.mem_range.mp hj)])
  have hsub : order.toFinset ⊆ Finset.range x.shape.length := by
    intro j hj
    rw [List.mem_toFinset] at hj
    rw [Finset.mem_range]
    rw [List.mem_iff_getElem] at hj
    obtain ⟨i, hi, rfl⟩ := hj
    have := horder i hi
    rwa [List.getD_eq_getElem _ _ hi] at this
  have hzero : ∀ j ∈ Finset.range x.shape.length, j ∉ order.toFinset →
      m.getD (order.indexOf j) 0 * (x.shape.drop (j + 1)).prod = 0 := by
    intro j hj hnot
    have hnotmem : j ∉ order := by simpa using hnot
    rw [List.indexOf_eq_length.mpr hnotmem,
      List.getD_eq_default _ _ (le_of_eq hm), Nat.zero_mul]
  have hlists : (order.zip m).map
        (fun p => p.2 * (x.shape.drop (p.1 + 1)).prod)
      = order.map
        (fun j => m.getD (order.indexOf j) 0 * (x.shape.drop (j + 1)).prod) := by
    apply List.ext_getElem
    · simp [hm]
    · intro i h1 h2
      have hio : i < order.length := by simpa using h2
      rw [List.getElem_map, List.getElem_map, List.getElem_zip]
      rw [List.indexOf_getElem hnodup i hio]
      rw [List.getD_eq_getElem m 0 (by rw [hm]; exact hio)]
  rw [flatIdx_eq_sum x.shape _ (by simp), hcong,
    ← Finset.sum_subset hsub hzero, List.sum_toFinset _ hnodup, ← hlists]

/-- Claim C10: for every buffer and every permutation `order` of its axes,
`Transpose.backward`'s `perm_axis` with `np.argsort(order)` applied to
`Transpose.forward`'s `perm_axis` with `order` reproduces the buffer
exactly — the same shape and every element value. -/
theorem C10_transpose_roundtrip {α : Type} [Zero α] (x : GPUBuffer α)
    (order : List Nat)
    (hperm : order.Perm (List.range x.shape.length))
    (hpos : ∀ d ∈ x.shape, 0 < d)
    (hwf : x.data.length = x.shape.prod) :
    transposeBackward (transposeForward x order) order = x := by
  have hn : order.length = x.shape.length :=
    hperm.length_eq.trans (List.length_range _)
  have hmemiff : ∀ j, j ∈ order ↔ j < x.shape.length := fun j =>
    hperm.mem_iff.trans List.mem_range
  have hnodup : order.Nodup := hperm.nodup_iff.mpr (List.nodup_range _)
  have horder : ∀ i, i < order.length → order.getD i 0 < x.shape.length := by
    intro i hi
    rw [List.getD_eq_getElem order 0 hi]
    exact (hmemiff _).mp (List.mem_iff_getElem.mpr ⟨i, hi, rfl⟩)
  have hidxlt : ∀ j, j < x.shape.length → order.indexOf j < order.length :=
    fun j hj => List.indexOf_lt_length.mpr ((hmemiff j).mpr hj)
  have hinvlen : (argsort order).length = order.length := by
    simp [argsort]
  have hinvgetD : ∀ j, j < order.length →
      (argsort order).getD j 0 = order.indexOf j := by
    intro j hj
    unfold argsort
    exact getD_range_map _ _ _ _ hj
  have hinvnodup : (argsort order).Nodup := by
    unfold argsort
    refine List.Nodup.map_on ?_ (List.nodup_range _)
    intro a ha b hb hab
    rw [List.mem_range] at ha hb
    exact (List.indexOf_inj ((hmemiff a).mpr (by omega))
      ((hmemiff b).mpr (by omega))).mp hab
  have hinvidx : ∀ j, j < x.shape.length →
      (argsort order).indexOf j = order.getD j 0 := by
    intro j hj
    have hj' : j < order.length := by rw [hn]; exact hj
    have hoj : order.getD j 0 < order.length := by
      have := horder j hj'
      rw [← hn] at this
      exact this
    have hoj2 : order.getD j 0 < (argsort order).length := by
      rw [hinvlen]; exact hoj
    have hinvelem : (argsort order)[order.getD j 0] = j := by
      rw [← List.getD_eq_getElem _ 0 hoj2,
        hinvgetD _ hoj, List.getD_eq_getElem order 0 hj',
        List.indexOf_getElem hnodup j hj']
    calc (argsort order).indexOf j
        = (argsort order).indexOf ((argsort order)[order.getD j 0]) := by
          rw [hinvelem]
      _ = order.getD j 0 := List.indexOf_getElem hinvnodup _ _
  have hysh : (perm_axis x order).shape
      = order.map (fun o => x.shape.getD o 0) := rfl
  have hosizegetD : ∀ i, i < order.length →
      (order.map (fun o => x.shape.getD o 0)).getD i 0
        = x.shape.getD (order.getD i 0) 0 := by
    intro i hi
    rw [List.getD_eq_getElem _ _ (by simpa using hi), List.getElem_map,
      List.getD_eq_getElem order 0 hi]
  have hshape_eq : (argsort order).map
      (fun o => (perm_axis x order).shape.getD o 0) = x.shape := by
    apply List.ext_getElem
    · simp only [List.length_map, hinvlen, hn]
    · intro j h1 h2
      have hj' : j < order.length := by rw [hn]; exact h2
      rw [← List.getD_eq_getElem _ 0 h1, ← List.getD_eq_getElem _ 0 h2]
      rw [show ((argsort order).map
          (fun o => (perm_axis x order).shape.getD o 0)).getD j 0
          = (perm_axis x order).shape.getD ((argsort order).getD j 0) 0 from by
        rw [List.getD_eq_getElem _ _
            (by rw [List.length_map, hinvlen]; exact hj'),
          List.getElem_map,
          List.getD_eq_getElem (argsort order) 0 (by rw [hinvlen]; exact hj')]]
      rw [hinvgetD _ hj', hysh, hosizegetD _ (hidxlt j h2)]
      rw [show order.getD (order.indexOf j) 0 = j from by
        rw [List.getD_eq_getElem order 0 (hidxlt j h2)]
        exact List.getElem_indexOf
          (List.indexOf_lt_length.mpr ((hmemiff j).mpr h2))]
  apply buffer_ext
  · exact hshape_eq
  · -- data equality
    have hzdlen : (transposeBackward (transposeForward x order) order).data.length
        = x.data.length := by
      show ((List.range _).map _).length = x.data.length
      rw [List.length_map, List.length_range]
      show ((argsort order).map
        (fun o => (perm_axis x order).shape.getD o 0)).prod = x.data.length
      rw [hshape_eq, hwf]
    apply List.ext_getElem hzdlen
    intro gid h1 h2
    have hgid : gid < x.shape.prod := by rw [← hwf]; exact h2
    have hmzlen : (multiIdx x.shape gid).length = x.shape.length :=
      multiIdx_length _ _
    have hmzb : ∀ p ∈ x.shape.zip (multiIdx x.shape gid), p.2 < p.1 :=
      multiIdx_lt _ _ hpos
    have hmzIdx : ∀ i, i < x.shape.length →
        (multiIdx x.shape gid).getD i 0 < x.shape.getD i 0 :=
      (forall_zip_iff_getD 0 0 (fun a b => b < a) x.shape _
        hmzlen.symm).mp hmzb
    rw [← List.getD_eq_getElem _ 0 h1, ← List.getD_eq_getElem _ 0 h2]
    have hyval := perm_axis_val (perm_axis x order) (argsort order)
      (by
        intro i hi
        rw [hinvgetD _ (by rw [← hinvlen]; exact hi), hysh, List.length_map]
        exact hidxlt _ (by
          rw [hinvlen, hn] at hi
          exact hi))
      hinvnodup (multiIdx x.shape gid)
      (by rw [hmzlen, ← hn, ← hinvlen])
      (by rw [hshape_eq]; exact hmzb)
    rw [hshape_eq] at hyval
    rw [flatIdx_multiIdx x.shape gid hgid] at hyval
    rw [hysh, List.length_map] at hyval
    have hmyIdx : ∀ i, i < order.length →
        ((List.range order.length).map
          (fun j => (multiIdx x.shape gid).getD ((argsort order).indexOf j) 0)).getD i 0
          = (multiIdx x.shape gid).getD (order.getD i 0) 0 := by
      intro i hi
      rw [getD_range_map _ _ _ _ hi, hinvidx i (by rw [← hn]; exact hi)]
    have hmyb : ∀ p ∈ (order.map (fun o => x.shape.getD o 0)).zip
        ((List.range order.length).map
          (fun j => (multiIdx x.shape gid).getD ((argsort order).indexOf j) 0)),
        p.2 < p.1 := by
      refine (forall_zip_iff_getD 0 0 (fun a b => b < a) _ _ (by simp)).mpr ?_
      intro i hi
      have hi' : i < order.length := by simpa using hi
      rw [hosizegetD _ hi', hmyIdx _ hi']
      exact hmzIdx _ (horder _ hi')
    have hxval := perm_axis_val x order horder hnodup
      ((List.range order.length).map
        (fun j => (multiIdx x.shape gid).getD ((argsort order).indexOf j) 0))
      (by simp) hmyb
    have hfinal : (List.range x.shape.length).map
        (fun j => ((List.range order.length).map
          (fun j => (multiIdx x.shape gid).getD ((argsort order).indexOf j) 0)).getD
            (order.indexOf j) 0)
        = multiIdx x.shape gid := by
      apply List.ext_getElem
      · simp [hmzlen]
      · intro j hj1 hj2
        have hj : j < x.shape.length := by rw [← hmzlen]; exact hj2
        rw [← List.getD_eq_getElem _ 0 hj1, ← List.getD_eq_getElem _ 0 hj2]
        rw [getD_range_map _ _ _ _ hj]
        rw [hmyIdx _ (hidxlt j hj)]
        rw [show order.getD (order.indexOf j) 0 = j from by
          rw [List.getD_eq_getElem order 0 (hidxlt j hj)]
          exact List.getElem_indexOf
            (List.indexOf_lt_length.mpr ((hmemiff j).mpr hj))]
    show (perm_axis (perm_axis x order) (argsort order)).data.getD gid 0
      = x.data.getD gid 0
    rw [hyval, hxval, hfinal, flatIdx_multiIdx x.shape gid hgid]

/-- Witness for C10: transposing a 2x3 buffer with order (1,0) and applying
the backward permutation `argsort (1,0) = (1,0)` restores it exactly. -/
theorem C10_transpose_roundtrip_witness :
    transposeBackward (transposeForward
        (⟨[2, 3], [1, 2, 3, 4, 5, 6]⟩ : GPUBuffer ℤ) [1, 0]) [1, 0]
      = (⟨[2, 3], [1, 2, 3, 4, 5, 6]⟩ : GPUBuffer ℤ) :=
  C10_transpose_roundtrip (⟨[2, 3], [1, 2, 3, 4, 5, 6]⟩ : GPUBuffer ℤ) [1, 0]
    (by decide) (by decide) (by decide)
